import Mathlib

/-!
# Tree widget (`widget/tree.go`): a shallow embedding

The tree widget keeps no node objects: the forest is described by the caller's
`ChildUIDs` and `IsBranch` callbacks, and the widget holds the open map, the
selection, the keyboard focus and the scroll offset.

Modelling conventions.

* `float32` coordinates are exact integers (`Int`); the one division, by 2 in the
  separator offset of `Layout`, is integer division.
* A Go function field is an `Option`: `none` is the nil function.  The observer
  callbacks (`OnSelected`, `OnUnselected`, `OnBranchOpened`, `OnBranchClosed`)
  are a flag (set or nil) and every call of a set observer is appended to
  `Tree.events`.
* `Tree.walk` recurses through the caller's callbacks and need not terminate;
  the model carries a recursion-depth budget and returns `Fault.outOfFuel`
  when the budget is used up.  Calling a nil function is `Fault.nilCall`.
* Theme sizes are parameters (`Tree.theme`).
* The Go map `open` is the total function `openMap` (a missing key reads
  `false`, and `ensureOpenMap` precedes every write).
* `Tree.Refresh` (a `BaseWidget` method) repaints through the cached renderer,
  when there is one: `treeRenderer.Refresh` recomputes `branchMinSize` and
  `leafMinSize` from the node template (`updateMinSizes`) and lays the tree out
  again, which can move `offset` (`offsetUpdated`).  The `Refresh` and
  `RefreshItem` calls inside the tree operations are not modelled: the model of
  an operation is its own writes and observer calls.  `Refresh` writes neither the
  open map, the selection, the focus nor `Root`, and calls no observer.  The
  content renderer is modelled on its own (`treeContentRenderer`).
-/

namespace widget

/-- A position `fyne.Position`. -/
structure Position where
  X : Int
  Y : Int
  deriving DecidableEq, Repr

/-- A size `fyne.Size`. -/
structure Size where
  Width : Int
  Height : Int
  deriving DecidableEq, Repr

/-- The two ways an operation of the model fails to return. -/
inductive Fault where
  | nilCall
  | outOfFuel
  deriving DecidableEq, Repr

/-- One call of a registered observer callback. -/
inductive Event where
  | branchClosed (uid : String)
  | branchOpened (uid : String)
  | selected (uid : String)
  | unselected (uid : String)
  deriving DecidableEq, Repr

/-- The key names `Tree.TypedKey` switches on. -/
inductive KeyName where
  | KeySpace
  | KeyDown
  | KeyLeft
  | KeyRight
  | KeyUp
  | other
  deriving DecidableEq, Repr

/-- The part of the scroll container the tree reads: its offset and its size. -/
structure Scroll where
  Offset : Position
  Size : widget.Size
  deriving DecidableEq, Repr

/-- Modelled from the spec: `widget.Scroll.ScrollToOffset` is outside the listed
sources; the scroller adopts the offset it is asked for. -/
def Scroll.ScrollToOffset (s : Scroll) (p : Position) : Scroll :=
  { s with Offset := p }

/-- The theme sizes the tree and its content renderer read through `Theme()`. -/
structure Theme where
  SizeNamePadding : Int
  SizeNameSeparatorThickness : Int
  SizeNameInlineIcon : Int
  deriving DecidableEq, Repr

/-- The `Tree` struct.  `CreateNode` and `UpdateNode` are flags (set or nil): what
they draw is not modelled.  `theme` is what `t.Theme()` returns. -/
structure Tree where
  Root : String
  HideSeparators : Bool
  ChildUIDs : Option (String → List String)
  CreateNode : Bool
  IsBranch : Option (String → Bool)
  OnBranchClosed : Bool
  OnBranchOpened : Bool
  OnSelected : Bool
  OnUnselected : Bool
  UpdateNode : Bool
  branchMinSize : Size
  currentFocus : String
  focused : Bool
  leafMinSize : Size
  offset : Position
  openMap : String → Bool
  scroller : Option Scroll
  selected : List String
  theme : Theme
  events : List Event

/-- Go `Tree.CloseAllBranches`: a fresh, empty open map. -/
def Tree.CloseAllBranches (t : Tree) : Tree :=
  { t with openMap := fun _ => false }

/-- Go `Tree.CloseBranch`: the write of the open map and the observer call.  The
trailing `t.Refresh()` is not modelled; through the renderer it can rewrite
`offset`, `branchMinSize` and `leafMinSize`, and nothing else of the tree. -/
def Tree.CloseBranch (t : Tree) (uid : String) : Tree :=
  let t1 := { t with openMap := fun k => if k = uid then false else t.openMap k }
  if t1.OnBranchClosed then { t1 with events := t1.events ++ [Event.branchClosed uid] } else t1

/-- Go `Tree.IsBranchOpen`. -/
def Tree.IsBranchOpen (t : Tree) (uid : String) : Bool :=
  if uid = t.Root then true else t.openMap uid

/-- Go `Tree.FocusGained`. -/
def Tree.FocusGained (t : Tree) : Tree :=
  let t1 :=
    if t.currentFocus = "" then
      match t.ChildUIDs with
      | some childUIDs =>
        match childUIDs "" with
        | id0 :: _ => { t with currentFocus := id0 }
        | [] => t
      | none => t
    else t
  { t1 with focused := true }

/-- Go `Tree.OpenBranch`: the write of the open map and the observer call.  The
trailing `t.Refresh()` is not modelled; through the renderer it can rewrite
`offset`, `branchMinSize` and `leafMinSize`, and nothing else of the tree. -/
def Tree.OpenBranch (t : Tree) (uid : String) : Tree :=
  let t1 := { t with openMap := fun k => if k = uid then true else t.openMap k }
  if t1.OnBranchOpened then { t1 with events := t1.events ++ [Event.branchOpened uid] } else t1

/-- Go `Tree.ToggleBranch`. -/
def Tree.ToggleBranch (t : Tree) (uid : String) : Tree :=
  if t.IsBranchOpen uid then t.CloseBranch uid else t.OpenBranch uid

/-- Go `Tree.walk`, threading the state the `onNode` closure writes (the tree and
the closure's captured variables `α`).  The first argument bounds the recursion
depth. -/
def Tree.walk {α : Type} : Nat → String → String → Int →
    (String → String → Bool → Int → Tree × α → Tree × α) → Tree × α → Except Fault (Tree × α)
  | 0, _, _, _, _, _ => .error Fault.outOfFuel
  | fuel + 1, uid, parent, depth, onNode, s =>
    match s.1.IsBranch with
    | none => .ok s
    | some isBranch =>
      if isBranch uid then
        let s1 := onNode uid parent true depth s
        if s1.1.IsBranchOpen uid then
          match s1.1.ChildUIDs with
          | none => .ok s1
          | some childUIDs =>
            (childUIDs uid).foldlM (fun acc c => Tree.walk fuel c uid (depth + 1) onNode acc) s1
        else .ok s1
      else .ok (onNode uid parent false depth s)

/-- Go `Tree.walkAll`. -/
def Tree.walkAll {α : Type} (fuel : Nat)
    (onNode : String → String → Bool → Int → Tree × α → Tree × α) (s : Tree × α) :
    Except Fault (Tree × α) :=
  Tree.walk fuel s.1.Root "" 0 onNode s

/-- Go `Tree.OpenAllBranches`: the closure passed to `walkAll`. -/
def Tree.openAllBranchesNode (uid _parent : String) (branch : Bool) (_depth : Int)
    (s : Tree × Unit) : Tree × Unit :=
  if branch then
    ({ s.1 with openMap := fun k => if k = uid then true else s.1.openMap k }, s.2)
  else s

/-- Go `Tree.OpenAllBranches`. -/
def Tree.OpenAllBranches (fuel : Nat) (t : Tree) : Except Fault Tree :=
  (Tree.walkAll fuel Tree.openAllBranchesNode (t, ())).map Prod.fst

/-- The named results `y`, `size`, `found` of `Tree.offsetAndSize`, which its
closure writes. -/
structure OffsetAndSize where
  y : Int
  size : Size
  found : Bool
  deriving DecidableEq, Repr

/-- Go `Tree.offsetAndSize`: the closure passed to `walkAll`. -/
def Tree.offsetAndSizeNode (uid : String) (id _parent : String) (branch : Bool) (_depth : Int)
    (s : Tree × OffsetAndSize) : Tree × OffsetAndSize :=
  let m := if branch then s.1.branchMinSize else s.1.leafMinSize
  if id = uid then
    (s.1, { s.2 with found := true, size := m })
  else if !s.2.found then
    if s.1.Root = "" ∧ id = "" then s
    else
      let y1 := if s.2.y > 0 then s.2.y + s.1.theme.SizeNamePadding else s.2.y
      (s.1, { s.2 with y := y1 + m.Height })
  else s

/-- Go `Tree.offsetAndSize`. -/
def Tree.offsetAndSize (fuel : Nat) (t : Tree) (uid : String) : Except Fault OffsetAndSize :=
  (Tree.walkAll fuel (Tree.offsetAndSizeNode uid) (t, ⟨0, ⟨0, 0⟩, false⟩)).map Prod.snd

/-- Go `Tree.offsetUpdated` (the partial refresh it requests repaints only). -/
def Tree.offsetUpdated (t : Tree) (pos : Position) : Tree :=
  if t.offset = pos then t else { t with offset := pos }

/-- Go `Tree.ScrollTo`, lines 265-270: the offset `newY` that is asked of the
scroller for a row at `r.y` of size `r.size`. -/
def Tree.scrollToNewY (r : OffsetAndSize) (scroller : Scroll) : Int :=
  if r.y < scroller.Offset.Y then r.y
  else if r.y + r.size.Height > scroller.Offset.Y + scroller.Size.Height then
    r.y + r.size.Height - scroller.Size.Height
  else scroller.Offset.Y

/-- Go `Tree.ScrollTo`. -/
def Tree.ScrollTo (fuel : Nat) (t : Tree) (uid : String) : Except Fault Tree :=
  match t.scroller with
  | none => .ok t
  | some scroller =>
    match t.offsetAndSize fuel uid with
    | .error e => .error e
    | .ok r =>
      if !r.found then .ok t
      else
        let scroller1 := scroller.ScrollToOffset ⟨0, Tree.scrollToNewY r scroller⟩
        .ok (Tree.offsetUpdated { t with scroller := some scroller1 } scroller1.Offset)

/-- Go `Tree.Select`, from the assignment `t.selected = []TreeNodeID{uid}` on. -/
def Tree.selectNew (fuel : Nat) (t : Tree) (uid : String) : Except Fault Tree :=
  match Tree.ScrollTo fuel { t with selected := [uid] } uid with
  | .error e => .error e
  | .ok t1 =>
    .ok (if t1.OnSelected then { t1 with events := t1.events ++ [Event.selected uid] } else t1)

/-- Go `Tree.Select`. -/
def Tree.Select (fuel : Nat) (t : Tree) (uid : String) : Except Fault Tree :=
  match t.selected with
  | [] => Tree.selectNew fuel t uid
  | s0 :: _ =>
    if uid = s0 then .ok t
    else
      Tree.selectNew fuel
        (if t.OnUnselected then { t with events := t.events ++ [Event.unselected s0] } else t) uid

/-- Go `Tree.Unselect`. -/
def Tree.Unselect (t : Tree) (uid : String) : Tree :=
  match t.selected with
  | [] => t
  | s0 :: _ =>
    if s0 ≠ uid then t
    else
      let t1 := { t with selected := [] }
      if t1.OnUnselected then { t1 with events := t1.events ++ [Event.unselected uid] } else t1

/-- Go `Tree.UnselectAll`. -/
def Tree.UnselectAll (t : Tree) : Tree :=
  match t.selected with
  | [] => t
  | s0 :: rest =>
    let t1 := { t with selected := [] }
    if t1.OnUnselected then
      { t1 with events := t1.events ++ (s0 :: rest).map Event.unselected }
    else t1

/-- Go `Tree.TypedKey`, case `KeyDown`: the closure; its captured variable is `next`. -/
def Tree.keyDownNode (id _p : String) (_branch : Bool) (_depth : Int)
    (s : Tree × Bool) : Tree × Bool :=
  if s.2 then ({ s.1 with currentFocus := id }, false)
  else if id = s.1.currentFocus then (s.1, true)
  else s

/-- Go `Tree.TypedKey`, case `KeyLeft`: the closure of the walk. -/
def Tree.keyLeftNode (id p : String) (_branch : Bool) (_depth : Int)
    (s : Tree × Unit) : Tree × Unit :=
  if id = s.1.currentFocus ∧ p ≠ "" then ({ s.1 with currentFocus := p }, s.2) else s

/-- Go `Tree.TypedKey`, case `KeyUp`: the closure; its captured variable is `previous`. -/
def Tree.keyUpNode (id _p : String) (_branch : Bool) (_depth : Int)
    (s : Tree × String) : Tree × String :=
  if id = s.1.currentFocus ∧ s.2 ≠ "" then ({ s.1 with currentFocus := s.2 }, id)
  else (s.1, id)

/-- Go `Tree.TypedKey`. -/
def Tree.TypedKey (fuel : Nat) (t : Tree) (name : KeyName) : Except Fault Tree :=
  match name with
  | KeyName.KeySpace => t.Select fuel t.currentFocus
  | KeyName.KeyDown =>
    (Tree.walk fuel t.Root "" 0 Tree.keyDownNode (t, false)).bind
      (fun r => r.1.ScrollTo fuel r.1.currentFocus)
  | KeyName.KeyLeft =>
    match t.IsBranch with
    | none => .error Fault.nilCall
    | some isBranch =>
      if isBranch t.currentFocus && t.IsBranchOpen t.currentFocus then
        let t1 := t.CloseBranch t.currentFocus
        t1.ScrollTo fuel t1.currentFocus
      else
        (Tree.walk fuel t.Root "" 0 Tree.keyLeftNode (t, ())).bind
          (fun r => r.1.ScrollTo fuel r.1.currentFocus)
  | KeyName.KeyRight =>
    match t.IsBranch with
    | none => .error Fault.nilCall
    | some isBranch =>
      let t1 := if isBranch t.currentFocus then t.OpenBranch t.currentFocus else t
      let children :=
        match t1.ChildUIDs with
        | some childUIDs => childUIDs t1.currentFocus
        | none => []
      let t2 :=
        match children with
        | c0 :: _ => { t1 with currentFocus := c0 }
        | [] => t1
      t2.ScrollTo fuel t2.currentFocus
  | KeyName.KeyUp =>
    (Tree.walk fuel t.Root "" 0 Tree.keyUpNode (t, "")).bind
      (fun r => r.1.ScrollTo fuel r.1.currentFocus)
  | KeyName.other => .ok t

/-- A row instance, `*branch` or `*leaf`: the `treeNode` fields the renderer
writes, the position and size of its `BaseWidget`, and `ident`, the identity of
the Go pointer. -/
structure treeNode where
  ident : Nat
  uid : String
  depth : Int
  isBranch : Bool
  hasContent : Bool
  position : Position
  size : Size
  deriving DecidableEq, Repr

/-- A separator held in `treeContentRenderer.separators`. -/
structure Separator where
  Hidden : Bool
  position : Position
  size : Size
  deriving DecidableEq, Repr

/-- An entry of `treeContentRenderer.objects`.  A separator is named by its index
in `separators`; a row is the instance as it stands at the end of the layout. -/
inductive CanvasObject where
  | separator (index : Nat)
  | branch (b : treeNode)
  | leaf (l : treeNode)
  deriving DecidableEq, Repr

/-- The `treeContent` struct. -/
structure treeContent where
  tree : Tree
  viewport : Size
  nextRefreshID : String

/-- The `treeContentRenderer` struct.  The maps `branches` and `leaves` are
association lists; `updated` records the calls of `UpdateNode` and `nextIdent` is
the identity the next allocated row instance gets. -/
structure treeContentRenderer where
  treeContent : treeContent
  separators : List Separator
  objects : List CanvasObject
  branches : List (String × treeNode)
  leaves : List (String × treeNode)
  branchPool : List treeNode
  leafPool : List treeNode
  wasVisible : List String
  visible : List String
  updated : List (String × Bool)
  nextIdent : Nat

/-- A Go map assignment `m[k] = v` on an association list. -/
def mapSet (m : List (String × treeNode)) (k : String) (v : treeNode) : List (String × treeNode) :=
  (m.filter (fun e => e.1 ≠ k)) ++ [(k, v)]

/-- Modelled from the spec: `async.Pool` is outside the listed sources; `Get`
returns a previously released instance if any exist, else nil.
This is `treeContentRenderer.getBranch`. -/
def treeContentRenderer.getBranch (r : treeContentRenderer) (t : Tree) :
    treeNode × treeContentRenderer :=
  match r.branchPool with
  | o :: rest => (o, { r with branchPool := rest })
  | [] =>
    (⟨r.nextIdent, "", 0, true, t.CreateNode, ⟨0, 0⟩, ⟨0, 0⟩⟩, { r with nextIdent := r.nextIdent + 1 })

/-- Modelled from the spec: `async.Pool` is outside the listed sources; `Get`
returns a previously released instance if any exist, else nil.
This is `treeContentRenderer.getLeaf`. -/
def treeContentRenderer.getLeaf (r : treeContentRenderer) (t : Tree) :
    treeNode × treeContentRenderer :=
  match r.leafPool with
  | o :: rest => (o, { r with leafPool := rest })
  | [] =>
    (⟨r.nextIdent, "", 0, false, t.CreateNode, ⟨0, 0⟩, ⟨0, 0⟩⟩, { r with nextIdent := r.nextIdent + 1 })

/-- The variables of `treeContentRenderer.Layout` that its closure reads only. -/
structure LayoutConsts where
  pad : Int
  offsetY : Int
  viewport : Size
  width : Int
  separatorSize : Size
  separatorOff : Int
  hideSeparators : Bool
  deriving DecidableEq, Repr

/-- The variables of `treeContentRenderer.Layout` that its closure writes: the
renderer and the locals `branches`, `leaves`, `separatorCount`, `y`. -/
structure LayoutVars where
  r : treeContentRenderer
  branches : List (String × treeNode)
  leaves : List (String × treeNode)
  separatorCount : Nat
  y : Int

/-- Go `Layout`, lines 658-671: the separator above a visible row. -/
def treeContentRenderer.layoutSeparator (c : LayoutConsts) (y : Int) (v : LayoutVars) : LayoutVars :=
  let p : Position := ⟨0, y - c.separatorOff⟩
  if v.separatorCount < v.r.separators.length then
    { v with
      r := { v.r with
        separators := v.r.separators.set v.separatorCount ⟨false, p, c.separatorSize⟩
        objects := v.r.objects ++ [CanvasObject.separator v.separatorCount] }
      separatorCount := v.separatorCount + 1 }
  else
    { v with
      r := { v.r with
        separators := v.r.separators ++ [⟨false, p, c.separatorSize⟩]
        objects := v.r.objects ++ [CanvasObject.separator v.r.separators.length] }
      separatorCount := v.separatorCount + 1 }

/-- Go `Layout`, lines 673-702: bind a row instance to a visible row, move and
resize it. -/
def treeContentRenderer.layoutRow (c : LayoutConsts) (t : Tree) (uid : String) (isBranch : Bool)
    (depth : Int) (y : Int) (m : Size) (v : LayoutVars) : LayoutVars :=
  if isBranch then
    let (b, r1) :=
      match v.r.branches.lookup uid with
      | some b => (b, v.r)
      | none =>
        let (b, r1) := v.r.getBranch t
        ({ b with uid := uid, depth := depth },
          if t.UpdateNode then { r1 with updated := r1.updated ++ [(uid, true)] } else r1)
    let n : treeNode := { b with position := ⟨0, y⟩, size := ⟨c.width, m.Height⟩ }
    { v with
      r := { r1 with objects := r1.objects ++ [CanvasObject.branch n] }
      branches := mapSet v.branches uid n }
  else
    let (l, r1) :=
      match v.r.leaves.lookup uid with
      | some l => (l, v.r)
      | none =>
        let (l, r1) := v.r.getLeaf t
        ({ l with uid := uid, depth := depth },
          if t.UpdateNode then { r1 with updated := r1.updated ++ [(uid, false)] } else r1)
    let n : treeNode := { l with position := ⟨0, y⟩, size := ⟨c.width, m.Height⟩ }
    { v with
      r := { r1 with objects := r1.objects ++ [CanvasObject.leaf n] }
      leaves := mapSet v.leaves uid n }

/-- Go `treeContentRenderer.Layout`: the closure passed to `walkAll`. -/
def treeContentRenderer.layoutNode (c : LayoutConsts) (uid _parent : String) (isBranch : Bool)
    (depth : Int) (s : Tree × LayoutVars) : Tree × LayoutVars :=
  if s.1.Root = "" ∧ uid = "" then s
  else
    let depth1 := if s.1.Root = "" then depth - 1 else depth
    let addSeparator : Bool := decide (s.2.y > 0)
    let v1 : LayoutVars :=
      if addSeparator then
        { s.2 with y := s.2.y + c.pad, separatorCount := s.2.separatorCount + 1 }
      else s.2
    let m := if isBranch then s.1.branchMinSize else s.1.leafMinSize
    let v2 : LayoutVars :=
      if v1.y + m.Height < c.offsetY then v1
      else if v1.y > c.offsetY + c.viewport.Height then v1
      else
        let v3 := { v1 with r := { v1.r with visible := v1.r.visible ++ [uid] } }
        let v4 :=
          if addSeparator && !c.hideSeparators then
            treeContentRenderer.layoutSeparator c v3.y v3
          else v3
        treeContentRenderer.layoutRow c s.1 uid isBranch depth1 v4.y m v4
    (s.1, { v2 with y := v2.y + m.Height })

/-- Go `Layout`, lines 707-714: hide the separators from index `from` on. -/
def hideSeparatorsFrom (start : Nat) (seps : List Separator) : List Separator :=
  seps.enum.map (fun e => if start ≤ e.1 then { e.2 with Hidden := true } else e.2)

/-- Go `Layout`, lines 716-726: the instances of `old` whose id is not a key of `new`,
which are put into the pool. -/
def released (old new : List (String × treeNode)) : List treeNode :=
  (old.filter (fun e => (new.lookup e.1).isNone)).map Prod.snd

/-- Go `treeContentRenderer.Layout`. -/
def treeContentRenderer.Layout (fuel : Nat) (r : treeContentRenderer) (size : Size) :
    Except Fault treeContentRenderer :=
  let th := r.treeContent.tree.theme
  let pad := th.SizeNamePadding
  let viewport := r.treeContent.viewport
  let width := max size.Width viewport.Width
  let separatorThickness := th.SizeNameSeparatorThickness
  let c : LayoutConsts :=
    { pad := pad
      offsetY := r.treeContent.tree.offset.Y
      viewport := viewport
      width := width
      separatorSize := ⟨width, separatorThickness⟩
      separatorOff := (pad + separatorThickness) / 2
      hideSeparators := r.treeContent.tree.HideSeparators }
  let r0 := { r with objects := [], wasVisible := r.visible, visible := [] }
  match Tree.walkAll fuel (treeContentRenderer.layoutNode c)
      (r.treeContent.tree, ⟨r0, [], [], 0, 0⟩) with
  | .error e => .error e
  | .ok (t1, v) =>
    let separatorCount := if c.hideSeparators then 0 else v.separatorCount
    let r1 := v.r
    .ok { r1 with
      treeContent := { r1.treeContent with tree := t1 }
      separators := hideSeparatorsFrom separatorCount r1.separators
      branchPool := (released r1.branches v.branches).reverse ++ r1.branchPool
      leafPool := (released r1.leaves v.leaves).reverse ++ r1.leafPool
      branches := v.branches
      leaves := v.leaves }

/-- One call of `onNode`: the arguments the walk passes. -/
structure Visit where
  id : String
  parent : String
  branch : Bool
  depth : Int
  deriving DecidableEq, Repr

/-- A closure for `walk` that records the calls it receives, in order. -/
def Tree.recordNode (id parent : String) (branch : Bool) (depth : Int)
    (s : Tree × List Visit) : Tree × List Visit :=
  (s.1, s.2 ++ [⟨id, parent, branch, depth⟩])

/-- The sequence of `onNode` calls `walkAll` makes on the tree `t`. -/
def Tree.visits (fuel : Nat) (t : Tree) : Except Fault (List Visit) :=
  (Tree.walkAll fuel Tree.recordNode (t, [])).map Prod.snd

/-- The open-node pre-order sequence of ids: the ids `walkAll` visits, in order. -/
def Tree.walkIDs (fuel : Nat) (t : Tree) : Except Fault (List String) :=
  (t.visits fuel).map (fun vs => vs.map Visit.id)

/-- Two tree states agree on everything `walk` reads. -/
def Tree.SameShape (a b : Tree) : Prop :=
  a.Root = b.Root ∧ a.IsBranch = b.IsBranch ∧ a.ChildUIDs = b.ChildUIDs ∧ a.openMap = b.openMap

/-- The child relation is finite and acyclic: `rank` strictly decreases from a
branch to each of its children. -/
def Tree.Acyclic (t : Tree) (rank : String → Nat) : Prop :=
  ∀ isBranch childUIDs, t.IsBranch = some isBranch → t.ChildUIDs = some childUIDs →
    ∀ u c, isBranch u = true → c ∈ childUIDs u → rank c < rank u

/-- Two runs agree: both fail with the same fault, or both return and the
results are related. -/
def ExceptRel {A B : Type} (R : A → B → Prop) : Except Fault A → Except Fault B → Prop
  | .ok a, .ok b => R a b
  | .error e, .error e1 => e = e1
  | _, _ => False

/-- A closure applied to a recorded call. -/
def applyVisit {α : Type} (onNode : String → String → Bool → Int → Tree × α → Tree × α)
    (s : Tree × α) (v : Visit) : Tree × α :=
  onNode v.id v.parent v.branch v.depth s

/-- Go `NewTreeWithStrings`: the tree of a string map, given as an association list
(`data[uid]` is the first entry for `uid`).  The remaining fields have their zero
values; `theme` is the theme in force. -/
def NewTreeWithStrings (data : List (String × List String)) (th : Theme) : Tree where
  Root := ""
  HideSeparators := false
  ChildUIDs := some (fun uid => (data.lookup uid).getD [])
  CreateNode := true
  IsBranch := some (fun uid => (data.lookup uid).isSome)
  OnBranchClosed := false
  OnBranchOpened := false
  OnSelected := false
  OnUnselected := false
  UpdateNode := true
  branchMinSize := ⟨0, 0⟩
  currentFocus := ""
  focused := false
  leafMinSize := ⟨0, 0⟩
  offset := ⟨0, 0⟩
  openMap := fun _ => false
  scroller := none
  selected := []
  theme := th
  events := []

/-- The string map of the focus-navigation scenario: the root has the children
`A` and `B`, and `A` has the single child `A1`. -/
def scenarioData : List (String × List String) :=
  [("", ["A", "B"]), ("A", ["A1"])]

/-- The tree of the focus-navigation scenario, with `A` open, rows of height 10,
all four observers registered and a scroller of height 15 at offset 0. -/
def scenarioTree : Tree :=
  { NewTreeWithStrings scenarioData ⟨4, 1, 20⟩ with
    openMap := fun uid => decide (uid = "A")
    branchMinSize := ⟨30, 10⟩
    leafMinSize := ⟨30, 10⟩
    OnBranchClosed := true
    OnBranchOpened := true
    OnSelected := true
    OnUnselected := true
    scroller := some ⟨⟨0, 0⟩, ⟨100, 15⟩⟩ }

/-- A rank for `scenarioData`: the height of each node. -/
def scenarioRank (uid : String) : Nat :=
  if uid = "" then 2 else if uid = "A" then 1 else 0

/-- The scenario tree with the row `A` focused and selected. -/
def selectedTree : Tree :=
  { scenarioTree with currentFocus := "A", selected := ["A"] }

/-- Go `treeContent.CreateRenderer`. -/
def treeContent.CreateRenderer (c : treeContent) : treeContentRenderer where
  treeContent := c
  separators := []
  objects := []
  branches := []
  leaves := []
  branchPool := []
  leafPool := []
  wasVisible := []
  visible := []
  updated := []
  nextIdent := 0

/-- A tree with the customized root `R`, whose children are the node with the
empty id and the node `x`; rows of height 10, and `x` focused. -/
def customRootTree : Tree :=
  { NewTreeWithStrings [("R", ["", "x"])] ⟨4, 1, 20⟩ with
    Root := "R"
    branchMinSize := ⟨30, 10⟩
    leafMinSize := ⟨30, 10⟩
    currentFocus := "x" }

/-- Every recorded call names as parent the empty id or an id seen earlier
(`seen`, or an earlier call of the list). -/
def ParentsSeen (seen : List String) : List Visit → Prop
  | [] => True
  | v :: rest => (v.parent = "" ∨ v.parent ∈ seen) ∧ ParentsSeen (v.id :: seen) rest

/-- A tree with the customized root `R`, whose only child is the open branch with
the empty id, whose only child is the leaf `x`; `x` is focused. -/
def emptyBranchTree : Tree :=
  { NewTreeWithStrings [("R", [""]), ("", ["x"])] ⟨4, 1, 20⟩ with
    Root := "R"
    openMap := fun uid => decide (uid = "")
    branchMinSize := ⟨30, 10⟩
    leafMinSize := ⟨30, 10⟩
    currentFocus := "x" }

/-- A tree in which `A` is a key of the string map with no children: `IsBranch("A")`
is true and `ChildUIDs("A")` is empty. -/
def emptyFolderTree : Tree :=
  NewTreeWithStrings [("", ["A"]), ("A", [])] ⟨4, 1, 20⟩

/-- A row `Layout` emits: its id, its kind, the value of the running offset `y` at
which the row is placed and the row height. -/
structure Row where
  uid : String
  isBranch : Bool
  y : Int
  height : Int
  deriving DecidableEq, Repr

/-- The rows the closure of `Layout` emits for the recorded calls `vs`, starting
with the running offset `y` (lines 631-649 and 704: the unrendered default root is
skipped, `pad` is added when `y > 0`, and `y` advances by the row height). -/
def emittedRows (t : Tree) (pad : Int) (y : Int) : List Visit → List Row
  | [] => []
  | v :: vs =>
    if t.Root = "" ∧ v.id = "" then emittedRows t pad y vs
    else
      let y1 := if y > 0 then y + pad else y
      let m := if v.branch then t.branchMinSize else t.leafMinSize
      ⟨v.id, v.branch, y1, m.Height⟩ :: emittedRows t pad (y1 + m.Height) vs

/-- The test of `Layout`, lines 650-654, under which a row is bound: it is neither
above nor below the viewport. -/
def Row.inViewport (offsetY viewportHeight : Int) (row : Row) : Bool :=
  !(decide (row.y + row.height < offsetY)) && !(decide (row.y > offsetY + viewportHeight))

/-- The spec's visibility: the extent `[y, y + height)` intersects
`[offsetY, offsetY + viewportHeight)`. -/
def Row.intersectsViewport (offsetY viewportHeight : Int) (row : Row) : Prop :=
  ∃ p : Int, row.y ≤ p ∧ p < row.y + row.height ∧ offsetY ≤ p ∧ p < offsetY + viewportHeight

/-- The vertical position and the height of a row object; `none` for a separator. -/
def CanvasObject.rowExtent : CanvasObject → Option (Int × Int)
  | CanvasObject.separator _ => none
  | CanvasObject.branch b => some (b.position.Y, b.size.Height)
  | CanvasObject.leaf l => some (l.position.Y, l.size.Height)

/-- A fresh content renderer for the scenario tree scrolled to offset 10, with a
viewport of height 15. -/
def scrolledRenderer : treeContentRenderer :=
  treeContent.CreateRenderer ⟨{ scenarioTree with offset := ⟨0, 10⟩ }, ⟨100, 15⟩, ""⟩

/-- The scenario tree with the row `B` focused and nothing selected. -/
def focusedTree : Tree :=
  { scenarioTree with currentFocus := "B" }

/-- The scenario tree with `IsBranch` left unset (nil). -/
def nilBranchTree : Tree :=
  { selectedTree with IsBranch := none }

/-- The node `v` is reachable from `u` through `childUIDs`, descending only below
nodes that are branches and satisfy `pass` (`pass` is constantly true for "along
branch nodes", and `IsBranchOpen` for "through open branches"). -/
inductive ReachableThrough (isBranch : String → Bool) (childUIDs : String → List String)
    (pass : String → Bool) : String → String → Prop where
  | self (u : String) : ReachableThrough isBranch childUIDs pass u u
  | child (u c v : String) : isBranch u = true → pass u = true → c ∈ childUIDs u →
      ReachableThrough isBranch childUIDs pass c v → ReachableThrough isBranch childUIDs pass u v

/-- The scenario tree with every branch closed. -/
def closedTree : Tree :=
  scenarioTree.CloseAllBranches

/-- The concatenation of the sequences of the children, in order; `none` when one
of them is `none`. -/
def joinAll : List (Option (List Visit)) → Option (List Visit)
  | [] => some []
  | none :: _ => none
  | some l :: rest => (joinAll rest).map (fun ls => l ++ ls)

/-- The depth-first pre-order sequence in the spec's words: for a branch, emit it,
then, only if it is open, recurse into its children in `ChildUIDs` order; for a
leaf, just emit it.  Each entry carries the parent id, the value of `IsBranch` and
the depth (the parent's depth plus one).  The first argument bounds the depth;
`none` when it is used up. -/
def preorderSpec (isBranch : String → Bool) (childUIDs : String → List String)
    (isOpen : String → Bool) : Nat → String → String → Int → Option (List Visit)
  | 0, _, _, _ => none
  | n + 1, uid, parent, depth =>
    if isBranch uid then
      if isOpen uid then
        (joinAll ((childUIDs uid).map
          (fun c => preorderSpec isBranch childUIDs isOpen n c uid (depth + 1)))).map
          (fun ls => ⟨uid, parent, true, depth⟩ :: ls)
      else some [⟨uid, parent, true, depth⟩]
    else some [⟨uid, parent, false, depth⟩]

/-- The result of the recording walk that appends the sequence `l` to `acc`; out
of fuel when there is no sequence. -/
def recordAfter (t : Tree) (acc : List Visit) : Option (List Visit) → Except Fault (Tree × List Visit)
  | some l => .ok (t, acc ++ l)
  | none => .error Fault.outOfFuel

/-- A tree in which the open branches `A` and `B` both list the leaf `C`. -/
def sharedChildTree : Tree :=
  { NewTreeWithStrings [("", ["A", "B"]), ("A", ["C"]), ("B", ["C"])] ⟨4, 1, 20⟩ with
    openMap := fun _ => true }

/-- A rank for `sharedChildTree`. -/
def sharedChildRank (uid : String) : Nat :=
  if uid = "" then 2 else if uid = "C" then 0 else 1

/-- Go `treeContentRenderer.MinSize`: the closure passed to `walkAll`; the variable
it writes is the named result `min`. -/
def treeContentRenderer.minSizeNode (pad iconSize : Int) (uid _parent : String) (isBranch : Bool)
    (depth : Int) (s : Tree × Size) : Tree × Size :=
  if s.1.Root = "" ∧ uid = "" then s
  else
    let depth1 := if s.1.Root = "" then depth - 1 else depth
    let height1 := if s.2.Height > 0 then s.2.Height + pad else s.2.Height
    let m := if isBranch then s.1.branchMinSize else s.1.leafMinSize
    let mWidth := m.Width + depth1 * (iconSize + pad)
    (s.1, ⟨max s.2.Width mWidth, height1 + m.Height⟩)

/-- Go `treeContentRenderer.MinSize`. -/
def treeContentRenderer.MinSize (fuel : Nat) (r : treeContentRenderer) : Except Fault Size :=
  let th := r.treeContent.tree.theme
  (Tree.walkAll fuel (treeContentRenderer.minSizeNode th.SizeNamePadding th.SizeNameInlineIcon)
    (r.treeContent.tree, ⟨0, 0⟩)).map Prod.snd

/-- The renderer of the same content for another state of the tree. -/
def treeContentRenderer.withTree (r : treeContentRenderer) (t : Tree) : treeContentRenderer :=
  { r with treeContent := { r.treeContent with tree := t } }

/-- The value of `min` after one call of the closure of `MinSize`. -/
def treeContentRenderer.minSizeStep (t : Tree) (pad iconSize : Int) (m : Size) (v : Visit) : Size :=
  (treeContentRenderer.minSizeNode pad iconSize v.id v.parent v.branch v.depth (t, m)).2

/-- A fresh content renderer for the scenario tree with every branch closed. -/
def closedRenderer : treeContentRenderer :=
  treeContent.CreateRenderer ⟨closedTree, ⟨100, 15⟩, ""⟩

/-! ## The Entry widget: text, cursor and undo/redo history

`widget/entry.go` is not among the sources; only `widget/entry_test.go` is.  The
definitions below are modelled from the spec (section 4.5), and follow the tests
where the tests fix a detail.  Text is a sequence of runes; the cursor
`(CursorRow, CursorColumn)` is held as the rune offset it denotes. -/

/-- Modelled from the spec: the edit record of the undo/redo history of
`widget/entry.go`, which is not under src.  It captures what is needed to re-apply
and to invert one coalesced edit: whether text was deleted or inserted, where, the
text, and the cursor offsets before and after the edit. -/
structure entryModifyAction where
  Delete : Bool
  Position : Nat
  Text : List Char
  cursorFrom : Nat
  cursorTo : Nat
  deriving DecidableEq, Repr

/-- Modelled from the spec: the state of the Entry widget of `widget/entry.go`,
which is not under src: text, mode flags, cursor offset, selection anchor (when a
selection is active), undo and redo stacks (most recent first) and whether the
record on top of the undo stack is closed to coalescing. -/
structure Entry where
  Text : List Char
  MultiLine : Bool
  Password : Bool
  cursor : Nat
  selectStart : Option Nat
  undoStack : List entryModifyAction
  redoStack : List entryModifyAction
  closed : Bool
  deriving DecidableEq, Repr

/-- Modelled from the spec: `NewEntry` of `widget/entry.go`, an empty single-line
entry. -/
def NewEntry : Entry := ⟨[], false, false, 0, none, [], [], false⟩

/-- Modelled from the spec: `NewMultiLineEntry` of `widget/entry.go`. -/
def NewMultiLineEntry : Entry := ⟨[], true, false, 0, none, [], [], false⟩

/-- Modelled from the spec: `NewPasswordEntry` of `widget/entry.go`, a single-line
entry with masked text. -/
def NewPasswordEntry : Entry := ⟨[], false, true, 0, none, [], [], false⟩

/-- Modelled from the spec: the forward effect of an edit record of
`widget/entry.go` on the text. -/
def entryModifyAction.apply (a : entryModifyAction) (text : List Char) : List Char :=
  if a.Delete then text.take a.Position ++ text.drop (a.Position + a.Text.length)
  else text.take a.Position ++ a.Text ++ text.drop a.Position

/-- Modelled from the spec: the inverse effect of an edit record of
`widget/entry.go` on the text. -/
def entryModifyAction.revert (a : entryModifyAction) (text : List Char) : List Char :=
  if a.Delete then text.take a.Position ++ a.Text ++ text.drop a.Position
  else text.take a.Position ++ text.drop (a.Position + a.Text.length)

/-- Modelled from the spec: the whitespace runes that separate words in
`widget/entry.go`. -/
def isWordSeparator (c : Char) : Bool :=
  c = ' ' || c = '\t' || c = '\n'

/-- Modelled from the spec: coalescing of the undo stack of `widget/entry.go`.  The
new record `a` is merged into the record `top` when both are insertions, `a`
continues `top`, and `a` does not start a new word (a separator typed after a
non-separator starts a new record, `TestEntry_UndoRedo_TypeRune`); or when both are
deletions and `a` ends where `top` starts (`TestEntry_UndoRedo_Delete`). -/
def entryModifyAction.TryMerge (top a : entryModifyAction) : Option entryModifyAction :=
  if top.Delete = false ∧ a.Delete = false then
    if top.Position + top.Text.length = a.Position ∧
        ¬ ((a.Text.head?.map isWordSeparator = some true) ∧
          (top.Text.getLast?.map isWordSeparator = some false)) then
      some ⟨false, top.Position, top.Text ++ a.Text, top.cursorFrom, a.cursorTo⟩
    else none
  else if top.Delete = true ∧ a.Delete = true then
    if a.Position + a.Text.length = top.Position then
      some ⟨true, a.Position, a.Text ++ top.Text, top.cursorFrom, a.cursorTo⟩
    else none
  else none

/-- Modelled from the spec: whether the new record `a` coalesces with the record
on top of the undo stack of `widget/entry.go`. -/
def Entry.coalesces (e : Entry) (a : entryModifyAction) : Bool :=
  !e.closed &&
    match e.undoStack with
    | top :: _ => (entryModifyAction.TryMerge top a).isSome
    | [] => false

/-- Modelled from the spec: performing an edit in `widget/entry.go`: the text
changes, the cursor moves to the position after the edit, the redo stack is
cleared, and the record is merged into the top of the undo stack (when `coalesce`
is set and the top record accepts it) or pushed. -/
def Entry.record (e : Entry) (a : entryModifyAction) (coalesce : Bool) : Entry :=
  { e with
    Text := a.apply e.Text
    cursor := a.cursorTo
    selectStart := none
    redoStack := []
    undoStack :=
      if coalesce && !e.closed then
        match e.undoStack with
        | top :: rest =>
          match entryModifyAction.TryMerge top a with
          | some m => m :: rest
          | none => a :: e.undoStack
        | [] => [a]
      else a :: e.undoStack
    closed := !coalesce }

/-- Modelled from the spec: deletion of the selected range in `widget/entry.go`,
always its own undo record. -/
def Entry.eraseSelection (e : Entry) : Entry :=
  match e.selectStart with
  | none => e
  | some anchor =>
    let start := min anchor e.cursor
    let stop := max anchor e.cursor
    if start = stop then { e with selectStart := none }
    else e.record ⟨true, start, (e.Text.drop start).take (stop - start), e.cursor, start⟩ false

/-- Modelled from the spec: the record of typing the rune `r` at the cursor. -/
def Entry.typedAction (e : Entry) (r : Char) : entryModifyAction :=
  ⟨false, e.cursor, [r], e.cursor, e.cursor + 1⟩

/-- Modelled from the spec: `Entry.TypedRune` of `widget/entry.go`: a single-line
entry ignores a newline; an active selection is deleted first, as a record of its
own (`TestEntry_UndoRedo_Replace`); the rune is inserted at the cursor and the
cursor advances. -/
def Entry.TypedRune (e : Entry) (r : Char) : Entry :=
  if r = '\n' ∧ e.MultiLine = false then e
  else
    let e1 := e.eraseSelection
    e1.record (e1.typedAction r) true

/-- Modelled from the spec: the record of a Backspace at the cursor. -/
def Entry.backspaceAction (e : Entry) : entryModifyAction :=
  ⟨true, e.cursor - 1, (e.Text.drop (e.cursor - 1)).take 1, e.cursor, e.cursor - 1⟩

/-- Modelled from the spec: `Entry.TypedKey` of `widget/entry.go` for Backspace:
an active selection is deleted; otherwise the rune before the cursor is removed,
and nothing happens at the start of the text. -/
def Entry.Backspace (e : Entry) : Entry :=
  if e.selectStart.isSome then e.eraseSelection
  else if e.cursor = 0 then e
  else e.record e.backspaceAction true

/-- Modelled from the spec: the record of a Delete at the cursor. -/
def Entry.deleteAction (e : Entry) : entryModifyAction :=
  ⟨true, e.cursor, (e.Text.drop e.cursor).take 1, e.cursor, e.cursor⟩

/-- Modelled from the spec: `Entry.TypedKey` of `widget/entry.go` for Delete: an
active selection is deleted; otherwise the rune at the cursor is removed, and
nothing happens at the end of the text. -/
def Entry.Delete (e : Entry) : Entry :=
  if e.selectStart.isSome then e.eraseSelection
  else if e.Text.length ≤ e.cursor then e
  else e.record e.deleteAction true

/-- Modelled from the spec: the record of a word delete from the cursor to the
word boundary `boundary`. -/
def Entry.deleteWordAction (e : Entry) (boundary : Nat) : entryModifyAction :=
  let start := min boundary e.cursor
  let stop := max boundary e.cursor
  ⟨true, start, (e.Text.drop start).take (stop - start), e.cursor, start⟩

/-- Modelled from the spec: the word-delete shortcut of `widget/entry.go`: the
text between the cursor and the word boundary is deleted as a single undo record.
The boundary is what the word search of `entry.go` finds (before the cursor for
modifier+Backspace, after it for modifier+Delete) and is a parameter here. -/
def Entry.deleteWord (e : Entry) (boundary : Nat) : Entry :=
  if boundary = e.cursor then e
  else e.record (e.deleteWordAction boundary) false

/-- Modelled from the spec: the paste shortcut of `widget/entry.go`: the clipboard
content replaces the selection, if any, and is inserted at the cursor as a single
undo record; a single-line entry turns every newline of the content into one
space. -/
def Entry.Paste (e : Entry) (content : List Char) : Entry :=
  let text := if e.MultiLine then content else content.map (fun c => if c = '\n' then ' ' else c)
  let e1 := e.eraseSelection
  if text = [] then e1
  else e1.record ⟨false, e1.cursor, text, e1.cursor, e1.cursor + text.length⟩ false

/-- Modelled from the spec: `Entry.Undo` of `widget/entry.go`: pops the most recent
edit record, applies its inverse, moves the cursor to the position the edit
started from and pushes the record onto the redo stack; a no-op on an empty undo
stack. -/
def Entry.Undo (e : Entry) : Entry :=
  match e.undoStack with
  | [] => e
  | a :: rest =>
    { e with
      Text := a.revert e.Text
      cursor := a.cursorFrom
      selectStart := none
      undoStack := rest
      redoStack := a :: e.redoStack
      closed := true }

/-- Modelled from the spec: `Entry.Redo` of `widget/entry.go`: pops the most recent
redo record, re-applies the edit, moves the cursor to the position after the edit
and pushes the record back onto the undo stack; a no-op on an empty redo stack. -/
def Entry.Redo (e : Entry) : Entry :=
  match e.redoStack with
  | [] => e
  | a :: rest =>
    { e with
      Text := a.apply e.Text
      cursor := a.cursorTo
      selectStart := none
      undoStack := a :: e.undoStack
      redoStack := rest
      closed := true }

/-- Modelled from the spec: one step of the row and column count of
`widget/entry.go`: a newline starts the next row at column 0, any other rune
advances the column. -/
def rowColStep (rc : Nat × Nat) (c : Char) : Nat × Nat :=
  if c = '\n' then (rc.1 + 1, 0) else (rc.1, rc.2 + 1)

/-- Modelled from the spec: `rowColFromTextPos` of `widget/entry.go`, the row and
column of a rune offset. -/
def rowColFromTextPos (text : List Char) (pos : Nat) : Nat × Nat :=
  (text.take pos).foldl rowColStep (0, 0)

/-- Modelled from the spec: the field `CursorRow` of the entry. -/
def Entry.CursorRow (e : Entry) : Nat := (rowColFromTextPos e.Text e.cursor).1

/-- Modelled from the spec: the field `CursorColumn` of the entry. -/
def Entry.CursorColumn (e : Entry) : Nat := (rowColFromTextPos e.Text e.cursor).2

/-- Modelled from the spec: the lines of a text, split on the newline. -/
def textLines : List Char → List (List Char)
  | [] => [[]]
  | c :: cs =>
    if c = '\n' then [] :: textLines cs
    else
      match textLines cs with
      | l :: ls => (c :: l) :: ls
      | [] => [[c]]

/-- The text `after` is the text `before` with `txt` inserted at offset `p`. -/
def Inserted (before after : List Char) (p : Nat) (txt : List Char) : Prop :=
  p ≤ before.length ∧ after = before.take p ++ txt ++ before.drop p

/-- The edit record `a` takes the text `before` to the text `after`. -/
def entryModifyAction.Takes (a : entryModifyAction) (before after : List Char) : Prop :=
  if a.Delete then Inserted after before a.Position a.Text
  else Inserted before after a.Position a.Text

/-- The edit record `a` describes an edit of the text `text`: an insertion inside
it, or the deletion of a piece it has. -/
def entryModifyAction.Applicable (a : entryModifyAction) (text : List Char) : Prop :=
  if a.Delete then
    a.Position + a.Text.length ≤ text.length ∧ a.Text = (text.drop a.Position).take a.Text.length
  else a.Position ≤ text.length

/-- Modelled from the spec: the keys of `widget/entry.go` whose edits coalesce: a
typed rune, Backspace and Delete. -/
inductive EditKey where
  | rune (r : Char)
  | backspace
  | delete
  deriving DecidableEq, Repr

/-- Modelled from the spec: the entry after the key. -/
def Entry.key (e : Entry) : EditKey → Entry
  | EditKey.rune r => e.TypedRune r
  | EditKey.backspace => e.Backspace
  | EditKey.delete => e.Delete

/-- Modelled from the spec: the edit record of the key, for an entry without
selection; `none` when the key changes nothing. -/
def Entry.keyAction (e : Entry) : EditKey → Option entryModifyAction
  | EditKey.rune r => if r = '\n' ∧ e.MultiLine = false then none else some (e.typedAction r)
  | EditKey.backspace => if e.cursor = 0 then none else some e.backspaceAction
  | EditKey.delete => if e.Text.length ≤ e.cursor then none else some e.deleteAction

/-- One edit operation that is recorded as one undo record takes the entry `e0` to
the entry `e`: a burst of keys (typed runes, Backspaces, Deletes) of which the
first starts a record and each further one coalesces with it, or a word delete. -/
inductive OneRecordEdit : Entry → Entry → Prop where
  | first (e0 : Entry) (k : EditKey) (a : entryModifyAction) :
      e0.selectStart = none → e0.cursor ≤ e0.Text.length → e0.keyAction k = some a →
      e0.coalesces a = false → OneRecordEdit e0 (e0.key k)
  | more (e0 e : Entry) (k : EditKey) (a : entryModifyAction) :
      OneRecordEdit e0 e → e.keyAction k = some a → e.coalesces a = true →
      OneRecordEdit e0 (e.key k)
  | word (e0 : Entry) (boundary : Nat) :
      e0.selectStart = none → e0.cursor ≤ e0.Text.length → boundary ≤ e0.Text.length →
      boundary ≠ e0.cursor → OneRecordEdit e0 (e0.deleteWord boundary)

/-- The entry `e` is the entry `e0` after one edit held in one record: the record
is on top of the undo stack of `e0`, it takes the text of `e0` to the text of `e`,
and it holds the two cursors. -/
def Entry.Recorded (e0 e : Entry) : Prop :=
  ∃ b, e.undoStack = b :: e0.undoStack ∧ b.cursorFrom = e0.cursor ∧ b.cursorTo = e.cursor ∧
    b.Takes e0.Text e.Text ∧ e.selectStart = none ∧ e.cursor ≤ e.Text.length

/-- The entry of `TestEntry_UndoRedo_Replace`: the text `àbcdéf` with `cd`
selected (anchor 2, cursor 4). -/
def replaceEntry : Entry :=
  { NewEntry with Text := ['à', 'b', 'c', 'd', 'é', 'f'], cursor := 4, selectStart := some 2 }

/-! ## The desktop key modifiers (`internal/driver/glfw/window_desktop.go`)

`glfw.ModifierKey`, `glfw.Key`, `glfw.Action` and `fyne.KeyModifier` are Go
integers, modelled as `Int` with the bitwise operations `Int.land`, `Int.lor`
and `Int.lnot`.  The named constants of the packages `glfw` and `fyne` are
declared outside the listed sources and are parameters (`KeyConstants`): each
modifier constant is one bit of its mask, at a position that is a parameter. -/

/-- The constants of the packages `glfw` and `fyne` that `desktopModifier`,
`desktopModifierCorrected` and `glfwKeyToModifier` read: the bit positions of
`glfw.ModShift`, `glfw.ModControl`, `glfw.ModAlt`, `glfw.ModSuper` and of
`fyne.KeyModifierShift`, `fyne.KeyModifierControl`, `fyne.KeyModifierAlt`,
`fyne.KeyModifierSuper`, the actions `glfw.Press` and `glfw.Release`, and the
eight modifier keys. -/
structure KeyConstants where
  modShiftBit : Nat
  modControlBit : Nat
  modAltBit : Nat
  modSuperBit : Nat
  keyModifierShiftBit : Nat
  keyModifierControlBit : Nat
  keyModifierAltBit : Nat
  keyModifierSuperBit : Nat
  Press : Int
  Release : Int
  KeyLeftShift : Int
  KeyRightShift : Int
  KeyLeftControl : Int
  KeyRightControl : Int
  KeyLeftAlt : Int
  KeyRightAlt : Int
  KeyLeftSuper : Int
  KeyRightSuper : Int
  deriving DecidableEq, Repr

/-- The mask with the single bit `k` set. -/
def bitMask (k : Nat) : Int := Int.ofNat (2 ^ k)

/-- The constant `glfw.ModShift`. -/
def KeyConstants.ModShift (c : KeyConstants) : Int := bitMask c.modShiftBit

/-- The constant `glfw.ModControl`. -/
def KeyConstants.ModControl (c : KeyConstants) : Int := bitMask c.modControlBit

/-- The constant `glfw.ModAlt`. -/
def KeyConstants.ModAlt (c : KeyConstants) : Int := bitMask c.modAltBit

/-- The constant `glfw.ModSuper`. -/
def KeyConstants.ModSuper (c : KeyConstants) : Int := bitMask c.modSuperBit

/-- The constant `fyne.KeyModifierShift`. -/
def KeyConstants.KeyModifierShift (c : KeyConstants) : Int := bitMask c.keyModifierShiftBit

/-- The constant `fyne.KeyModifierControl`. -/
def KeyConstants.KeyModifierControl (c : KeyConstants) : Int := bitMask c.keyModifierControlBit

/-- The constant `fyne.KeyModifierAlt`. -/
def KeyConstants.KeyModifierAlt (c : KeyConstants) : Int := bitMask c.keyModifierAltBit

/-- The constant `fyne.KeyModifierSuper`. -/
def KeyConstants.KeyModifierSuper (c : KeyConstants) : Int := bitMask c.keyModifierSuperBit

/-- Go `desktopModifier`. -/
def desktopModifier (c : KeyConstants) (mods : Int) : Int :=
  let m : Int := 0
  let m := if Int.land mods c.ModShift ≠ 0 then Int.lor m c.KeyModifierShift else m
  let m := if Int.land mods c.ModControl ≠ 0 then Int.lor m c.KeyModifierControl else m
  let m := if Int.land mods c.ModAlt ≠ 0 then Int.lor m c.KeyModifierAlt else m
  let m := if Int.land mods c.ModSuper ≠ 0 then Int.lor m c.KeyModifierSuper else m
  m

/-- Go `glfwKeyToModifier`: the cases of the switch are tried in order. -/
def glfwKeyToModifier (c : KeyConstants) (key : Int) : Int :=
  if key = c.KeyLeftControl ∨ key = c.KeyRightControl then c.ModControl
  else if key = c.KeyLeftAlt ∨ key = c.KeyRightAlt then c.ModAlt
  else if key = c.KeyLeftShift ∨ key = c.KeyRightShift then c.ModShift
  else if key = c.KeyLeftSuper ∨ key = c.KeyRightSuper then c.ModSuper
  else 0

/-- Go `desktopModifierCorrected`. -/
def desktopModifierCorrected (c : KeyConstants) (mods key action : Int) : Int :=
  let mods1 :=
    if action = c.Press then Int.lor mods (glfwKeyToModifier c key)
    else Int.land mods (Int.lnot (glfwKeyToModifier c key))
  desktopModifier c mods1

/-- The four modifiers: for each, the bit position in the `glfw` mask, the bit
position in the `fyne` mask, and the left and the right key. -/
def KeyConstants.modifiers (c : KeyConstants) : List (Nat × Nat × Int × Int) :=
  [(c.modShiftBit, c.keyModifierShiftBit, c.KeyLeftShift, c.KeyRightShift),
   (c.modControlBit, c.keyModifierControlBit, c.KeyLeftControl, c.KeyRightControl),
   (c.modAltBit, c.keyModifierAltBit, c.KeyLeftAlt, c.KeyRightAlt),
   (c.modSuperBit, c.keyModifierSuperBit, c.KeyLeftSuper, c.KeyRightSuper)]

/-- The constants are distinct: the four bits of each mask, the eight modifier
keys, and the two actions. -/
def KeyConstants.Distinct (c : KeyConstants) : Prop :=
  [c.modShiftBit, c.modControlBit, c.modAltBit, c.modSuperBit].Nodup ∧
  [c.keyModifierShiftBit, c.keyModifierControlBit, c.keyModifierAltBit,
    c.keyModifierSuperBit].Nodup ∧
  [c.KeyLeftShift, c.KeyRightShift, c.KeyLeftControl, c.KeyRightControl, c.KeyLeftAlt,
    c.KeyRightAlt, c.KeyLeftSuper, c.KeyRightSuper].Nodup ∧
  c.Press ≠ c.Release

/-- The values the constants have in GLFW (`GLFW_MOD_SHIFT` = 1, `GLFW_MOD_CONTROL`
= 2, `GLFW_MOD_ALT` = 4, `GLFW_MOD_SUPER` = 8, `GLFW_PRESS` = 1, `GLFW_RELEASE` = 0,
the keys 340 to 347) and in `fyne` (`1 << iota`). -/
def glfwConstants : KeyConstants :=
  ⟨0, 1, 2, 3, 0, 1, 2, 3, 1, 0, 340, 344, 341, 345, 342, 346, 343, 347⟩

/-- The index in `separators` of a separator object; `none` for a row. -/
def CanvasObject.separatorIndex : CanvasObject → Option Nat
  | CanvasObject.separator i => some i
  | CanvasObject.branch _ => none
  | CanvasObject.leaf _ => none

/-- The position and the size of a row object; `none` for a separator. -/
def CanvasObject.rowFrame : CanvasObject → Option (Position × Size)
  | CanvasObject.separator _ => none
  | CanvasObject.branch b => some (b.position, b.size)
  | CanvasObject.leaf l => some (l.position, l.size)

/-- A fresh content renderer for the scenario tree at offset 0, with a viewport of
height 100 that shows every row. -/
def wideRenderer : treeContentRenderer :=
  treeContent.CreateRenderer ⟨scenarioTree, ⟨100, 100⟩, ""⟩

/-- A fresh content renderer for the scenario tree with `HideSeparators` set, with
a viewport of height 100. -/
def hiddenSeparatorsRenderer : treeContentRenderer :=
  treeContent.CreateRenderer ⟨{ scenarioTree with HideSeparators := true }, ⟨100, 100⟩, ""⟩

/-- A fresh content renderer for the scenario tree under a theme whose padding is
-20, with a viewport of height 100. -/
def negativePaddingRenderer : treeContentRenderer :=
  treeContent.CreateRenderer ⟨{ scenarioTree with theme := ⟨-20, 1, 20⟩ }, ⟨100, 100⟩, ""⟩

/-- The running offset `y` of `Layout`, and likewise the running height
`min.Height` of `MinSize`, after the recorded calls `vs`, starting from `y`: the
unrendered default root is skipped, `pad` is added when the offset is positive,
and the offset advances by the row height. -/
def runningOffset (t : Tree) (pad : Int) (y : Int) : List Visit → Int
  | [] => y
  | v :: vs =>
    if t.Root = "" ∧ v.id = "" then runningOffset t pad y vs
    else
      let y1 := if y > 0 then y + pad else y
      let m := if v.branch then t.branchMinSize else t.leafMinSize
      runningOffset t pad (y1 + m.Height) vs

/-- The child relation restricted to the open branches reachable from `Root` is
finite and acyclic: `rank` strictly decreases from an open branch that is
reachable from `Root` through open branches to each of its children. -/
def Tree.OpenAcyclic (t : Tree) (rank : String → Nat) : Prop :=
  ∀ isBranch childUIDs, t.IsBranch = some isBranch → t.ChildUIDs = some childUIDs →
    ∀ u c, ReachableThrough isBranch childUIDs t.IsBranchOpen t.Root u →
      isBranch u = true → t.IsBranchOpen u = true → c ∈ childUIDs u → rank c < rank u

/-- A tree whose root lists the leaf `A` twice. -/
def repeatedChildTree : Tree :=
  NewTreeWithStrings [("", ["A", "A"])] ⟨4, 1, 20⟩

/-- A rank for `repeatedChildTree`. -/
def repeatedChildRank (uid : String) : Nat :=
  if uid = "" then 1 else 0

/-- Go `allTreeNodesID`. -/
def allTreeNodesID : String := "_ALLNODES"

/-- Go `onlyNewTreeNodesID`. -/
def onlyNewTreeNodesID : String := "_ONLYNEWNODES"

/-- Go `contains`. -/
def contains (slice : List String) (item : String) : Bool :=
  match slice with
  | [] => false
  | s :: rest => if s = item then true else contains rest item

/-- Modelled from the spec: `fyne.Size.IsZero` is outside the listed sources; a
size is zero when its width and its height are 0. -/
def Size.IsZero (s : Size) : Bool := decide (s.Width = 0) && decide (s.Height = 0)

/-- Modelled from the spec: `fyne.Size.Max` is outside the listed sources; the
component-wise maximum. -/
def Size.Max (s v : Size) : Size := ⟨max s.Width v.Width, max s.Height v.Height⟩

/-- Go `treeContentRenderer.refreshForID`, lines 782-804: the rows on which
`Refresh` is called, each named by the id it is bound under and its kind (`true`
for a branch), the maps being read in list order. -/
def treeContentRenderer.refreshRows (r : treeContentRenderer) (toDraw : String) :
    List (String × Bool) :=
  if toDraw = onlyNewTreeNodesID then
    (r.branches.filter
      (fun e => contains r.visible e.1 && !contains r.wasVisible e.1)).map (fun e => (e.1, true))
  else
    (r.branches.filter
        (fun e => !(decide (toDraw ≠ allTreeNodesID) && decide (e.1 ≠ toDraw)))).map
      (fun e => (e.1, true)) ++
    (r.leaves.filter
        (fun e => !(decide (toDraw ≠ allTreeNodesID) && decide (e.1 ≠ toDraw)))).map
      (fun e => (e.1, false))

/-- Go `treeContentRenderer.refreshForID`, for a content of size `s` in a tree of
size `treeSize`; the result is the renderer and the rows on which `Refresh` was
called.  Modelled from the spec: `BaseWidget` is outside the listed sources; a
content of size zero is resized to its minimum size (`treeContent.Resize`, which
returns at once when the size does not change), and that resize refreshes every
row after a layout at the new size (`treeContent.Refresh`, `Refresh` of the
renderer). -/
def treeContentRenderer.refreshForID (fuel : Nat) (r : treeContentRenderer) (s treeSize : Size)
    (toDraw : String) : Except Fault (treeContentRenderer × List (String × Bool)) :=
  if s.IsZero then
    (r.MinSize fuel).bind (fun m =>
      if m.Max treeSize = s then .ok (r, r.refreshRows toDraw)
      else
        (treeContentRenderer.Layout fuel
          { r with treeContent := { r.treeContent with nextRefreshID := allTreeNodesID } }
          (m.Max treeSize)).bind
          (fun r1 => .ok (r1, r1.refreshRows allTreeNodesID ++ r1.refreshRows toDraw)))
  else
    (r.Layout fuel s).bind (fun r1 => .ok (r1, r1.refreshRows toDraw))

/-- A fresh content renderer for the scenario tree at offset 0, with a viewport of
height 15. -/
def scenarioRenderer : treeContentRenderer :=
  treeContent.CreateRenderer ⟨scenarioTree, ⟨100, 15⟩, ""⟩

/-- The identities (Go pointers) of a list of row instances. -/
def instanceIds (l : List treeNode) : List Nat := l.map treeNode.ident

/-- The row instances a renderer holds bound: the values of the maps `branches`
and `leaves`. -/
def treeContentRenderer.bound (r : treeContentRenderer) : List treeNode :=
  r.branches.map Prod.snd ++ r.leaves.map Prod.snd

/-- The row instances a renderer holds in `branchPool` and `leafPool`. -/
def treeContentRenderer.pooled (r : treeContentRenderer) : List treeNode :=
  r.branchPool ++ r.leafPool

/-- The pool invariant of the content renderer: every row instance allocated so
far (the identities below `nextIdent`) is held exactly once, either bound in a map
or in a pool; the association lists are maps (no key twice); and `branches` and
`branchPool` hold branch instances, `leaves` and `leafPool` leaf instances. -/
def treeContentRenderer.PoolInvariant (r : treeContentRenderer) : Prop :=
  (instanceIds (r.bound ++ r.pooled)).Perm (List.range r.nextIdent) ∧
  (r.branches.map Prod.fst).Nodup ∧ (r.leaves.map Prod.fst).Nodup ∧
  (∀ e ∈ r.branches, e.2.isBranch = true) ∧ (∀ e ∈ r.leaves, e.2.isBranch = false) ∧
  (∀ n ∈ r.branchPool, n.isBranch = true) ∧ (∀ n ∈ r.leafPool, n.isBranch = false)

/-- The identities of one kind that are accounted for in the middle of a layout:
the instances in the new map, those in the pool, and those of the old map that the
end of the layout will release (their id is not a key of the new map). -/
def poolList (old new : List (String × treeNode)) (pool : List treeNode) : List Nat :=
  instanceIds (new.map Prod.snd) ++ instanceIds pool ++ instanceIds (released old new)

/-- The three ways `Layout` obtains the instance `n` for a visible row `uid` of
kind `k`: the instance bound to `uid` in the old map, the first instance of the
pool, or a new instance with the next identity. -/
def BindCase (old : List (String × treeNode)) (pool : List treeNode) (next : Nat)
    (uid : String) (n : treeNode) (k : Bool) (pool1 : List treeNode) (next1 : Nat) : Prop :=
  (∃ b, old.lookup uid = some b ∧ n.ident = b.ident ∧ n.isBranch = b.isBranch ∧
    pool1 = pool ∧ next1 = next) ∨
  (old.lookup uid = none ∧ ∃ o, pool = o :: pool1 ∧ n.ident = o.ident ∧
    n.isBranch = o.isBranch ∧ next1 = next) ∨
  (old.lookup uid = none ∧ pool = [] ∧ pool1 = [] ∧ n.ident = next ∧ n.isBranch = k ∧
    next1 = next + 1)

/-- The loop invariant of `Layout` for the pools, with the maps `OB` and `OL` of
the previous layout: the old maps are not written, every identity is accounted
for once, the new maps have no key twice and their keys are the ids in `visible`,
and the kinds are kept apart. -/
def PoolLoop (OB OL : List (String × treeNode)) (lv : LayoutVars) : Prop :=
  lv.r.branches = OB ∧ lv.r.leaves = OL ∧
  (poolList OB lv.branches lv.r.branchPool ++ poolList OL lv.leaves lv.r.leafPool).Perm
    (List.range lv.r.nextIdent) ∧
  (lv.branches.map Prod.fst).Nodup ∧ (lv.leaves.map Prod.fst).Nodup ∧
  (∀ u, u ∈ lv.branches.map Prod.fst ++ lv.leaves.map Prod.fst ↔ u ∈ lv.r.visible) ∧
  (∀ e ∈ lv.branches, e.2.isBranch = true) ∧ (∀ e ∈ lv.leaves, e.2.isBranch = false) ∧
  (∀ n ∈ lv.r.branchPool, n.isBranch = true) ∧ (∀ n ∈ lv.r.leafPool, n.isBranch = false)

/-- The content renderer of the scenario tree as a layout at offset 0 with a
viewport of height 15 leaves it (the rows `A` and `A1` bound), with the tree then
scrolled to offset 19. -/
def boundRenderer : treeContentRenderer :=
  { treeContent.CreateRenderer ⟨{ scenarioTree with offset := ⟨0, 19⟩ }, ⟨100, 15⟩, ""⟩ with
    branches := [("A", ⟨0, "A", 0, true, true, ⟨0, 0⟩, ⟨100, 10⟩⟩)]
    leaves := [("A1", ⟨1, "A1", 1, false, true, ⟨0, 14⟩, ⟨100, 10⟩⟩)]
    visible := ["A", "A1"]
    nextIdent := 2 }

/-! ## Lemmas on the walk -/

theorem sameShape_refl (a : Tree) : Tree.SameShape a a := ⟨rfl, rfl, rfl, rfl⟩

theorem sameShape_trans {a b c : Tree} (h : Tree.SameShape a b) (h1 : Tree.SameShape b c) :
    Tree.SameShape a c :=
  ⟨h.1.trans h1.1, h.2.1.trans h1.2.1, h.2.2.1.trans h1.2.2.1, h.2.2.2.trans h1.2.2.2⟩

theorem sameShape_isBranchOpen {a b : Tree} (h : Tree.SameShape a b) (uid : String) :
    a.IsBranchOpen uid = b.IsBranchOpen uid := by
  unfold Tree.IsBranchOpen
  rw [h.1, h.2.2.2]

/-- Folding related runs of `walk` over a list of children keeps them related. -/
theorem foldlM_rel {A B : Type} (R : A → B → Prop) (f : A → String → Except Fault A)
    (g : B → String → Except Fault B)
    (hstep : ∀ a b c, R a b → ExceptRel R (f a c) (g b c)) :
    ∀ (cs : List String) (a : A) (b : B), R a b → ExceptRel R (cs.foldlM f a) (cs.foldlM g b) := by
  intro cs
  induction cs with
  | nil => intro a b h; simpa [ExceptRel] using h
  | cons c cs ih =>
    intro a b h
    have h1 := hstep a b c h
    simp only [List.foldlM_cons]
    cases hf : f a c with
    | error e =>
      cases hg : g b c with
      | error e1 =>
        rw [hf, hg] at h1
        simpa [ExceptRel, bind, Except.bind] using h1
      | ok b1 => rw [hf, hg] at h1; exact absurd h1 (by simp [ExceptRel])
    | ok a1 =>
      cases hg : g b c with
      | error e1 => rw [hf, hg] at h1; exact absurd h1 (by simp [ExceptRel])
      | ok b1 =>
        rw [hf, hg] at h1
        simpa [bind, Except.bind] using ih a1 b1 h1

/-- Simulation: two closures that keep a relation which implies equal shape make
`walk` take the same path. -/
theorem walk_rel {α β : Type} (R : Tree × α → Tree × β → Prop)
    (f : String → String → Bool → Int → Tree × α → Tree × α)
    (g : String → String → Bool → Int → Tree × β → Tree × β)
    (hshape : ∀ a b, R a b → Tree.SameShape a.1 b.1)
    (hstep : ∀ id p br d a b, R a b → R (f id p br d a) (g id p br d b)) :
    ∀ (fuel : Nat) (uid parent : String) (depth : Int) (a : Tree × α) (b : Tree × β), R a b →
      ExceptRel R (Tree.walk fuel uid parent depth f a) (Tree.walk fuel uid parent depth g b) := by
  intro fuel
  induction fuel with
  | zero => intro uid parent depth a b _; simp [Tree.walk, ExceptRel]
  | succ n ih =>
    intro uid parent depth a b h
    have hs := hshape a b h
    unfold Tree.walk
    rw [hs.2.1]
    cases hib : b.1.IsBranch with
    | none => simpa [ExceptRel] using h
    | some isBranch =>
      simp only
      by_cases hb : isBranch uid = true
      · simp only [hb, if_true]
        have h1 := hstep uid parent true depth a b h
        have hs1 := hshape _ _ h1
        rw [sameShape_isBranchOpen hs1 uid]
        by_cases ho : (g uid parent true depth b).1.IsBranchOpen uid = true
        · simp only [ho, if_true]
          rw [hs1.2.2.1]
          cases hcu : (g uid parent true depth b).1.ChildUIDs with
          | none => simpa [ExceptRel] using h1
          | some childUIDs =>
            simp only
            exact foldlM_rel R _ _ (fun a1 b1 c hab => ih c uid (depth + 1) a1 b1 hab) _ _ _ h1
        · simp only [ho]
          simpa [ExceptRel] using h1
      · simp only [hb]
        simpa [ExceptRel] using hstep uid parent false depth a b h

theorem exceptRel_mono {A B : Type} {R Q : A → B → Prop} (h : ∀ a b, R a b → Q a b)
    {x : Except Fault A} {y : Except Fault B} (hxy : ExceptRel R x y) : ExceptRel Q x y := by
  cases x <;> cases y <;> simp_all [ExceptRel]

/-- A closure that keeps the shape makes `walk` fold it over the recorded calls. -/
theorem walk_fold {α : Type} (f : String → String → Bool → Int → Tree × α → Tree × α)
    (hf : ∀ id p br d a, Tree.SameShape (f id p br d a).1 a.1)
    (fuel : Nat) (uid parent : String) (depth : Int) (s : Tree × α) (t : Tree)
    (hst : Tree.SameShape s.1 t) :
    ExceptRel (fun a (b : Tree × List Visit) => a = b.2.foldl (applyVisit f) s)
      (Tree.walk fuel uid parent depth f s)
      (Tree.walk fuel uid parent depth Tree.recordNode (t, [])) := by
  have key := walk_rel
    (fun (a : Tree × α) (b : Tree × List Visit) =>
      Tree.SameShape a.1 b.1 ∧ a = b.2.foldl (applyVisit f) s)
    f Tree.recordNode (fun a b h => h.1)
    (by
      intro id p br d a b h
      refine ⟨sameShape_trans (hf id p br d a) h.1, ?_⟩
      simp only [Tree.recordNode, List.foldl_append, List.foldl_cons, List.foldl_nil, applyVisit]
      rw [← h.2])
    fuel uid parent depth s (t, []) ⟨hst, rfl⟩
  exact exceptRel_mono (fun a b h => h.2) key

/-- The same, for `walkAll` and the recorded sequence `visits`. -/
theorem walkAll_fold {α : Type} (f : String → String → Bool → Int → Tree × α → Tree × α)
    (hf : ∀ id p br d a, Tree.SameShape (f id p br d a).1 a.1)
    (fuel : Nat) (s : Tree × α) (t : Tree) (hst : Tree.SameShape s.1 t) (vs : List Visit)
    (hvs : t.visits fuel = .ok vs) :
    Tree.walkAll fuel f s = .ok (vs.foldl (applyVisit f) s) := by
  have h := walk_fold f hf fuel t.Root "" 0 s t hst
  unfold Tree.visits Tree.walkAll at hvs
  unfold Tree.walkAll
  rw [hst.1]
  simp only at hvs
  cases hw : Tree.walk fuel t.Root "" 0 Tree.recordNode (t, []) with
  | error e => rw [hw] at hvs; simp [Except.map] at hvs
  | ok b =>
    rw [hw] at hvs h
    simp only [Except.map, Except.ok.injEq] at hvs
    cases hw1 : Tree.walk fuel t.Root "" 0 f s with
    | error e => rw [hw1] at h; exact absurd h (by simp [ExceptRel])
    | ok a =>
      rw [hw1] at h
      simp only [ExceptRel] at h
      rw [h, hvs]

theorem foldlM_record_ok (t : Tree) (step : Tree × List Visit → String → Except Fault (Tree × List Visit)) :
    ∀ (cs : List String),
      (∀ c ∈ cs, ∀ acc, ∃ r, step (t, acc) c = .ok r ∧ r.1 = t) →
      ∀ acc, ∃ r, cs.foldlM step (t, acc) = .ok r ∧ r.1 = t := by
  intro cs
  induction cs with
  | nil => intro _ acc; exact ⟨(t, acc), rfl, rfl⟩
  | cons c cs ih =>
    intro h acc
    obtain ⟨r, hr, hr1⟩ := h c (List.mem_cons_self _ _) acc
    obtain ⟨r2, hr2, hr3⟩ := ih (fun c1 hc1 => h c1 (List.mem_cons_of_mem _ hc1)) r.2
    refine ⟨r2, ?_, hr3⟩
    simp only [List.foldlM_cons, hr, bind, Except.bind]
    have : r = (t, r.2) := by rw [← hr1]
    rw [this]
    exact hr2

/-- On a finite acyclic tree the recording walk returns, given a budget above the
rank of the start node. -/
theorem walk_record_ok (t : Tree) (rank : String → Nat) (hac : t.Acyclic rank) :
    ∀ (fuel : Nat) (uid parent : String) (depth : Int) (acc : List Visit), rank uid < fuel →
      ∃ r, Tree.walk fuel uid parent depth Tree.recordNode (t, acc) = .ok r ∧ r.1 = t := by
  intro fuel
  induction fuel with
  | zero => intro uid _ _ _ h; omega
  | succ n ih =>
    intro uid parent depth acc hlt
    unfold Tree.walk
    cases hib : t.IsBranch with
    | none => exact ⟨(t, acc), by simp [hib], rfl⟩
    | some isBranch =>
      simp only [hib]
      by_cases hb : isBranch uid = true
      · simp only [hb, if_true, Tree.recordNode]
        by_cases ho : t.IsBranchOpen uid = true
        · simp only [ho, if_true]
          cases hcu : t.ChildUIDs with
          | none => exact ⟨_, rfl, rfl⟩
          | some childUIDs =>
            simp only
            apply foldlM_record_ok
            intro c hc acc1
            have := hac isBranch childUIDs hib hcu uid c hb hc
            exact ih c uid (depth + 1) acc1 (by omega)
        · simp only [ho]
          exact ⟨_, rfl, rfl⟩
      · simp only [hb]
        exact ⟨_, rfl, rfl⟩

/-- On a finite acyclic tree `visits` returns. -/
theorem visits_ok (t : Tree) (rank : String → Nat) (hac : t.Acyclic rank) (fuel : Nat)
    (hfuel : rank t.Root < fuel) : ∃ vs, t.visits fuel = .ok vs := by
  obtain ⟨r, hr, _⟩ := walk_record_ok t rank hac fuel t.Root "" 0 [] hfuel
  exact ⟨r.2, by simp [Tree.visits, Tree.walkAll, hr, Except.map]⟩

theorem scenarioTree_acyclic : scenarioTree.Acyclic scenarioRank := by
  intro ib cu hib hcu u c hb hc
  simp only [scenarioTree, NewTreeWithStrings, Option.some.injEq] at hib hcu
  subst hib hcu
  simp only [scenarioData, List.lookup] at hb hc
  unfold scenarioRank
  by_cases h1 : u = ""
  · subst h1
    simp at hc
    rcases hc with rfl | rfl <;> decide
  · by_cases h2 : u = "A"
    · subst h2
      simp at hc
      subst hc
      decide
    · have e1 : (u == "") = false := by simpa using h1
      have e2 : (u == "A") = false := by simpa using h2
      simp [e1, e2] at hb

theorem acyclic_openAcyclic (t : Tree) (rank : String → Nat) (h : t.Acyclic rank) :
    t.OpenAcyclic rank :=
  fun ib cu hib hcu u c _ hb _ hc => h ib cu hib hcu u c hb hc

/-- Reachability extends by one step at the far end. -/
theorem reachable_snoc (isBranch : String → Bool) (childUIDs : String → List String)
    (pass : String → Bool) (r u c : String)
    (h : ReachableThrough isBranch childUIDs pass r u) (hb : isBranch u = true)
    (hp : pass u = true) (hc : c ∈ childUIDs u) :
    ReachableThrough isBranch childUIDs pass r c := by
  induction h with
  | self u => exact ReachableThrough.child u c c hb hp hc (ReachableThrough.self c)
  | child u1 c1 v hb1 hp1 hc1 _ ih => exact ReachableThrough.child u1 c1 c hb1 hp1 hc1 (ih hb hp hc)

/-- Reachability is kept when the child lists and the set of passable nodes grow. -/
theorem reachable_mono (isBranch : String → Bool) (childUIDs childUIDs1 : String → List String)
    (pass pass1 : String → Bool) (hcu : ∀ u c, c ∈ childUIDs u → c ∈ childUIDs1 u)
    (hp : ∀ u, pass u = true → pass1 u = true) (r u : String)
    (h : ReachableThrough isBranch childUIDs pass r u) :
    ReachableThrough isBranch childUIDs1 pass1 r u := by
  induction h with
  | self u => exact ReachableThrough.self u
  | child u c v hb hpu hc _ ih =>
    exact ReachableThrough.child u c v hb (hp u hpu) (hcu u c hc) ih

/-- A tree with the same root and branch flags, with no more children and no more
open branches than a tree whose open sub-forest is finite and acyclic, has a finite
and acyclic open sub-forest too. -/
theorem openAcyclic_mono (a b : Tree) (rank : String → Nat) (hroot : a.Root = b.Root)
    (hib : a.IsBranch = b.IsBranch)
    (hcu : ∀ cuA, a.ChildUIDs = some cuA →
      ∃ cuB, b.ChildUIDs = some cuB ∧ ∀ u c, c ∈ cuA u → c ∈ cuB u)
    (hopen : ∀ u, a.IsBranchOpen u = true → b.IsBranchOpen u = true)
    (hb : b.OpenAcyclic rank) : a.OpenAcyclic rank := by
  intro ib cuA hibA hcuA u c hreach hbu hou hc
  obtain ⟨cuB, hcuB, hsub⟩ := hcu cuA hcuA
  refine hb ib cuB (hib ▸ hibA) hcuB u c ?_ hbu (hopen u hou) (hsub u c hc)
  rw [← hroot]
  exact reachable_mono ib cuA cuB a.IsBranchOpen b.IsBranchOpen hsub hopen a.Root u hreach

/-- When the open sub-forest reachable from `Root` is finite and acyclic, the
recording walk returns from every node reachable from `Root` through open
branches, given a budget above the rank of the node. -/
theorem walk_record_ok_open (t : Tree) (rank : String → Nat) (hac : t.OpenAcyclic rank)
    (isBranch : String → Bool) (childUIDs : String → List String)
    (hib : t.IsBranch = some isBranch) (hcu : t.ChildUIDs = some childUIDs) :
    ∀ (fuel : Nat) (uid parent : String) (depth : Int) (acc : List Visit),
      ReachableThrough isBranch childUIDs t.IsBranchOpen t.Root uid → rank uid < fuel →
      ∃ r, Tree.walk fuel uid parent depth Tree.recordNode (t, acc) = .ok r ∧ r.1 = t := by
  intro fuel
  induction fuel with
  | zero => intro uid _ _ _ _ h; omega
  | succ n ih =>
    intro uid parent depth acc hreach hlt
    unfold Tree.walk
    simp only [hib]
    by_cases hb : isBranch uid = true
    · simp only [hb, if_true, Tree.recordNode]
      by_cases ho : t.IsBranchOpen uid = true
      · simp only [ho, if_true, hcu]
        apply foldlM_record_ok
        intro c hc acc1
        have := hac isBranch childUIDs hib hcu uid c hreach hb ho hc
        exact ih c uid (depth + 1) acc1
          (reachable_snoc isBranch childUIDs t.IsBranchOpen t.Root uid c hreach hb ho hc)
          (by omega)
      · simp only [ho]
        exact ⟨_, rfl, rfl⟩
    · simp only [hb]
      exact ⟨_, rfl, rfl⟩

/-- The recording walk returns with one level of budget when `IsBranch` or
`ChildUIDs` is nil: it does not recurse. -/
theorem visits_ok_nil (t : Tree) (n : Nat) (h : t.IsBranch = none ∨ t.ChildUIDs = none) :
    ∃ vs, t.visits (n + 1) = .ok vs := by
  cases hib : t.IsBranch with
  | none =>
    refine ⟨[], ?_⟩
    unfold Tree.visits Tree.walkAll
    rw [Tree.walk]
    simp [hib, Except.map]
  | some isBranch =>
    have hcu : t.ChildUIDs = none := by
      rcases h with h | h
      · rw [hib] at h; cases h
      · exact h
    unfold Tree.visits Tree.walkAll
    rw [Tree.walk]
    simp only [hib]
    by_cases hb : isBranch t.Root = true
    · simp only [hb, if_true, Tree.recordNode]
      by_cases ho : t.IsBranchOpen t.Root = true
      · simp only [ho, if_true, hcu]
        exact ⟨_, rfl⟩
      · simp only [ho]
        exact ⟨_, rfl⟩
    · simp only [hb]
      exact ⟨_, rfl⟩

/-- When the open sub-forest reachable from `Root` is finite and acyclic, `visits`
returns, given a budget above the rank of the root. -/
theorem visits_ok_open (t : Tree) (rank : String → Nat) (hac : t.OpenAcyclic rank) (fuel : Nat)
    (hfuel : rank t.Root < fuel) : ∃ vs, t.visits fuel = .ok vs := by
  obtain ⟨n, hn⟩ : ∃ n, fuel = n + 1 := ⟨fuel - 1, by omega⟩
  cases hib : t.IsBranch with
  | none => rw [hn]; exact visits_ok_nil t n (Or.inl hib)
  | some isBranch =>
    cases hcu : t.ChildUIDs with
    | none => rw [hn]; exact visits_ok_nil t n (Or.inr hcu)
    | some childUIDs =>
      obtain ⟨r, hr, _⟩ := walk_record_ok_open t rank hac isBranch childUIDs hib hcu fuel t.Root
        "" 0 [] (ReachableThrough.self _) hfuel
      exact ⟨r.2, by simp [Tree.visits, Tree.walkAll, hr, Except.map]⟩

/-- When `walkAll` returns for a closure that keeps the shape, the recording walk
of a tree of the same shape returns too. -/
theorem visits_of_walkAll_ok {α : Type} (f : String → String → Bool → Int → Tree × α → Tree × α)
    (hf : ∀ id p br d a, Tree.SameShape (f id p br d a).1 a.1)
    (fuel : Nat) (s : Tree × α) (t : Tree) (hst : Tree.SameShape s.1 t) (a : Tree × α)
    (h : Tree.walkAll fuel f s = .ok a) : ∃ vs, t.visits fuel = .ok vs := by
  have hrel := walk_fold f hf fuel t.Root "" 0 s t hst
  unfold Tree.walkAll at h
  rw [hst.1] at h
  rw [h] at hrel
  unfold Tree.visits Tree.walkAll
  cases hw : Tree.walk fuel t.Root "" 0 Tree.recordNode (t, []) with
  | error e => rw [hw] at hrel; exact absurd hrel (by simp [ExceptRel])
  | ok b => exact ⟨b.2, by simp [Except.map]⟩

theorem offsetAndSizeNode_shape (uid : String) (id p : String) (br : Bool) (d : Int)
    (a : Tree × OffsetAndSize) : (Tree.offsetAndSizeNode uid id p br d a).1 = a.1 := by
  unfold Tree.offsetAndSizeNode
  simp only
  split_ifs <;> rfl

theorem offsetUpdated_frame (t : Tree) (pos : Position) :
    ∃ off, t.offsetUpdated pos = { t with offset := off } := by
  unfold Tree.offsetUpdated
  split_ifs
  · exact ⟨t.offset, rfl⟩
  · exact ⟨pos, rfl⟩

/-- Once the walk returns, `ScrollTo` returns, and it writes the scroller and the
offset only. -/
theorem scrollTo_frame (fuel : Nat) (t : Tree) (uid : String) (t0 : Tree)
    (hst : Tree.SameShape t t0) (vs : List Visit) (hvs : t0.visits fuel = .ok vs) :
    ∃ sc off, t.ScrollTo fuel uid = .ok { t with scroller := sc, offset := off } := by
  unfold Tree.ScrollTo
  cases hsc : t.scroller with
  | none => exact ⟨none, t.offset, by cases t; simp only at hsc; subst hsc; rfl⟩
  | some scroller =>
    have hw := walkAll_fold (Tree.offsetAndSizeNode uid)
      (fun id p br d a => by rw [offsetAndSizeNode_shape]; exact sameShape_refl _)
      fuel (t, ⟨0, ⟨0, 0⟩, false⟩) t0 hst vs hvs
    simp only [Tree.offsetAndSize, hw, Except.map]
    by_cases hfound : (!(vs.foldl (applyVisit (Tree.offsetAndSizeNode uid))
        (t, ⟨0, ⟨0, 0⟩, false⟩)).2.found) = true
    · rw [if_pos hfound]
      exact ⟨some scroller, t.offset, by cases t; simp only at hsc; subst hsc; rfl⟩
    · rw [if_neg hfound]
      obtain ⟨off, ho⟩ := offsetUpdated_frame { t with scroller := some (scroller.ScrollToOffset
        ⟨0, Tree.scrollToNewY (vs.foldl (applyVisit (Tree.offsetAndSizeNode uid))
          (t, ⟨0, ⟨0, 0⟩, false⟩)).2 scroller⟩) }
        (scroller.ScrollToOffset ⟨0, Tree.scrollToNewY (vs.foldl
          (applyVisit (Tree.offsetAndSizeNode uid)) (t, ⟨0, ⟨0, 0⟩, false⟩)).2 scroller⟩).Offset
      exact ⟨_, off, by rw [ho]⟩

/-- Whenever `ScrollTo` returns, it has written the scroller and the offset only. -/
theorem scrollTo_frame_of_ok (fuel : Nat) (t t1 : Tree) (uid : String)
    (h : t.ScrollTo fuel uid = .ok t1) :
    ∃ sc off, t1 = { t with scroller := sc, offset := off } := by
  unfold Tree.ScrollTo at h
  cases hsc : t.scroller with
  | none =>
    rw [hsc] at h
    simp only [Except.ok.injEq] at h
    exact ⟨none, t.offset, by rw [← h]; cases t; simp only at hsc; subst hsc; rfl⟩
  | some scroller =>
    rw [hsc] at h
    simp only at h
    cases hr : t.offsetAndSize fuel uid with
    | error e => rw [hr] at h; simp at h
    | ok r =>
      rw [hr] at h
      simp only at h
      by_cases hfound : (!r.found) = true
      · rw [if_pos hfound] at h
        simp only [Except.ok.injEq] at h
        exact ⟨some scroller, t.offset, by rw [← h]; cases t; simp only at hsc; subst hsc; rfl⟩
      · rw [if_neg hfound] at h
        simp only [Except.ok.injEq] at h
        obtain ⟨off, ho⟩ := offsetUpdated_frame { t with scroller := some (scroller.ScrollToOffset
          ⟨0, Tree.scrollToNewY r scroller⟩) }
          (scroller.ScrollToOffset ⟨0, Tree.scrollToNewY r scroller⟩).Offset
        exact ⟨_, off, by rw [← h, ho]⟩

/-- When the open sub-forest reachable from `Root` is finite and acyclic, `ScrollTo`
returns and writes the scroller and the offset only. -/
theorem scrollTo_openAcyclic (fuel : Nat) (t : Tree) (uid : String) (rank : String → Nat)
    (hac : t.OpenAcyclic rank) (hfuel : rank t.Root < fuel) :
    ∃ sc off, t.ScrollTo fuel uid = .ok { t with scroller := sc, offset := off } := by
  obtain ⟨vs, hvs⟩ := visits_ok_open t rank hac fuel hfuel
  exact scrollTo_frame fuel t uid t (sameShape_refl _) vs hvs

/-- For `Select`, from the assignment of the selection on: when the open sub-forest
is finite and acyclic it returns. -/
theorem selectNew_openAcyclic (fuel : Nat) (t : Tree) (uid : String) (rank : String → Nat)
    (hac : t.OpenAcyclic rank) (hfuel : rank t.Root < fuel) :
    ∃ t1, Tree.selectNew fuel t uid = .ok t1 := by
  obtain ⟨sc, off, h⟩ := scrollTo_openAcyclic fuel { t with selected := [uid] } uid rank hac hfuel
  unfold Tree.selectNew
  rw [h]
  exact ⟨_, rfl⟩

/-- Whenever `selectNew` returns, `OnSelected(uid)` is the one call it has made, if
registered, and it has written neither the focus nor the open map. -/
theorem selectNew_events (fuel : Nat) (t t1 : Tree) (uid : String)
    (h : Tree.selectNew fuel t uid = .ok t1) :
    t1.events = t.events ++ (if t.OnSelected then [Event.selected uid] else []) ∧
      t1.currentFocus = t.currentFocus ∧ t1.openMap = t.openMap := by
  unfold Tree.selectNew at h
  cases hs : Tree.ScrollTo fuel { t with selected := [uid] } uid with
  | error e => rw [hs] at h; simp at h
  | ok t2 =>
    rw [hs] at h
    obtain ⟨sc, off, h2⟩ := scrollTo_frame_of_ok _ _ _ _ hs
    simp only [Except.ok.injEq] at h
    rw [← h, h2]
    cases hS : t.OnSelected <;> simp [hS]

/-- Whenever `selectNew` returns, the selection is `[uid]`. -/
theorem selectNew_selected (fuel : Nat) (t t1 : Tree) (uid : String)
    (h : Tree.selectNew fuel t uid = .ok t1) : t1.selected = [uid] := by
  unfold Tree.selectNew at h
  cases hs : Tree.ScrollTo fuel { t with selected := [uid] } uid with
  | error e => rw [hs] at h; simp at h
  | ok t2 =>
    rw [hs] at h
    obtain ⟨sc, off, h2⟩ := scrollTo_frame_of_ok _ _ _ _ hs
    simp only [Except.ok.injEq] at h
    rw [← h, h2]
    split_ifs <;> rfl

/-- C2: for every tree in which some id `prev` is selected and every `uid`
different from `prev`: `Select(uid)` returns when the open sub-forest of the tree
is finite and acyclic (given a budget above the rank of the root); and on every
tree, whenever `Select(uid)` returns, it has called `OnUnselected(prev)` once (if
registered) and then `OnSelected(uid)` once (if registered), in that order and
nothing else, and the selection afterwards is exactly `[uid]`, a single id. -/
theorem select_replaces_previous (fuel : Nat) (t : Tree) (prev uid : String) (rest : List String)
    (hsel : t.selected = prev :: rest) (hne : uid ≠ prev) :
    (∀ rank : String → Nat, t.OpenAcyclic rank → rank t.Root < fuel →
      ∃ t1, t.Select fuel uid = .ok t1) ∧
    (∀ t1, t.Select fuel uid = .ok t1 → t1.selected = [uid] ∧ t1.selected.length ≤ 1 ∧
      t1.events = t.events ++ (if t.OnUnselected then [Event.unselected prev] else [])
        ++ (if t.OnSelected then [Event.selected uid] else [])) := by
  have hS : t.Select fuel uid = Tree.selectNew fuel
      (if t.OnUnselected = true then { t with events := t.events ++ [Event.unselected prev] }
        else t) uid := by
    unfold Tree.Select
    split
    · rename_i h; rw [hsel] at h; cases h
    · rename_i s0 l h
      rw [hsel] at h
      injection h with h1 h2
      subst h1
      rw [if_neg hne]
  rw [hS]
  constructor
  · intro rank hac hfuel
    by_cases hU : t.OnUnselected = true
    · rw [if_pos hU]
      exact selectNew_openAcyclic fuel
        { t with events := t.events ++ [Event.unselected prev] } uid rank hac hfuel
    · rw [if_neg hU]
      exact selectNew_openAcyclic fuel t uid rank hac hfuel
  · intro t1 h1
    have h2 := selectNew_selected _ _ _ _ h1
    obtain ⟨h3, _, _⟩ := selectNew_events _ _ _ _ h1
    refine ⟨h2, by simp [h2], ?_⟩
    by_cases hU : t.OnUnselected = true
    · rw [if_pos hU] at h3
      simpa [hU] using h3
    · rw [if_neg hU] at h3
      simpa [hU] using h3

theorem select_replaces_previous_witness :
    ∃ t1, selectedTree.Select 3 "B" = .ok t1 ∧ t1.selected = ["B"] ∧ t1.selected.length ≤ 1 ∧
      t1.events = [Event.unselected "A", Event.selected "B"] := by
  obtain ⟨h1, h2⟩ := select_replaces_previous 3 selectedTree "A" "B" [] rfl (by decide)
  obtain ⟨t1, ht1⟩ := h1 scenarioRank (acyclic_openAcyclic _ _ scenarioTree_acyclic) (by decide)
  exact ⟨t1, ht1, h2 t1 ht1⟩

/-- C3: `Select` is idempotent.  When `uid` is already the selected id,
`Select(uid)` returns the tree state unchanged (selection, open map, focus,
scroll offset, and no observer call); and for every tree state, `Select(uid)`
followed by `Select(uid)` is the same as a single `Select(uid)`. -/
theorem select_idempotent (fuel : Nat) (t : Tree) (uid : String) :
    (t.selected.head? = some uid → t.Select fuel uid = .ok t) ∧
    ((t.Select fuel uid).bind (fun t1 => t1.Select fuel uid) = t.Select fuel uid) := by
  have hnoop : ∀ t0 : Tree, t0.selected.head? = some uid → t0.Select fuel uid = .ok t0 := by
    intro t0 h
    unfold Tree.Select
    cases hs : t0.selected with
    | nil => rw [hs] at h; simp at h
    | cons s0 rest =>
      rw [hs] at h
      simp only [List.head?_cons, Option.some.injEq] at h
      simp [h]
  refine ⟨hnoop t, ?_⟩
  cases hr : t.Select fuel uid with
  | error e => rfl
  | ok t1 =>
    simp only [Except.bind]
    apply hnoop
    unfold Tree.Select at hr
    cases hs : t.selected with
    | nil =>
      rw [hs] at hr
      simp only at hr
      rw [selectNew_selected _ _ _ _ hr]; rfl
    | cons s0 rest =>
      rw [hs] at hr
      simp only at hr
      by_cases he : uid = s0
      · rw [if_pos he] at hr
        simp only [Except.ok.injEq] at hr
        rw [← hr, hs, he]; rfl
      · rw [if_neg he] at hr
        rw [selectNew_selected _ _ _ _ hr]; rfl

theorem select_idempotent_witness :
    selectedTree.selected.head? = some "A" ∧ selectedTree.Select 3 "A" = .ok selectedTree :=
  ⟨rfl, (select_idempotent 3 selectedTree "A").1 rfl⟩

/-- C9 as stated fails: with the focused row `A` already selected, `KeySpace`
leaves `A` selected. -/
theorem typedKey_space_keeps_selected :
    selectedTree.currentFocus = "A" ∧ selectedTree.selected = ["A"] ∧
      ∃ t1, selectedTree.TypedKey 3 KeyName.KeySpace = .ok t1 ∧ t1.selected = ["A"] :=
  ⟨rfl, rfl, selectedTree, rfl, rfl⟩

/-- C9, amended: `TypedKey(KeySpace)` selects the focused row, for every tree
state.  If `currentFocus` already is the selected id, it returns the tree state
unchanged, the row staying selected.  Otherwise it returns when the open
sub-forest of the tree is finite and acyclic (given a budget above the rank of the
root), and whenever it returns the selection is `[currentFocus]`.  In both cases
the selected id afterwards is `currentFocus`. -/
theorem typedKey_space_selects (fuel : Nat) (t : Tree) :
    (t.selected.head? = some t.currentFocus → t.TypedKey fuel KeyName.KeySpace = .ok t) ∧
    (∀ rank : String → Nat, t.OpenAcyclic rank → rank t.Root < fuel →
      ∃ t1, t.TypedKey fuel KeyName.KeySpace = .ok t1) ∧
    (∀ t1, t.TypedKey fuel KeyName.KeySpace = .ok t1 →
      t1.selected.head? = some t.currentFocus ∧
      (t.selected.head? ≠ some t.currentFocus → t1.selected = [t.currentFocus])) := by
  have hT : t.TypedKey fuel KeyName.KeySpace = t.Select fuel t.currentFocus := rfl
  rw [hT]
  have hnoop : t.selected.head? = some t.currentFocus → t.Select fuel t.currentFocus = .ok t := by
    intro h
    unfold Tree.Select
    cases hs : t.selected with
    | nil => rw [hs] at h; simp at h
    | cons s0 rest =>
      rw [hs] at h
      simp only [List.head?_cons, Option.some.injEq] at h
      simp [h]
  refine ⟨hnoop, ?_, ?_⟩
  · intro rank hac hfuel
    unfold Tree.Select
    split
    · exact selectNew_openAcyclic fuel t t.currentFocus rank hac hfuel
    · rename_i s0 l h
      by_cases he : t.currentFocus = s0
      · rw [if_pos he]
        exact ⟨t, rfl⟩
      · rw [if_neg he]
        by_cases hU : t.OnUnselected = true
        · rw [if_pos hU]
          exact selectNew_openAcyclic fuel
            { t with events := t.events ++ [Event.unselected s0] } t.currentFocus rank hac hfuel
        · rw [if_neg hU]
          exact selectNew_openAcyclic fuel t t.currentFocus rank hac hfuel
  · intro t1 h1
    by_cases h : t.selected.head? = some t.currentFocus
    · rw [hnoop h] at h1
      simp only [Except.ok.injEq] at h1
      rw [← h1]
      exact ⟨h, fun hn => absurd h hn⟩
    · have hsel : t1.selected = [t.currentFocus] := by
        unfold Tree.Select at h1
        cases hs : t.selected with
        | nil =>
          rw [hs] at h1
          exact selectNew_selected _ _ _ _ h1
        | cons s0 rest =>
          rw [hs] at h1 h
          simp only [List.head?_cons, Option.some.injEq] at h
          simp only at h1
          rw [if_neg (Ne.symm h)] at h1
          exact selectNew_selected _ _ _ _ h1
      exact ⟨by rw [hsel]; rfl, fun _ => hsel⟩

theorem typedKey_space_selects_witness :
    (∃ t1, focusedTree.TypedKey 3 KeyName.KeySpace = .ok t1 ∧ t1.selected = ["B"]) ∧
      selectedTree.TypedKey 3 KeyName.KeySpace = .ok selectedTree := by
  obtain ⟨_, h2, h3⟩ := typedKey_space_selects 3 focusedTree
  obtain ⟨t1, ht1⟩ := h2 scenarioRank (acyclic_openAcyclic _ _ scenarioTree_acyclic) (by decide)
  exact ⟨⟨t1, ht1, (h3 t1 ht1).2 (by decide)⟩, (typedKey_space_selects 3 selectedTree).1 rfl⟩

theorem openBranch_fields (t : Tree) (uid : String) :
    (t.OpenBranch uid).Root = t.Root ∧ (t.OpenBranch uid).IsBranch = t.IsBranch ∧
    (t.OpenBranch uid).ChildUIDs = t.ChildUIDs ∧ (t.OpenBranch uid).currentFocus = t.currentFocus ∧
    (t.OpenBranch uid).selected = t.selected ∧
    (t.OpenBranch uid).openMap = fun k => if k = uid then true else t.openMap k := by
  unfold Tree.OpenBranch
  simp only
  split_ifs <;> exact ⟨rfl, rfl, rfl, rfl, rfl, rfl⟩

theorem closeBranch_fields (t : Tree) (uid : String) :
    (t.CloseBranch uid).Root = t.Root ∧ (t.CloseBranch uid).IsBranch = t.IsBranch ∧
    (t.CloseBranch uid).ChildUIDs = t.ChildUIDs ∧ (t.CloseBranch uid).currentFocus = t.currentFocus ∧
    (t.CloseBranch uid).selected = t.selected ∧
    (t.CloseBranch uid).openMap = fun k => if k = uid then false else t.openMap k := by
  unfold Tree.CloseBranch
  simp only
  split_ifs <;> exact ⟨rfl, rfl, rfl, rfl, rfl, rfl⟩

theorem acyclic_of_fields {a b : Tree} {rank : String → Nat} (hac : a.Acyclic rank)
    (h1 : b.IsBranch = a.IsBranch) (h2 : b.ChildUIDs = a.ChildUIDs) : b.Acyclic rank := by
  intro ib cu hib hcu
  exact hac ib cu (h1 ▸ hib) (h2 ▸ hcu)

/-- C8: for every tree with `IsBranch` set and every focused id `f`:
`TypedKey(KeyRight)` returns when the open sub-forest of the tree with `f` opened
is finite and acyclic (given a budget above the rank of the root); and on every
tree, whenever `TypedKey(KeyRight)` returns, if `IsBranch(f)` then
`IsBranchOpen(f)` is true afterwards, and `currentFocus` is the first element of
`ChildUIDs(f)` when that list is non-empty and `f` otherwise (also when
`ChildUIDs` is nil). -/
theorem typedKey_right (fuel : Nat) (t : Tree) (isBranch : String → Bool)
    (hib : t.IsBranch = some isBranch) :
    (∀ rank : String → Nat, (t.OpenBranch t.currentFocus).OpenAcyclic rank → rank t.Root < fuel →
      ∃ t1, t.TypedKey fuel KeyName.KeyRight = .ok t1) ∧
    (∀ t1, t.TypedKey fuel KeyName.KeyRight = .ok t1 →
      (isBranch t.currentFocus = true → t1.IsBranchOpen t.currentFocus = true) ∧
      t1.currentFocus =
        (match t.ChildUIDs with
          | some childUIDs => (childUIDs t.currentFocus).head?.getD t.currentFocus
          | none => t.currentFocus)) := by
  -- the state after the branch is opened
  obtain ⟨ta, hta⟩ : ∃ ta, ta = (if isBranch t.currentFocus = true then
      t.OpenBranch t.currentFocus else t) := ⟨_, rfl⟩
  obtain ⟨o1, o2, o3, o4, _, o6⟩ := openBranch_fields t t.currentFocus
  have hf : ta.Root = t.Root ∧ ta.IsBranch = t.IsBranch ∧ ta.ChildUIDs = t.ChildUIDs ∧
      ta.currentFocus = t.currentFocus ∧
      (isBranch t.currentFocus = true → ta.openMap t.currentFocus = true) ∧
      (∀ u, ta.openMap u = true → (t.OpenBranch t.currentFocus).openMap u = true) := by
    rw [hta]
    split_ifs with hb
    · exact ⟨o1, o2, o3, o4, fun _ => by rw [o6]; simp, fun u hu => hu⟩
    · refine ⟨rfl, rfl, rfl, rfl, fun h => absurd h hb, fun u hu => ?_⟩
      rw [o6]
      simp only
      split_ifs
      · rfl
      · exact hu
  -- the state after the focus has moved
  obtain ⟨tb, htb⟩ : ∃ tb, tb = (match (match ta.ChildUIDs with
        | some childUIDs => childUIDs ta.currentFocus
        | none => []) with
      | c0 :: _ => { ta with currentFocus := c0 }
      | [] => ta) := ⟨_, rfl⟩
  have hg : tb.Root = t.Root ∧ tb.IsBranch = t.IsBranch ∧ tb.ChildUIDs = t.ChildUIDs ∧
      tb.openMap = ta.openMap ∧
      tb.currentFocus = (match t.ChildUIDs with
          | some childUIDs => (childUIDs t.currentFocus).head?.getD t.currentFocus
          | none => t.currentFocus) := by
    rw [htb, hf.2.2.1, hf.2.2.2.1]
    cases hcu : t.ChildUIDs with
    | none => exact ⟨hf.1, hf.2.1, by rw [hf.2.2.1, hcu], rfl, hf.2.2.2.1⟩
    | some childUIDs =>
      simp only
      cases hc : childUIDs t.currentFocus with
      | nil => exact ⟨hf.1, hf.2.1, by rw [hf.2.2.1, hcu], rfl, by simpa using hf.2.2.2.1⟩
      | cons c0 cs => exact ⟨hf.1, hf.2.1, rfl, rfl, by simp⟩
  have hT : t.TypedKey fuel KeyName.KeyRight = tb.ScrollTo fuel tb.currentFocus := by
    unfold Tree.TypedKey
    simp only
    rw [hib]
    simp only
    rw [← hta, ← htb]
  rw [hT]
  constructor
  · intro rank hac hfuel
    have hacb : tb.OpenAcyclic rank := by
      refine openAcyclic_mono tb (t.OpenBranch t.currentFocus) rank (hg.1.trans o1.symm)
        (hg.2.1.trans o2.symm) (fun cuA hcuA => ⟨cuA, ?_, fun _ _ hc => hc⟩) ?_ hac
      · rw [o3, ← hg.2.2.1]; exact hcuA
      · intro u hu
        unfold Tree.IsBranchOpen at hu ⊢
        rw [hg.1] at hu
        rw [o1]
        by_cases hr : u = t.Root
        · rw [if_pos hr]
        · rw [if_neg hr] at hu ⊢
          rw [hg.2.2.2.1] at hu
          exact hf.2.2.2.2.2 u hu
    obtain ⟨sc, off, hs⟩ := scrollTo_openAcyclic fuel tb tb.currentFocus rank hacb
      (by rw [hg.1]; exact hfuel)
    exact ⟨_, hs⟩
  · intro t1 h1
    obtain ⟨sc, off, hs⟩ := scrollTo_frame_of_ok _ _ _ _ h1
    rw [hs]
    refine ⟨?_, hg.2.2.2.2⟩
    intro hb
    unfold Tree.IsBranchOpen
    simp only
    split_ifs
    · rfl
    · rw [hg.2.2.2.1]; exact hf.2.2.2.2.1 hb

theorem typedKey_right_witness :
    ∃ t1, selectedTree.TypedKey 3 KeyName.KeyRight = .ok t1 ∧ t1.IsBranchOpen "A" = true ∧
      t1.currentFocus = "A1" := by
  obtain ⟨h1, h2⟩ := typedKey_right 3 selectedTree (fun uid => (scenarioData.lookup uid).isSome) rfl
  obtain ⟨t1, ht1⟩ := h1 scenarioRank
    (acyclic_openAcyclic _ _ (acyclic_of_fields scenarioTree_acyclic
      (openBranch_fields selectedTree "A").2.1 (openBranch_fields selectedTree "A").2.2.1))
    (by decide)
  exact ⟨t1, ht1, (h2 t1 ht1).1 rfl, (h2 t1 ht1).2⟩

theorem keyDownNode_fst (id p : String) (br : Bool) (d : Int) (a : Tree × Bool) :
    ∃ f, (Tree.keyDownNode id p br d a).1 = { a.1 with currentFocus := f } := by
  unfold Tree.keyDownNode
  split_ifs
  · exact ⟨id, rfl⟩
  · exact ⟨a.1.currentFocus, rfl⟩
  · exact ⟨a.1.currentFocus, rfl⟩

theorem keyUpNode_fst (id p : String) (br : Bool) (d : Int) (a : Tree × String) :
    ∃ f, (Tree.keyUpNode id p br d a).1 = { a.1 with currentFocus := f } := by
  unfold Tree.keyUpNode
  split_ifs
  · exact ⟨a.2, rfl⟩
  · exact ⟨a.1.currentFocus, rfl⟩

theorem keyLeftNode_fst (id p : String) (br : Bool) (d : Int) (a : Tree × Unit) :
    ∃ f, (Tree.keyLeftNode id p br d a).1 = { a.1 with currentFocus := f } := by
  unfold Tree.keyLeftNode
  split_ifs
  · exact ⟨p, rfl⟩
  · exact ⟨a.1.currentFocus, rfl⟩

/-- A closure that writes `currentFocus` only: folding it writes `currentFocus` only. -/
theorem foldl_focus_only {α : Type} (f : String → String → Bool → Int → Tree × α → Tree × α)
    (hf : ∀ id p br d a, ∃ x, (f id p br d a).1 = { a.1 with currentFocus := x })
    (vs : List Visit) (s : Tree × α) :
    ∃ x, (vs.foldl (applyVisit f) s).1 = { s.1 with currentFocus := x } := by
  induction vs generalizing s with
  | nil => exact ⟨s.1.currentFocus, rfl⟩
  | cons v vs ih =>
    obtain ⟨x, hx⟩ := ih (applyVisit f s v)
    obtain ⟨y, hy⟩ := hf v.id v.parent v.branch v.depth s
    refine ⟨x, ?_⟩
    simp only [List.foldl_cons]
    rw [hx]
    unfold applyVisit
    rw [hy]

theorem focus_only_shape {a b : Tree} {x : String} (h : a = { b with currentFocus := x }) :
    Tree.SameShape a b := by
  subst h
  exact ⟨rfl, rfl, rfl, rfl⟩

/-- For `KeyDown`: with `next` unset and the focus not among the ids, nothing changes. -/
theorem keyDown_fold_absent (vs : List Visit) (t : Tree)
    (h : t.currentFocus ∉ vs.map Visit.id) :
    vs.foldl (applyVisit Tree.keyDownNode) (t, false) = (t, false) := by
  induction vs with
  | nil => rfl
  | cons v vs ih =>
    simp only [List.map_cons, List.mem_cons, not_or] at h
    simp only [List.foldl_cons]
    have : applyVisit Tree.keyDownNode (t, false) v = (t, false) := by
      simp [applyVisit, Tree.keyDownNode, Ne.symm h.1]
    rw [this]
    exact ih h.2

/-- For `KeyDown`: with `next` set, the focus moves to the next id visited, if any. -/
theorem keyDown_fold_next (vs : List Visit) (t : Tree) (hnd : (vs.map Visit.id).Nodup) :
    (vs.foldl (applyVisit Tree.keyDownNode) (t, true)).1.currentFocus =
      ((vs.map Visit.id)[0]?).getD t.currentFocus := by
  cases vs with
  | nil => rfl
  | cons v vs =>
    simp only [List.map_cons, List.nodup_cons] at hnd
    simp only [List.foldl_cons]
    have : applyVisit Tree.keyDownNode (t, true) v = ({ t with currentFocus := v.id }, false) := by
      simp [applyVisit, Tree.keyDownNode]
    rw [this, keyDown_fold_absent vs _ hnd.1]
    simp

/-- For `KeyDown`: the focus at position `i` of the visited ids moves to position
`i + 1`, and stays when `i` is the last position. -/
theorem keyDown_fold (vs : List Visit) (t : Tree) (i : Nat) (hnd : (vs.map Visit.id).Nodup)
    (hi : (vs.map Visit.id)[i]? = some t.currentFocus) :
    (vs.foldl (applyVisit Tree.keyDownNode) (t, false)).1.currentFocus =
      ((vs.map Visit.id)[i + 1]?).getD t.currentFocus := by
  induction vs generalizing i with
  | nil => simp at hi
  | cons v vs ih =>
    simp only [List.map_cons, List.nodup_cons] at hnd
    simp only [List.foldl_cons, List.map_cons]
    cases i with
    | zero =>
      simp only [List.map_cons, List.getElem?_cons_zero, Option.some.injEq] at hi
      have : applyVisit Tree.keyDownNode (t, false) v = (t, true) := by
        simp [applyVisit, Tree.keyDownNode, hi]
      rw [this, keyDown_fold_next vs t hnd.2]
      simp
    | succ k =>
      simp only [List.map_cons, List.getElem?_cons_succ] at hi
      have hne : v.id ≠ t.currentFocus := by
        intro he
        apply hnd.1
        rw [he]
        exact List.getElem?_mem hi
      have : applyVisit Tree.keyDownNode (t, false) v = (t, false) := by
        simp [applyVisit, Tree.keyDownNode, hne]
      rw [this, ih k hnd.2 hi]
      simp

/-- For `KeyUp`: with the focus not among the ids, it stays. -/
theorem keyUp_fold_absent (vs : List Visit) (t : Tree) (p : String)
    (h : t.currentFocus ∉ vs.map Visit.id) :
    (vs.foldl (applyVisit Tree.keyUpNode) (t, p)).1 = t := by
  induction vs generalizing p with
  | nil => rfl
  | cons v vs ih =>
    simp only [List.map_cons, List.mem_cons, not_or] at h
    simp only [List.foldl_cons]
    have : applyVisit Tree.keyUpNode (t, p) v = (t, v.id) := by
      simp [applyVisit, Tree.keyUpNode, Ne.symm h.1]
    rw [this]
    exact ih _ h.2

/-- For `KeyUp`: the focus at position `i` of the visited ids moves to the id visited
just before it (`p` before the first one) unless that id is empty. -/
theorem keyUp_fold (vs : List Visit) (t : Tree) (p : String) (i : Nat)
    (hnd : (vs.map Visit.id).Nodup) (hp : p ≠ "" → p ∉ vs.map Visit.id)
    (hi : (vs.map Visit.id)[i]? = some t.currentFocus) :
    (vs.foldl (applyVisit Tree.keyUpNode) (t, p)).1.currentFocus =
      (if ((p :: vs.map Visit.id)[i]?).getD "" ≠ "" then ((p :: vs.map Visit.id)[i]?).getD ""
        else t.currentFocus) := by
  induction vs generalizing i p with
  | nil => simp at hi
  | cons v vs ih =>
    simp only [List.map_cons, List.nodup_cons] at hnd
    simp only [List.foldl_cons, List.map_cons]
    cases i with
    | zero =>
      simp only [List.map_cons, List.getElem?_cons_zero, Option.some.injEq] at hi
      simp only [List.getElem?_cons_zero, Option.getD_some]
      by_cases hpe : p = ""
      · have : applyVisit Tree.keyUpNode (t, p) v = (t, v.id) := by
          simp [applyVisit, Tree.keyUpNode, hpe]
        rw [this, keyUp_fold_absent vs t _ (by rw [← hi]; exact hnd.1)]
        simp [hpe]
      · have : applyVisit Tree.keyUpNode (t, p) v = ({ t with currentFocus := p }, v.id) := by
          simp [applyVisit, Tree.keyUpNode, hpe, hi]
        have hp1 := hp hpe
        simp only [List.map_cons, List.mem_cons, not_or] at hp1
        rw [this, keyUp_fold_absent vs _ _ hp1.2]
        simp [hpe]
    | succ k =>
      simp only [List.map_cons, List.getElem?_cons_succ] at hi
      have hne : v.id ≠ t.currentFocus := by
        intro he
        apply hnd.1
        rw [he]
        exact List.getElem?_mem hi
      have : applyVisit Tree.keyUpNode (t, p) v = (t, v.id) := by
        simp [applyVisit, Tree.keyUpNode, hne]
      rw [this, ih v.id k hnd.2 (fun _ => hnd.1) hi]
      simp

/-- The walk-then-scroll body shared by the `KeyDown`, `KeyUp` and `KeyLeft` cases
of `TypedKey`, for a closure that writes `currentFocus` only: it returns once the
walk does, and the focus is the one the closure leaves after the recorded calls. -/
theorem typedKey_walk {α : Type} (f : String → String → Bool → Int → Tree × α → Tree × α)
    (hf : ∀ id p br d a, ∃ x, (f id p br d a).1 = { a.1 with currentFocus := x })
    (fuel : Nat) (t : Tree) (a0 : α) (vs : List Visit) (hvs : t.visits fuel = .ok vs) :
    ∃ t1, (Tree.walk fuel t.Root "" 0 f (t, a0)).bind
        (fun r => r.1.ScrollTo fuel r.1.currentFocus) = .ok t1 ∧
      t1.currentFocus = (vs.foldl (applyVisit f) (t, a0)).1.currentFocus ∧
      t1.openMap = t.openMap ∧ t1.selected = t.selected ∧ t1.events = t.events := by
  have hshape : ∀ id p br d (a : Tree × α), Tree.SameShape (f id p br d a).1 a.1 := by
    intro id p br d a
    obtain ⟨x, hx⟩ := hf id p br d a
    exact focus_only_shape hx
  have hw := walkAll_fold f hshape fuel (t, a0) t (sameShape_refl _) vs hvs
  unfold Tree.walkAll at hw
  simp only at hw
  rw [hw]
  simp only [Except.bind]
  obtain ⟨x, hx⟩ := foldl_focus_only f hf vs (t, a0)
  obtain ⟨sc, off, hs⟩ := scrollTo_frame fuel (vs.foldl (applyVisit f) (t, a0)).1
    (vs.foldl (applyVisit f) (t, a0)).1.currentFocus t (focus_only_shape hx) vs hvs
  refine ⟨_, hs, rfl, ?_, ?_, ?_⟩
  · simp only; rw [hx]
  · simp only; rw [hx]
  · simp only; rw [hx]

/-- C1 as stated fails for `KeyUp`: under the customized root `R` the row with the
empty id is rendered (`Layout` lists it as visible) and precedes the focused row
`x` in the walk, yet `KeyUp` leaves the focus on `x`. -/
theorem typedKey_up_skips_empty_id :
    customRootTree.walkIDs 3 = .ok ["R", "", "x"] ∧ customRootTree.currentFocus = "x" ∧
    (((treeContent.CreateRenderer ⟨customRootTree, ⟨100, 100⟩, ""⟩).Layout 3 ⟨100, 100⟩).map
      (fun r => r.visible)) = .ok ["R", "", "x"] ∧
    ((customRootTree.TypedKey 3 KeyName.KeyUp).map (fun t => t.currentFocus)) = .ok "x" :=
  ⟨rfl, rfl, rfl, rfl⟩

/-- C1, amended: let `ids` be the sequence of ids the walk visits, without
repetition, and let `currentFocus` be at position `i` of it.  `TypedKey(KeyDown)`
returns and sets `currentFocus` to the id at position `i + 1`, leaving it unchanged
when `i` is the last position.  `TypedKey(KeyUp)` returns and sets `currentFocus`
to the id at position `i - 1` when `i ≥ 1` and that id is not the empty string; it
leaves `currentFocus` unchanged at position 0 and when the id at position `i - 1`
is the empty string (as the unrendered default root is). -/
theorem typedKey_down_up (fuel : Nat) (t : Tree) (ids : List String) (i : Nat)
    (hids : t.walkIDs fuel = .ok ids) (hnd : ids.Nodup) (hi : ids[i]? = some t.currentFocus) :
    (∃ t1, t.TypedKey fuel KeyName.KeyDown = .ok t1 ∧
      (∀ nxt, ids[i + 1]? = some nxt → t1.currentFocus = nxt) ∧
      (ids[i + 1]? = none → t1.currentFocus = t.currentFocus)) ∧
    (∃ t2, t.TypedKey fuel KeyName.KeyUp = .ok t2 ∧
      (i = 0 → t2.currentFocus = t.currentFocus) ∧
      (∀ k prev, i = k + 1 → ids[k]? = some prev →
        t2.currentFocus = if prev = "" then t.currentFocus else prev)) := by
  obtain ⟨vs, hvs, rfl⟩ : ∃ vs, t.visits fuel = .ok vs ∧ ids = vs.map Visit.id := by
    unfold Tree.walkIDs at hids
    cases hv : t.visits fuel with
    | error e => rw [hv] at hids; simp [Except.map] at hids
    | ok vs =>
      rw [hv] at hids
      simp only [Except.map, Except.ok.injEq] at hids
      exact ⟨vs, rfl, hids.symm⟩
  constructor
  · obtain ⟨t1, h1, h2, _⟩ := typedKey_walk Tree.keyDownNode keyDownNode_fst fuel t false vs hvs
    refine ⟨t1, h1, ?_, ?_⟩
    · intro nxt hn
      rw [h2, keyDown_fold vs t i hnd hi, hn]; rfl
    · intro hn
      rw [h2, keyDown_fold vs t i hnd hi, hn]; rfl
  · obtain ⟨t2, h1, h2, _⟩ := typedKey_walk Tree.keyUpNode keyUpNode_fst fuel t "" vs hvs
    have hfold := keyUp_fold vs t "" i hnd (fun h => absurd rfl h) hi
    refine ⟨t2, h1, ?_, ?_⟩
    · intro h0
      subst h0
      rw [h2, hfold]
      simp
    · intro k prev hk hp
      subst hk
      rw [h2, hfold]
      simp only [List.getElem?_cons_succ, hp, Option.getD_some]
      by_cases he : prev = "" <;> simp [he]

theorem typedKey_down_up_witness :
    (∃ t1, selectedTree.TypedKey 3 KeyName.KeyDown = .ok t1 ∧ t1.currentFocus = "A1") ∧
    (∃ t2, selectedTree.TypedKey 3 KeyName.KeyUp = .ok t2 ∧ t2.currentFocus = "A") := by
  obtain ⟨⟨t1, h1, h2, _⟩, ⟨t2, h3, _, h4⟩⟩ :=
    typedKey_down_up 3 selectedTree ["", "A", "A1", "B"] 1 rfl (by decide) rfl
  exact ⟨⟨t1, h1, h2 "A1" rfl⟩, ⟨t2, h3, h4 0 "" rfl rfl⟩⟩

theorem parentsSeen_mono {seen seen1 : List String} (h : ∀ x ∈ seen, x ∈ seen1) :
    ∀ {l : List Visit}, ParentsSeen seen l → ParentsSeen seen1 l := by
  intro l
  induction l generalizing seen seen1 with
  | nil => intro _; trivial
  | cons v l ih =>
    intro hl
    refine ⟨hl.1.imp id (h _), ih ?_ hl.2⟩
    intro x hx
    simp only [List.mem_cons] at hx ⊢
    exact hx.imp id (h x)

theorem parentsSeen_append {l1 l2 : List Visit} :
    ∀ {seen : List String}, ParentsSeen seen l1 →
      ParentsSeen ((l1.map Visit.id).reverse ++ seen) l2 → ParentsSeen seen (l1 ++ l2) := by
  induction l1 with
  | nil => intro seen _ h2; simpa using h2
  | cons v l1 ih =>
    intro seen h1 h2
    refine ⟨h1.1, ih h1.2 ?_⟩
    simpa using h2

/-- The recording walk appends its calls, and every call names as parent the
`parent` argument of the walk or an id visited earlier in the same walk. -/
theorem walk_record_parents (t : Tree) :
    ∀ (fuel : Nat) (uid parent : String) (depth : Int) (acc : List Visit) (r : Tree × List Visit),
      Tree.walk fuel uid parent depth Tree.recordNode (t, acc) = .ok r →
      ∃ new, r = (t, acc ++ new) ∧
        ∀ seen, (parent = "" ∨ parent ∈ seen) → ParentsSeen seen new := by
  intro fuel
  induction fuel with
  | zero => intro uid parent depth acc r h; simp [Tree.walk] at h
  | succ n ih =>
    intro uid parent depth acc r h
    have hone : ∀ br, ∀ seen : List String, (parent = "" ∨ parent ∈ seen) →
        ParentsSeen seen [(⟨uid, parent, br, depth⟩ : Visit)] := fun br seen hp => ⟨hp, trivial⟩
    unfold Tree.walk at h
    cases hib : t.IsBranch with
    | none =>
      simp only [hib, Except.ok.injEq] at h
      exact ⟨[], by simp [← h], fun _ _ => trivial⟩
    | some isBranch =>
      simp only [hib] at h
      by_cases hb : isBranch uid = true
      · simp only [hb, if_true, Tree.recordNode] at h
        by_cases ho : t.IsBranchOpen uid = true
        · simp only [ho, if_true] at h
          cases hcu : t.ChildUIDs with
          | none =>
            simp only [hcu, Except.ok.injEq] at h
            exact ⟨[⟨uid, parent, true, depth⟩], h.symm, hone true⟩
          | some childUIDs =>
            simp only [hcu] at h
            have hfold : ∀ (cs : List String) (acc1 : List Visit) (r1 : Tree × List Visit),
                cs.foldlM (fun a c => Tree.walk n c uid (depth + 1) Tree.recordNode a) (t, acc1)
                  = .ok r1 →
                ∃ new, r1 = (t, acc1 ++ new) ∧ ∀ seen, uid ∈ seen → ParentsSeen seen new := by
              intro cs
              induction cs with
              | nil =>
                intro acc1 r1 h1
                simp only [List.foldlM_nil, pure, Except.pure, Except.ok.injEq] at h1
                exact ⟨[], by simp [← h1], fun _ _ => trivial⟩
              | cons c cs ihc =>
                intro acc1 r1 h1
                simp only [List.foldlM_cons, bind, Except.bind] at h1
                cases hw : Tree.walk n c uid (depth + 1) Tree.recordNode (t, acc1) with
                | error e => rw [hw] at h1; simp at h1
                | ok r2 =>
                  rw [hw] at h1
                  simp only at h1
                  obtain ⟨new2, hr2, hp2⟩ := ih c uid (depth + 1) acc1 r2 hw
                  subst hr2
                  obtain ⟨new3, hr3, hp3⟩ := ihc (acc1 ++ new2) r1 h1
                  refine ⟨new2 ++ new3, by rw [hr3, List.append_assoc], ?_⟩
                  intro seen hs
                  exact parentsSeen_append (hp2 seen (Or.inr hs))
                    (hp3 _ (List.mem_append_right _ hs))
            obtain ⟨new, hr, hp⟩ := hfold (childUIDs uid) _ r h
            refine ⟨⟨uid, parent, true, depth⟩ :: new, by rw [hr]; simp, ?_⟩
            intro seen hs
            exact ⟨hs, hp _ (List.mem_cons_self _ _)⟩
        · rw [if_neg ho] at h
          simp only [Except.ok.injEq] at h
          exact ⟨[⟨uid, parent, true, depth⟩], h.symm, hone true⟩
      · rw [if_neg hb] at h
        simp only [Except.ok.injEq, Tree.recordNode] at h
        exact ⟨[⟨uid, parent, false, depth⟩], h.symm, hone false⟩

/-- In the sequence `visits`, every call names as parent the empty id or an id
visited earlier. -/
theorem visits_parents (fuel : Nat) (t : Tree) (vs : List Visit) (hvs : t.visits fuel = .ok vs) :
    ParentsSeen [] vs := by
  unfold Tree.visits Tree.walkAll at hvs
  cases hw : Tree.walk fuel t.Root "" 0 Tree.recordNode (t, []) with
  | error e => simp only at hvs; rw [hw] at hvs; simp [Except.map] at hvs
  | ok r =>
    simp only at hvs
    rw [hw] at hvs
    simp only [Except.map, Except.ok.injEq] at hvs
    obtain ⟨new, hr, hp⟩ := walk_record_parents t fuel t.Root "" 0 [] r hw
    rw [hr] at hvs
    simp only [List.nil_append] at hvs
    rw [← hvs]
    exact hp [] (Or.inl rfl)

/-- For `KeyLeft`: with the focus not among the ids, nothing changes. -/
theorem keyLeft_fold_absent (vs : List Visit) (t : Tree)
    (h : t.currentFocus ∉ vs.map Visit.id) :
    vs.foldl (applyVisit Tree.keyLeftNode) (t, ()) = (t, ()) := by
  induction vs with
  | nil => rfl
  | cons v vs ih =>
    simp only [List.map_cons, List.mem_cons, not_or] at h
    simp only [List.foldl_cons]
    have : applyVisit Tree.keyLeftNode (t, ()) v = (t, ()) := by
      simp [applyVisit, Tree.keyLeftNode, Ne.symm h.1]
    rw [this]
    exact ih h.2

/-- For `KeyLeft`: the focus moves to the parent named by the call that visits the
focused id, unless that parent is the empty id. -/
theorem keyLeft_fold (vs : List Visit) (t : Tree) (seen : List String)
    (hps : ParentsSeen seen vs) (hseen : ∀ x ∈ seen, x ∉ vs.map Visit.id)
    (hnd : (vs.map Visit.id).Nodup) (v : Visit) (hv : v ∈ vs) (hid : v.id = t.currentFocus) :
    (vs.foldl (applyVisit Tree.keyLeftNode) (t, ())).1.currentFocus =
      if v.parent = "" then t.currentFocus else v.parent := by
  induction vs generalizing seen with
  | nil => simp at hv
  | cons w vs ih =>
    simp only [List.map_cons, List.nodup_cons] at hnd
    simp only [List.foldl_cons]
    by_cases hw : w.id = t.currentFocus
    · have hvw : v = w := by
        rcases List.mem_cons.1 hv with h | h
        · exact h
        · exact absurd (List.mem_map_of_mem Visit.id h) (by rw [hid, ← hw]; exact hnd.1)
      subst hvw
      by_cases hp : v.parent = ""
      · have : applyVisit Tree.keyLeftNode (t, ()) v = (t, ()) := by
          simp [applyVisit, Tree.keyLeftNode, hp]
        rw [this, keyLeft_fold_absent vs t (by rw [← hw]; exact hnd.1)]
        simp [hp]
      · have : applyVisit Tree.keyLeftNode (t, ()) v = ({ t with currentFocus := v.parent }, ()) := by
          simp [applyVisit, Tree.keyLeftNode, hp, hw]
        have hin : v.parent ∈ seen := by
          rcases hps.1 with h | h
          · exact absurd h hp
          · exact h
        have hnot : v.parent ∉ vs.map Visit.id := by
          intro hmem
          exact hseen _ hin (by simp only [List.map_cons, List.mem_cons]; exact Or.inr hmem)
        rw [this, keyLeft_fold_absent vs _ hnot]
        simp [hp]
    · have : applyVisit Tree.keyLeftNode (t, ()) w = (t, ()) := by
        simp [applyVisit, Tree.keyLeftNode, hw]
      rw [this]
      have hv1 : v ∈ vs := by
        rcases List.mem_cons.1 hv with h | h
        · exact absurd (h ▸ hid) hw
        · exact h
      apply ih (w.id :: seen) hps.2 _ hnd.2 hv1
      intro x hx
      rcases List.mem_cons.1 hx with h | h
      · rw [h]; exact hnd.1
      · intro hmem
        exact hseen x h (by simp only [List.map_cons, List.mem_cons]; exact Or.inr hmem)

/-- C7 as stated fails: under the customized root `R` the focused leaf `x` is
visited under the parent with the empty id, which is not the root and is rendered
(`Layout` lists it as visible), yet `KeyLeft` leaves the focus on `x`. -/
theorem typedKey_left_skips_empty_parent :
    emptyBranchTree.visits 3 =
      .ok [⟨"R", "", true, 0⟩, ⟨"", "R", true, 1⟩, ⟨"x", "", false, 2⟩] ∧
    emptyBranchTree.Root = "R" ∧ emptyBranchTree.currentFocus = "x" ∧
    (((treeContent.CreateRenderer ⟨emptyBranchTree, ⟨100, 100⟩, ""⟩).Layout 3 ⟨100, 100⟩).map
      (fun r => r.visible)) = .ok ["R", "", "x"] ∧
    ((emptyBranchTree.TypedKey 3 KeyName.KeyLeft).map (fun t => t.currentFocus)) = .ok "x" :=
  ⟨rfl, rfl, rfl, rfl, rfl⟩

/-- C5: the root is always open.  In every tree state, whatever the open map
holds, `IsBranchOpen(Root)` is true, also after `CloseBranch(Root)`,
`ToggleBranch(Root)` and `CloseAllBranches`; and so, when the root is a branch,
`walkAll` calls `onNode` for the root and then walks each of the root's children
in order (for a closure that leaves `Root` in place). -/
theorem root_always_open (t : Tree) :
    t.IsBranchOpen t.Root = true ∧
    (t.CloseBranch t.Root).IsBranchOpen (t.CloseBranch t.Root).Root = true ∧
    (t.ToggleBranch t.Root).IsBranchOpen (t.ToggleBranch t.Root).Root = true ∧
    t.CloseAllBranches.IsBranchOpen t.CloseAllBranches.Root = true ∧
    (∀ (α : Type) (fuel : Nat) (onNode : String → String → Bool → Int → Tree × α → Tree × α)
      (a : α) (isBranch : String → Bool) (childUIDs : String → List String),
      t.IsBranch = some isBranch → isBranch t.Root = true →
      (onNode t.Root "" true 0 (t, a)).1.Root = t.Root →
      (onNode t.Root "" true 0 (t, a)).1.ChildUIDs = some childUIDs →
      Tree.walkAll (fuel + 1) onNode (t, a) =
        (childUIDs t.Root).foldlM (fun acc c => Tree.walk fuel c t.Root (0 + 1) onNode acc)
          (onNode t.Root "" true 0 (t, a))) := by
  have h : ∀ t0 : Tree, t0.IsBranchOpen t0.Root = true := by
    intro t0
    simp [Tree.IsBranchOpen]
  refine ⟨h t, h _, h _, h _, ?_⟩
  intro α fuel onNode a isBranch childUIDs hib hb hroot hcu
  have ho : (onNode t.Root "" true 0 (t, a)).1.IsBranchOpen t.Root = true := by
    have h1 := h (onNode t.Root "" true 0 (t, a)).1
    rw [hroot] at h1
    exact h1
  simp only [Tree.walkAll]
  rw [Tree.walk]
  simp only [hib, hb, if_true]
  rw [if_pos ho, hcu]

theorem root_always_open_witness :
    Tree.walkAll (2 + 1) Tree.recordNode (scenarioTree.CloseAllBranches, []) =
      ["A", "B"].foldlM (fun acc c => Tree.walk 2 c "" (0 + 1) Tree.recordNode acc)
        (Tree.recordNode "" "" true 0 (scenarioTree.CloseAllBranches, [])) :=
  (root_always_open scenarioTree.CloseAllBranches).2.2.2.2 (List Visit) 2 Tree.recordNode []
    (fun uid => (scenarioData.lookup uid).isSome) (fun uid => (scenarioData.lookup uid).getD [])
    rfl rfl rfl rfl

/-- The recording walk appends its calls, and every call passes as branch flag
the value of `IsBranch` for the id. -/
theorem walk_record_branch (t : Tree) (isBranch : String → Bool) (hib : t.IsBranch = some isBranch) :
    ∀ (fuel : Nat) (uid parent : String) (depth : Int) (acc : List Visit) (r : Tree × List Visit),
      Tree.walk fuel uid parent depth Tree.recordNode (t, acc) = .ok r →
      ∃ new, r = (t, acc ++ new) ∧ ∀ v ∈ new, v.branch = isBranch v.id := by
  intro fuel
  induction fuel with
  | zero => intro uid parent depth acc r h; simp [Tree.walk] at h
  | succ n ih =>
    intro uid parent depth acc r h
    unfold Tree.walk at h
    simp only [hib] at h
    by_cases hb : isBranch uid = true
    · simp only [hb, if_true, Tree.recordNode] at h
      have hone : ∀ v ∈ [(⟨uid, parent, true, depth⟩ : Visit)], v.branch = isBranch v.id := by
        intro v hv
        simp only [List.mem_singleton] at hv
        rw [hv, hb]
      by_cases ho : t.IsBranchOpen uid = true
      · simp only [ho, if_true] at h
        cases hcu : t.ChildUIDs with
        | none =>
          simp only [hcu, Except.ok.injEq] at h
          exact ⟨[⟨uid, parent, true, depth⟩], h.symm, hone⟩
        | some childUIDs =>
          simp only [hcu] at h
          have hfold : ∀ (cs : List String) (acc1 : List Visit) (r1 : Tree × List Visit),
              cs.foldlM (fun a c => Tree.walk n c uid (depth + 1) Tree.recordNode a) (t, acc1)
                = .ok r1 →
              ∃ new, r1 = (t, acc1 ++ new) ∧ ∀ v ∈ new, v.branch = isBranch v.id := by
            intro cs
            induction cs with
            | nil =>
              intro acc1 r1 h1
              simp only [List.foldlM_nil, pure, Except.pure, Except.ok.injEq] at h1
              exact ⟨[], by simp [← h1], by simp⟩
            | cons c cs ihc =>
              intro acc1 r1 h1
              simp only [List.foldlM_cons, bind, Except.bind] at h1
              cases hw : Tree.walk n c uid (depth + 1) Tree.recordNode (t, acc1) with
              | error e => rw [hw] at h1; simp at h1
              | ok r2 =>
                rw [hw] at h1
                simp only at h1
                obtain ⟨new2, hr2, hp2⟩ := ih c uid (depth + 1) acc1 r2 hw
                subst hr2
                obtain ⟨new3, hr3, hp3⟩ := ihc (acc1 ++ new2) r1 h1
                refine ⟨new2 ++ new3, by rw [hr3, List.append_assoc], ?_⟩
                intro v hv
                rcases List.mem_append.1 hv with h2 | h2
                · exact hp2 v h2
                · exact hp3 v h2
          obtain ⟨new, hr, hp⟩ := hfold (childUIDs uid) _ r h
          refine ⟨⟨uid, parent, true, depth⟩ :: new, by rw [hr]; simp, ?_⟩
          intro v hv
          rcases List.mem_cons.1 hv with h2 | h2
          · rw [h2, hb]
          · exact hp v h2
      · rw [if_neg ho] at h
        simp only [Except.ok.injEq] at h
        exact ⟨[⟨uid, parent, true, depth⟩], h.symm, hone⟩
    · rw [if_neg hb] at h
      simp only [Except.ok.injEq, Tree.recordNode] at h
      refine ⟨[⟨uid, parent, false, depth⟩], h.symm, ?_⟩
      intro v hv
      simp only [List.mem_singleton] at hv
      rw [hv]
      simpa using hb

/-- C6 as stated fails: `ChildUIDs("A")` is empty and the walk reports `A` as a
branch, because `IsBranch("A")` is true. -/
theorem walk_reports_childless_branch :
    (∃ childUIDs, emptyFolderTree.ChildUIDs = some childUIDs ∧ childUIDs "A" = []) ∧
    emptyFolderTree.visits 2 = .ok [⟨"", "", true, 0⟩, ⟨"A", "", true, 1⟩] :=
  ⟨⟨_, rfl, rfl⟩, rfl⟩

/-- C6, amended: the traversal reports every node with the branch flag
`IsBranch(uid)`, whatever `ChildUIDs(uid)` returns; a node for which
`ChildUIDs(uid)` is empty is reported as a leaf exactly when `IsBranch(uid)` is
false. -/
theorem walk_branch_flag (fuel : Nat) (t : Tree) (isBranch : String → Bool) (vs : List Visit)
    (hib : t.IsBranch = some isBranch) (hvs : t.visits fuel = .ok vs) :
    ∀ v ∈ vs, v.branch = isBranch v.id := by
  unfold Tree.visits Tree.walkAll at hvs
  cases hw : Tree.walk fuel t.Root "" 0 Tree.recordNode (t, []) with
  | error e => simp only at hvs; rw [hw] at hvs; simp [Except.map] at hvs
  | ok r =>
    simp only at hvs
    rw [hw] at hvs
    simp only [Except.map, Except.ok.injEq] at hvs
    obtain ⟨new, hr, hp⟩ := walk_record_branch t isBranch hib fuel t.Root "" 0 [] r hw
    rw [hr] at hvs
    simp only [List.nil_append] at hvs
    rw [← hvs]
    exact hp

theorem walk_branch_flag_witness :
    (⟨"A", "", true, 1⟩ : Visit).branch = ([("", ["A"]), ("A", ([] : List String))].lookup "A").isSome :=
  walk_branch_flag 2 emptyFolderTree (fun uid => ([("", ["A"]), ("A", [])].lookup uid).isSome)
    [⟨"", "", true, 0⟩, ⟨"A", "", true, 1⟩] rfl rfl ⟨"A", "", true, 1⟩ (by simp)

/-- C10: the focus-navigation scenario.  On the tree with default root, root
children `[A, B]`, `A` open with the single child `A1`, and no focus yet,
`FocusGained` sets the focus to `A`; then `KeyDown` gives `A1`, `KeyDown` gives
`B`, `KeyUp` gives `A1` and `KeyLeft` gives `A`; every call returns, for every
recursion budget of at least 3. -/
theorem focus_navigation_scenario (n : Nat) :
    scenarioTree.currentFocus = "" ∧
    ∃ t1 t2 t3 t4 : Tree,
      scenarioTree.FocusGained.currentFocus = "A" ∧
      scenarioTree.FocusGained.TypedKey (n + 3) KeyName.KeyDown = .ok t1 ∧ t1.currentFocus = "A1" ∧
      t1.TypedKey (n + 3) KeyName.KeyDown = .ok t2 ∧ t2.currentFocus = "B" ∧
      t2.TypedKey (n + 3) KeyName.KeyUp = .ok t3 ∧ t3.currentFocus = "A1" ∧
      t3.TypedKey (n + 3) KeyName.KeyLeft = .ok t4 ∧ t4.currentFocus = "A" :=
  ⟨rfl, _, _, _, _, rfl, rfl, rfl, rfl, rfl, rfl, rfl, rfl, rfl⟩

theorem layoutSeparator_fields (c : LayoutConsts) (y : Int) (v : LayoutVars) :
    (treeContentRenderer.layoutSeparator c y v).y = v.y ∧
    (treeContentRenderer.layoutSeparator c y v).r.visible = v.r.visible ∧
    (treeContentRenderer.layoutSeparator c y v).r.objects.filterMap CanvasObject.rowExtent =
      v.r.objects.filterMap CanvasObject.rowExtent := by
  unfold treeContentRenderer.layoutSeparator
  simp only
  split_ifs <;> simp [List.filterMap_append, CanvasObject.rowExtent]

theorem getBranch_fields (r : treeContentRenderer) (t : Tree) :
    (r.getBranch t).2.visible = r.visible ∧ (r.getBranch t).2.objects = r.objects := by
  unfold treeContentRenderer.getBranch
  split <;> exact ⟨rfl, rfl⟩

theorem getLeaf_fields (r : treeContentRenderer) (t : Tree) :
    (r.getLeaf t).2.visible = r.visible ∧ (r.getLeaf t).2.objects = r.objects := by
  unfold treeContentRenderer.getLeaf
  split <;> exact ⟨rfl, rfl⟩

theorem layoutRow_fields (c : LayoutConsts) (t : Tree) (uid : String) (isBranch : Bool)
    (depth : Int) (y : Int) (m : Size) (v : LayoutVars) :
    (treeContentRenderer.layoutRow c t uid isBranch depth y m v).y = v.y ∧
    (treeContentRenderer.layoutRow c t uid isBranch depth y m v).r.visible = v.r.visible ∧
    (treeContentRenderer.layoutRow c t uid isBranch depth y m v).r.objects.filterMap
        CanvasObject.rowExtent =
      v.r.objects.filterMap CanvasObject.rowExtent ++ [(y, m.Height)] := by
  unfold treeContentRenderer.layoutRow
  cases isBranch
  · simp only [Bool.false_eq_true, if_false]
    cases hl : v.r.leaves.lookup uid with
    | some l => simp [List.filterMap_append, CanvasObject.rowExtent]
    | none =>
      obtain ⟨h1, h2⟩ := getLeaf_fields v.r t
      simp only
      split_ifs <;> simp [List.filterMap_append, CanvasObject.rowExtent, h1, h2]
  · simp only [if_true]
    cases hl : v.r.branches.lookup uid with
    | some l => simp [List.filterMap_append, CanvasObject.rowExtent]
    | none =>
      obtain ⟨h1, h2⟩ := getBranch_fields v.r t
      simp only
      split_ifs <;> simp [List.filterMap_append, CanvasObject.rowExtent, h1, h2]

theorem layoutNode_fst (c : LayoutConsts) (id p : String) (br : Bool) (d : Int)
    (s : Tree × LayoutVars) : (treeContentRenderer.layoutNode c id p br d s).1 = s.1 := by
  unfold treeContentRenderer.layoutNode
  split_ifs <;> rfl

/-- One call of the closure of `Layout`: the unrendered default root is skipped;
any other row advances `y`, and is recorded in `visible` and appended to the
objects exactly when it passes the viewport test. -/
theorem layoutNode_step (c : LayoutConsts) (v : Visit) (t : Tree) (lv : LayoutVars) :
    (t.Root = "" ∧ v.id = "" →
      treeContentRenderer.layoutNode c v.id v.parent v.branch v.depth (t, lv) = (t, lv)) ∧
    (¬ (t.Root = "" ∧ v.id = "") →
      ∀ row : Row, row = ⟨v.id, v.branch, (if lv.y > 0 then lv.y + c.pad else lv.y),
          (if v.branch then t.branchMinSize else t.leafMinSize).Height⟩ →
      (treeContentRenderer.layoutNode c v.id v.parent v.branch v.depth (t, lv)).2.y =
        row.y + row.height ∧
      (treeContentRenderer.layoutNode c v.id v.parent v.branch v.depth (t, lv)).2.r.visible =
        lv.r.visible ++ (if row.inViewport c.offsetY c.viewport.Height then [row.uid] else []) ∧
      (treeContentRenderer.layoutNode c v.id v.parent v.branch v.depth (t, lv)).2.r.objects.filterMap
          CanvasObject.rowExtent =
        lv.r.objects.filterMap CanvasObject.rowExtent ++
          (if row.inViewport c.offsetY c.viewport.Height then [(row.y, row.height)] else [])) := by
  constructor
  · intro h
    unfold treeContentRenderer.layoutNode
    rw [if_pos h]
  · intro h row hrow
    subst hrow
    unfold treeContentRenderer.layoutNode
    rw [if_neg h]
    simp only [Row.inViewport]
    by_cases hy : lv.y > 0
    · simp only [hy, decide_True, if_true, Bool.true_and]
      by_cases h1 : lv.y + c.pad + (if v.branch = true then t.branchMinSize else t.leafMinSize).Height
          < c.offsetY
      · simp [h1]
      · by_cases h2 : lv.y + c.pad > c.offsetY + c.viewport.Height
        · simp [h1, h2]
        · simp only [h1, h2, if_false, decide_False, Bool.not_false, Bool.and_self, if_true]
          by_cases hs : c.hideSeparators = true
          · simp only [hs, Bool.not_true, if_false, Bool.false_eq_true]
            obtain ⟨e1, e2, e3⟩ := layoutRow_fields c t v.id v.branch
              (if t.Root = "" then v.depth - 1 else v.depth) (lv.y + c.pad)
              (if v.branch = true then t.branchMinSize else t.leafMinSize)
              { y := lv.y + c.pad, separatorCount := lv.separatorCount + 1, branches := lv.branches,
                leaves := lv.leaves, r := { lv.r with visible := lv.r.visible ++ [v.id] } }
            exact ⟨by rw [e1], by rw [e2], by rw [e3]⟩
          · simp only [hs, Bool.not_false, if_true]
            obtain ⟨s1, s2, s3⟩ := layoutSeparator_fields c (lv.y + c.pad)
              { y := lv.y + c.pad, separatorCount := lv.separatorCount + 1, branches := lv.branches,
                leaves := lv.leaves, r := { lv.r with visible := lv.r.visible ++ [v.id] } }
            obtain ⟨e1, e2, e3⟩ := layoutRow_fields c t v.id v.branch
              (if t.Root = "" then v.depth - 1 else v.depth)
              (treeContentRenderer.layoutSeparator c (lv.y + c.pad)
                { y := lv.y + c.pad, separatorCount := lv.separatorCount + 1,
                  branches := lv.branches, leaves := lv.leaves,
                  r := { lv.r with visible := lv.r.visible ++ [v.id] } }).y
              (if v.branch = true then t.branchMinSize else t.leafMinSize)
              (treeContentRenderer.layoutSeparator c (lv.y + c.pad)
                { y := lv.y + c.pad, separatorCount := lv.separatorCount + 1,
                  branches := lv.branches, leaves := lv.leaves,
                  r := { lv.r with visible := lv.r.visible ++ [v.id] } })
            refine ⟨by rw [e1, s1], by rw [e2, s2], by rw [e3, s3, s1]⟩
    · simp only [hy, decide_False, if_false, Bool.false_and, Bool.false_eq_true]
      by_cases h1 : lv.y + (if v.branch = true then t.branchMinSize else t.leafMinSize).Height
          < c.offsetY
      · simp [h1]
      · by_cases h2 : lv.y > c.offsetY + c.viewport.Height
        · simp [h1, h2]
        · simp only [h1, h2, if_false, decide_False, Bool.not_false, Bool.and_self, if_true]
          obtain ⟨e1, e2, e3⟩ := layoutRow_fields c t v.id v.branch
            (if t.Root = "" then v.depth - 1 else v.depth) lv.y
            (if v.branch = true then t.branchMinSize else t.leafMinSize)
            { lv with r := { lv.r with visible := lv.r.visible ++ [v.id] } }
          exact ⟨by rw [e1], by rw [e2], by rw [e3]⟩

/-- The closure of `Layout` folded over recorded calls: `visible` and the row
objects grow by the emitted rows that pass the viewport test, in order. -/
theorem layoutNode_fold (c : LayoutConsts) (t : Tree) (vs : List Visit) (lv : LayoutVars) :
    (vs.foldl (applyVisit (treeContentRenderer.layoutNode c)) (t, lv)).2.r.visible =
      lv.r.visible ++ ((emittedRows t c.pad lv.y vs).filter
        (Row.inViewport c.offsetY c.viewport.Height)).map Row.uid ∧
    (vs.foldl (applyVisit (treeContentRenderer.layoutNode c)) (t, lv)).2.r.objects.filterMap
        CanvasObject.rowExtent =
      lv.r.objects.filterMap CanvasObject.rowExtent ++ ((emittedRows t c.pad lv.y vs).filter
        (Row.inViewport c.offsetY c.viewport.Height)).map (fun row => (row.y, row.height)) := by
  induction vs generalizing lv with
  | nil => simp [emittedRows]
  | cons v vs ih =>
    simp only [List.foldl_cons]
    obtain ⟨hskip, hrow⟩ := layoutNode_step c v t lv
    by_cases h : t.Root = "" ∧ v.id = ""
    · have e : applyVisit (treeContentRenderer.layoutNode c) (t, lv) v = (t, lv) := hskip h
      rw [e]
      have e2 : emittedRows t c.pad lv.y (v :: vs) = emittedRows t c.pad lv.y vs := by
        rw [emittedRows, if_pos h]
      rw [e2]
      exact ih lv
    · obtain ⟨hy, hv, ho⟩ := hrow h _ rfl
      have hfst := layoutNode_fst c v.id v.parent v.branch v.depth (t, lv)
      have e : applyVisit (treeContentRenderer.layoutNode c) (t, lv) v =
          (t, (treeContentRenderer.layoutNode c v.id v.parent v.branch v.depth (t, lv)).2) := by
        unfold applyVisit
        exact Prod.ext hfst rfl
      rw [e]
      have e2 : emittedRows t c.pad lv.y (v :: vs) =
          ⟨v.id, v.branch, (if lv.y > 0 then lv.y + c.pad else lv.y),
            (if v.branch then t.branchMinSize else t.leafMinSize).Height⟩ ::
          emittedRows t c.pad ((if lv.y > 0 then lv.y + c.pad else lv.y) +
            (if v.branch then t.branchMinSize else t.leafMinSize).Height) vs := by
        rw [emittedRows, if_neg h]
      obtain ⟨i1, i2⟩ := ih (treeContentRenderer.layoutNode c v.id v.parent v.branch v.depth (t, lv)).2
      rw [i1, i2, hv, ho, hy, e2]
      simp only [List.filter_cons]
      split_ifs <;> simp

/-- C4 as stated fails: with the scroll offset 10 and a viewport of height 15 the
row `A` has the extent `[0, 10)`, which does not intersect `[10, 25)`, and `Layout`
binds it all the same. -/
theorem layout_binds_row_touching_viewport :
    scrolledRenderer.treeContent.tree.offset.Y = 10 ∧ scrolledRenderer.treeContent.viewport.Height = 15 ∧
    emittedRows scrolledRenderer.treeContent.tree 4 0
        [⟨"", "", true, 0⟩, ⟨"A", "", true, 1⟩, ⟨"A1", "A", false, 2⟩, ⟨"B", "", false, 1⟩] =
      [⟨"A", true, 0, 10⟩, ⟨"A1", false, 14, 10⟩, ⟨"B", false, 28, 10⟩] ∧
    ¬ Row.intersectsViewport 10 15 ⟨"A", true, 0, 10⟩ ∧
    ((scrolledRenderer.Layout 3 ⟨100, 15⟩).map (fun r => r.visible)) = .ok ["A", "A1"] ∧
    ((scrolledRenderer.Layout 3 ⟨100, 15⟩).map
      (fun r => r.objects.filterMap CanvasObject.rowExtent)) = .ok [(0, 10), (14, 10)] := by
  refine ⟨rfl, rfl, rfl, ?_, rfl, rfl⟩
  rintro ⟨p, h1, h2, h3, h4⟩
  simp only at h1 h2 h3 h4
  omega

/-- C4, amended: `Layout` returns once the walk does, and it binds a row object
(records the id in `visible` and lists the row in the objects, at its position
and height) for exactly those emitted rows with `y + rowHeight ≥ O` and
`y ≤ O + V`, in walk order, and for no other row: the closed extent
`[y, y + rowHeight]` meets the closed range `[O, O + V]`. -/
theorem layout_binds_rows_in_viewport (fuel : Nat) (r : treeContentRenderer) (size : Size)
    (vs : List Visit) (hvs : r.treeContent.tree.visits fuel = .ok vs) :
    ∃ r1, r.Layout fuel size = .ok r1 ∧
      r1.visible = ((emittedRows r.treeContent.tree r.treeContent.tree.theme.SizeNamePadding 0 vs).filter
        (Row.inViewport r.treeContent.tree.offset.Y r.treeContent.viewport.Height)).map Row.uid ∧
      r1.objects.filterMap CanvasObject.rowExtent =
        ((emittedRows r.treeContent.tree r.treeContent.tree.theme.SizeNamePadding 0 vs).filter
          (Row.inViewport r.treeContent.tree.offset.Y r.treeContent.viewport.Height)).map
          (fun row => (row.y, row.height)) ∧
      ∀ row : Row, Row.inViewport r.treeContent.tree.offset.Y r.treeContent.viewport.Height row = true ↔
        (r.treeContent.tree.offset.Y ≤ row.y + row.height ∧
          row.y ≤ r.treeContent.tree.offset.Y + r.treeContent.viewport.Height) := by
  have hw := fun c lv => walkAll_fold (treeContentRenderer.layoutNode c)
    (fun id p br d a => by rw [layoutNode_fst]; exact sameShape_refl _)
    fuel (r.treeContent.tree, lv) r.treeContent.tree (sameShape_refl _) vs hvs
  unfold treeContentRenderer.Layout
  simp only
  rw [hw]
  simp only
  refine ⟨_, rfl, ?_, ?_, ?_⟩
  · simp only
    rw [(layoutNode_fold _ _ vs _).1]
    simp
  · simp only
    rw [(layoutNode_fold _ _ vs _).2]
    simp
  · intro row
    simp only [Row.inViewport, Bool.and_eq_true, Bool.not_eq_true', decide_eq_false_iff_not,
      not_lt, gt_iff_lt]

theorem layout_binds_rows_in_viewport_witness :
    ∃ r1, scrolledRenderer.Layout 3 ⟨100, 15⟩ = .ok r1 ∧ r1.visible = ["A", "A1"] ∧
      r1.objects.filterMap CanvasObject.rowExtent = [(0, 10), (14, 10)] := by
  obtain ⟨r1, h1, h2, h3, _⟩ := layout_binds_rows_in_viewport 3 scrolledRenderer ⟨100, 15⟩
    [⟨"", "", true, 0⟩, ⟨"A", "", true, 1⟩, ⟨"A1", "A", false, 2⟩, ⟨"B", "", false, 1⟩] rfl
  exact ⟨r1, h1, h2, h3⟩

/-- C12 as stated fails at the root: `IsBranchOpen(Root)` is true before
`ToggleBranch(Root)` and true after it. -/
theorem toggleBranch_root_stays_open :
    scenarioTree.Root = "" ∧ scenarioTree.IsBranchOpen "" = true ∧
    (scenarioTree.ToggleBranch "").IsBranchOpen "" = true :=
  ⟨rfl, rfl, rfl⟩

/-- C12, amended: for every tree state and every `uid` other than `Root`,
`IsBranchOpen(uid)` after `ToggleBranch(uid)` is the negation of
`IsBranchOpen(uid)` before; for `Root` it is true before and after. -/
theorem toggleBranch_flips (t : Tree) (uid : String) (hne : uid ≠ t.Root) :
    (t.ToggleBranch uid).IsBranchOpen uid = !(t.IsBranchOpen uid) ∧
    (t.ToggleBranch t.Root).IsBranchOpen t.Root = true ∧ t.IsBranchOpen t.Root = true := by
  have hroot : ∀ t0 : Tree, t0.IsBranchOpen t0.Root = true := by
    intro t0; simp [Tree.IsBranchOpen]
  refine ⟨?_, ?_, hroot t⟩
  · unfold Tree.ToggleBranch
    by_cases ho : t.IsBranchOpen uid = true
    · rw [if_pos ho, ho]
      obtain ⟨h1, _, _, _, _, h6⟩ := closeBranch_fields t uid
      unfold Tree.IsBranchOpen
      rw [h1, if_neg hne, h6]
      simp
    · rw [if_neg ho]
      have ho1 : t.IsBranchOpen uid = false := by simpa using ho
      rw [ho1]
      obtain ⟨h1, _, _, _, _, h6⟩ := openBranch_fields t uid
      unfold Tree.IsBranchOpen
      rw [h1, if_neg hne, h6]
      simp
  · have hr : (t.ToggleBranch t.Root).Root = t.Root := by
      unfold Tree.ToggleBranch
      split_ifs
      · exact (closeBranch_fields t t.Root).1
      · exact (openBranch_fields t t.Root).1
    have h2 := hroot (t.ToggleBranch t.Root)
    rw [hr] at h2
    exact h2

theorem toggleBranch_flips_witness :
    (scenarioTree.ToggleBranch "A").IsBranchOpen "A" = !(scenarioTree.IsBranchOpen "A") ∧
    (scenarioTree.ToggleBranch scenarioTree.Root).IsBranchOpen scenarioTree.Root = true ∧
    scenarioTree.IsBranchOpen scenarioTree.Root = true :=
  toggleBranch_flips scenarioTree "A" (by decide)

/-- C17: `Unselect(uid)` returns the tree state unchanged, with no observer call,
unless `uid` is the selected id; when it is, the selection becomes empty and
`OnUnselected(uid)` is called once (if registered).  `UnselectAll` returns the
state unchanged on an empty selection; otherwise it empties the selection and
calls `OnUnselected` once for each previously selected id, in order (if
registered). -/
theorem unselect_and_unselectAll (t : Tree) (uid : String) :
    (t.selected.head? ≠ some uid → t.Unselect uid = t) ∧
    (t.selected.head? = some uid →
      (t.Unselect uid).selected = [] ∧
      (t.Unselect uid).events =
        t.events ++ (if t.OnUnselected then [Event.unselected uid] else [])) ∧
    (t.selected = [] → t.UnselectAll = t) ∧
    (t.selected ≠ [] →
      t.UnselectAll.selected = [] ∧
      t.UnselectAll.events =
        t.events ++ (if t.OnUnselected then t.selected.map Event.unselected else [])) := by
  refine ⟨?_, ?_, ?_, ?_⟩
  · intro h
    unfold Tree.Unselect
    cases hs : t.selected with
    | nil => rfl
    | cons s0 rest =>
      rw [hs] at h
      simp only [List.head?_cons, ne_eq, Option.some.injEq] at h
      simp [h]
  · intro h
    unfold Tree.Unselect
    cases hs : t.selected with
    | nil => rw [hs] at h; simp at h
    | cons s0 rest =>
      rw [hs] at h
      simp only [List.head?_cons, Option.some.injEq] at h
      subst h
      simp only [ne_eq, not_true_eq_false, if_false]
      split_ifs <;> simp_all
  · intro h
    unfold Tree.UnselectAll
    rw [h]
  · intro h
    unfold Tree.UnselectAll
    cases hs : t.selected with
    | nil => exact absurd hs h
    | cons s0 rest =>
      simp only
      split_ifs <;> simp_all

theorem unselect_and_unselectAll_witness :
    (selectedTree.Unselect "A").selected = [] ∧
    (selectedTree.Unselect "A").events = [Event.unselected "A"] :=
  (unselect_and_unselectAll selectedTree "A").2.1 rfl

/-- C15 fails on the code: with `IsBranch` unset, `TypedKey(KeyLeft)` and
`TypedKey(KeyRight)` call the nil function `t.IsBranch`. -/
theorem typedKey_calls_nil_isBranch :
    nilBranchTree.IsBranch.isNone = true ∧
    nilBranchTree.TypedKey 3 KeyName.KeyLeft = .error Fault.nilCall ∧
    nilBranchTree.TypedKey 3 KeyName.KeyRight = .error Fault.nilCall :=
  ⟨rfl, rfl, rfl⟩

/-- C16 fails on the code: in `Select("B")` with `A` selected, the state in which
`OnUnselected("A")` has just been called still has `A` as the selected id; the
selection is replaced only afterwards. -/
theorem select_calls_unselected_before_assignment :
    selectedTree.OnUnselected = true ∧ selectedTree.selected = ["A"] ∧
    selectedTree.Select 3 "B" =
      Tree.selectNew 3 { selectedTree with events := selectedTree.events ++ [Event.unselected "A"] } "B" ∧
    ({ selectedTree with events := selectedTree.events ++ [Event.unselected "A"] } : Tree).selected
      = ["A"] :=
  ⟨rfl, rfl, rfl, rfl⟩

/-- C13 fails on the code: in the scenario tree (padding 4, rows of height 10,
viewport of height 15 at offset 0), `ScrollTo("B")` asks for the offset 19, and
`Layout` places the row `B` at 28 with height 10, so the row ends at 38, below the
end 34 of the viewport. -/
theorem scrollTo_leaves_row_cut_off :
    scenarioTree.offsetAndSize 3 "B" = .ok ⟨24, ⟨30, 10⟩, true⟩ ∧
    ∃ t1, scenarioTree.ScrollTo 3 "B" = .ok t1 ∧ t1.offset.Y = 19 ∧
      t1.scroller = some ⟨⟨0, 19⟩, ⟨100, 15⟩⟩ ∧
      (((treeContent.CreateRenderer ⟨t1, ⟨100, 15⟩, ""⟩).Layout 3 ⟨100, 15⟩).map
        (fun r => (r.visible, r.objects.filterMap CanvasObject.rowExtent))) =
        .ok (["A1", "B"], [(14, 10), (28, 10)]) ∧
      ¬ ((28 : Int) + 10 ≤ 19 + 15) :=
  ⟨rfl, _, rfl, rfl, rfl, rfl, by decide⟩

/-- The recording walk from `uid` visits exactly the ids reachable from `uid`
through open branches. -/
theorem walk_record_reach (t : Tree) (isBranch : String → Bool) (childUIDs : String → List String)
    (hib : t.IsBranch = some isBranch) (hcu : t.ChildUIDs = some childUIDs) :
    ∀ (fuel : Nat) (uid parent : String) (depth : Int) (acc : List Visit) (r : Tree × List Visit),
      Tree.walk fuel uid parent depth Tree.recordNode (t, acc) = .ok r →
      ∃ new, r = (t, acc ++ new) ∧
        ∀ v, v ∈ new.map Visit.id ↔ ReachableThrough isBranch childUIDs t.IsBranchOpen uid v := by
  intro fuel
  induction fuel with
  | zero => intro uid parent depth acc r h; simp [Tree.walk] at h
  | succ n ih =>
    intro uid parent depth acc r h
    have hone : ∀ br, ¬ (isBranch uid = true ∧ t.IsBranchOpen uid = true) →
        ∀ v, v ∈ [(⟨uid, parent, br, depth⟩ : Visit)].map Visit.id ↔
          ReachableThrough isBranch childUIDs t.IsBranchOpen uid v := by
      intro br hno v
      simp only [List.map_cons, List.map_nil, List.mem_singleton]
      constructor
      · intro hv; rw [hv]; exact ReachableThrough.self uid
      · intro hr
        cases hr with
        | self => rfl
        | child _ c _ h1 h2 _ _ => exact absurd ⟨h1, h2⟩ hno
    unfold Tree.walk at h
    simp only [hib] at h
    by_cases hb : isBranch uid = true
    · simp only [hb, if_true, Tree.recordNode] at h
      by_cases ho : t.IsBranchOpen uid = true
      · simp only [ho, if_true, hcu] at h
        have hfold : ∀ (cs : List String) (acc1 : List Visit) (r1 : Tree × List Visit),
            cs.foldlM (fun a c => Tree.walk n c uid (depth + 1) Tree.recordNode a) (t, acc1)
              = .ok r1 →
            ∃ new, r1 = (t, acc1 ++ new) ∧ ∀ v, v ∈ new.map Visit.id ↔
              ∃ c ∈ cs, ReachableThrough isBranch childUIDs t.IsBranchOpen c v := by
          intro cs
          induction cs with
          | nil =>
            intro acc1 r1 h1
            simp only [List.foldlM_nil, pure, Except.pure, Except.ok.injEq] at h1
            exact ⟨[], by simp [← h1], by simp⟩
          | cons c cs ihc =>
            intro acc1 r1 h1
            simp only [List.foldlM_cons, bind, Except.bind] at h1
            cases hw : Tree.walk n c uid (depth + 1) Tree.recordNode (t, acc1) with
            | error e => rw [hw] at h1; simp at h1
            | ok r2 =>
              rw [hw] at h1
              simp only at h1
              obtain ⟨new2, hr2, hp2⟩ := ih c uid (depth + 1) acc1 r2 hw
              subst hr2
              obtain ⟨new3, hr3, hp3⟩ := ihc (acc1 ++ new2) r1 h1
              refine ⟨new2 ++ new3, by rw [hr3, List.append_assoc], ?_⟩
              intro v
              simp only [List.map_append, List.mem_append, List.mem_cons, exists_eq_or_imp]
              rw [hp2 v, hp3 v]
        obtain ⟨new, hr, hp⟩ := hfold (childUIDs uid) _ r h
        refine ⟨⟨uid, parent, true, depth⟩ :: new, by rw [hr]; simp, ?_⟩
        intro v
        simp only [List.map_cons, List.mem_cons]
        rw [hp v]
        constructor
        · rintro (hv | ⟨c, hc, hr1⟩)
          · rw [hv]; exact ReachableThrough.self uid
          · exact ReachableThrough.child uid c v hb ho hc hr1
        · intro hr1
          cases hr1 with
          | self => exact Or.inl rfl
          | child _ c _ _ _ hc hr2 => exact Or.inr ⟨c, hc, hr2⟩
      · rw [if_neg ho] at h
        simp only [Except.ok.injEq] at h
        exact ⟨[⟨uid, parent, true, depth⟩], h.symm, hone true (fun hh => ho hh.2)⟩
    · rw [if_neg hb] at h
      simp only [Except.ok.injEq, Tree.recordNode] at h
      exact ⟨[⟨uid, parent, false, depth⟩], h.symm, hone false (fun hh => hb hh.1)⟩

/-- The ids in `visits` are exactly the ids reachable from `Root` through open
branches. -/
theorem visits_reach (fuel : Nat) (t : Tree) (isBranch : String → Bool)
    (childUIDs : String → List String) (hib : t.IsBranch = some isBranch)
    (hcu : t.ChildUIDs = some childUIDs) (vs : List Visit) (hvs : t.visits fuel = .ok vs) :
    ∀ v, v ∈ vs.map Visit.id ↔ ReachableThrough isBranch childUIDs t.IsBranchOpen t.Root v := by
  unfold Tree.visits Tree.walkAll at hvs
  cases hw : Tree.walk fuel t.Root "" 0 Tree.recordNode (t, []) with
  | error e => simp only at hvs; rw [hw] at hvs; simp [Except.map] at hvs
  | ok r =>
    simp only at hvs
    rw [hw] at hvs
    simp only [Except.map, Except.ok.injEq] at hvs
    obtain ⟨new, hr, hp⟩ := walk_record_reach t isBranch childUIDs hib hcu fuel t.Root "" 0 [] r hw
    rw [hr] at hvs
    simp only [List.nil_append] at hvs
    rw [← hvs]
    exact hp

/-- When every branch reachable along branch nodes is open, reachability along
branch nodes is reachability through open branches. -/
theorem reachable_through_open (isBranch : String → Bool) (childUIDs : String → List String)
    (isOpen : String → Bool) (u v : String)
    (hr : ReachableThrough isBranch childUIDs (fun _ => true) u v) :
    (∀ w, ReachableThrough isBranch childUIDs (fun _ => true) u w → isBranch w = true →
      isOpen w = true) →
    ReachableThrough isBranch childUIDs isOpen u v := by
  induction hr with
  | self u => intro _; exact ReachableThrough.self u
  | child u c v hb _ hc hr1 ih =>
    intro hall
    refine ReachableThrough.child u c v hb (hall u (ReachableThrough.self u) hb) hc (ih ?_)
    intro w hw hbw
    exact hall w (ReachableThrough.child u c w hb rfl hc hw) hbw

/-- One level of `walk` at an open branch with `ChildUIDs` set: `onNode` is called
for the node, then each child is walked in order. -/
theorem walk_succ_branch {α : Type} (fuel : Nat) (uid parent : String) (depth : Int)
    (onNode : String → String → Bool → Int → Tree × α → Tree × α) (s : Tree × α)
    (isBranch : String → Bool) (childUIDs : String → List String)
    (hib : s.1.IsBranch = some isBranch) (hb : isBranch uid = true)
    (ho : (onNode uid parent true depth s).1.IsBranchOpen uid = true)
    (hcu : (onNode uid parent true depth s).1.ChildUIDs = some childUIDs) :
    Tree.walk (fuel + 1) uid parent depth onNode s =
      (childUIDs uid).foldlM (fun acc c => Tree.walk fuel c uid (depth + 1) onNode acc)
        (onNode uid parent true depth s) := by
  rw [Tree.walk]
  simp only [hib, hb, if_true]
  rw [if_pos ho, hcu]

/-- One level of `walk` at a node that is not a branch: `onNode` is called for the
node and nothing else happens. -/
theorem walk_succ_leaf {α : Type} (fuel : Nat) (uid parent : String) (depth : Int)
    (onNode : String → String → Bool → Int → Tree × α → Tree × α) (s : Tree × α)
    (isBranch : String → Bool) (hib : s.1.IsBranch = some isBranch) (hb : ¬ isBranch uid = true) :
    Tree.walk (fuel + 1) uid parent depth onNode s = .ok (onNode uid parent false depth s) := by
  rw [Tree.walk]
  simp only [hib]
  rw [if_neg hb]

/-- The walk of `OpenAllBranches` from `uid` on a finite acyclic tree: it returns,
writes the open map only, closes nothing, and leaves open every branch reachable
from `uid` along branch nodes. -/
theorem walk_openAll (t : Tree) (isBranch : String → Bool) (childUIDs : String → List String)
    (hib : t.IsBranch = some isBranch) (hcu : t.ChildUIDs = some childUIDs)
    (rank : String → Nat)
    (hrank : ∀ u c, isBranch u = true → c ∈ childUIDs u → rank c < rank u) :
    ∀ (fuel : Nat) (uid parent : String) (depth : Int) (o0 : String → Bool), rank uid < fuel →
      ∃ o, Tree.walk fuel uid parent depth Tree.openAllBranchesNode
            (({ t with openMap := o0 } : Tree), ())
          = .ok ({ t with openMap := o }, ()) ∧
        (∀ k, o0 k = true → o k = true) ∧
        (∀ v, ReachableThrough isBranch childUIDs (fun _ => true) uid v →
          isBranch v = true → o v = true) := by
  intro fuel
  induction fuel with
  | zero => intro uid _ _ _ h; omega
  | succ n ih =>
    intro uid parent depth o0 hlt
    by_cases hb : isBranch uid = true
    · have hnode : Tree.openAllBranchesNode uid parent true depth
          (({ t with openMap := o0 } : Tree), ()) =
          (({ t with openMap := fun k => if k = uid then true else o0 k } : Tree), ()) := rfl
      rw [walk_succ_branch n uid parent depth Tree.openAllBranchesNode _ isBranch childUIDs
        hib hb (by rw [hnode]; simp [Tree.IsBranchOpen]) (by rw [hnode]; exact hcu), hnode]
      have hfold : ∀ (cs : List String), (∀ c ∈ cs, rank c < n) → ∀ (o1 : String → Bool),
          ∃ o, cs.foldlM (fun a c => Tree.walk n c uid (depth + 1) Tree.openAllBranchesNode a)
              (({ t with openMap := o1 } : Tree), ()) = .ok ({ t with openMap := o }, ()) ∧
            (∀ k, o1 k = true → o k = true) ∧
            (∀ c ∈ cs, ∀ v, ReachableThrough isBranch childUIDs (fun _ => true) c v →
              isBranch v = true → o v = true) := by
        intro cs
        induction cs with
        | nil =>
          intro _ o1
          exact ⟨o1, rfl, fun _ h => h, by simp⟩
        | cons c cs ihc =>
          intro hcs o1
          obtain ⟨o2, h2, m2, p2⟩ := ih c uid (depth + 1) o1 (hcs c (List.mem_cons_self _ _))
          obtain ⟨o3, h3, m3, p3⟩ := ihc (fun c1 hc1 => hcs c1 (List.mem_cons_of_mem _ hc1)) o2
          refine ⟨o3, ?_, fun k hk => m3 k (m2 k hk), ?_⟩
          · simp only [List.foldlM_cons, bind, Except.bind, h2]
            exact h3
          · intro c1 hc1 v hr hbv
            rcases List.mem_cons.1 hc1 with h | h
            · subst h
              exact m3 v (p2 v hr hbv)
            · exact p3 c1 h v hr hbv
      obtain ⟨o, h1, m1, p1⟩ := hfold (childUIDs uid)
        (fun c hc => by have := hrank uid c hb hc; omega)
        (fun k => if k = uid then true else o0 k)
      refine ⟨o, h1, ?_, ?_⟩
      · intro k hk
        apply m1
        show (if k = uid then true else o0 k) = true
        split_ifs
        · rfl
        · exact hk
      · intro v hr hbv
        cases hr with
        | self => apply m1; simp
        | child _ c _ _ _ hc hr1 => exact p1 c hc v hr1 hbv
    · rw [walk_succ_leaf n uid parent depth Tree.openAllBranchesNode _ isBranch hib hb]
      refine ⟨o0, rfl, fun _ h => h, ?_⟩
      intro v hr hbv
      cases hr with
      | self => exact absurd hbv hb
      | child _ c _ h1 _ _ _ => exact absurd h1 hb

/-- C11: for every finite acyclic tree with `IsBranch` and `ChildUIDs` set,
`OpenAllBranches` returns, and afterwards every node that is reachable from `Root`
through `ChildUIDs` along branch nodes and is a branch is open (`IsBranchOpen` is
true), whatever the open map held before; a subsequent walk returns and visits
every node reachable from `Root` along branch nodes. -/
theorem openAllBranches_opens_reachable (fuel : Nat) (t : Tree) (isBranch : String → Bool)
    (childUIDs : String → List String) (hib : t.IsBranch = some isBranch)
    (hcu : t.ChildUIDs = some childUIDs) (rank : String → Nat) (hac : t.Acyclic rank)
    (hfuel : rank t.Root < fuel) :
    ∃ t1, t.OpenAllBranches fuel = .ok t1 ∧
      (∀ v, ReachableThrough isBranch childUIDs (fun _ => true) t.Root v →
        isBranch v = true → t1.IsBranchOpen v = true) ∧
      ∃ vs, t1.visits fuel = .ok vs ∧
        ∀ v, ReachableThrough isBranch childUIDs (fun _ => true) t.Root v →
          v ∈ vs.map Visit.id := by
  obtain ⟨o, h1, _, p1⟩ := walk_openAll t isBranch childUIDs hib hcu rank
    (hac isBranch childUIDs hib hcu) fuel t.Root "" 0 t.openMap hfuel
  have hopen : ∀ v, ReachableThrough isBranch childUIDs (fun _ => true) t.Root v →
      isBranch v = true → ({ t with openMap := o } : Tree).IsBranchOpen v = true := by
    intro v hr hbv
    unfold Tree.IsBranchOpen
    simp only
    split_ifs
    · rfl
    · exact p1 v hr hbv
  refine ⟨{ t with openMap := o }, ?_, hopen, ?_⟩
  · unfold Tree.OpenAllBranches Tree.walkAll
    simp only
    rw [h1]
    rfl
  · obtain ⟨vs, hvs⟩ := visits_ok { t with openMap := o } rank (acyclic_of_fields hac rfl rfl)
      fuel hfuel
    refine ⟨vs, hvs, ?_⟩
    intro v hr
    rw [visits_reach fuel { t with openMap := o } isBranch childUIDs hib hcu vs hvs v]
    exact reachable_through_open isBranch childUIDs _ t.Root v hr hopen

theorem openAllBranches_opens_reachable_witness :
    ∃ t1, closedTree.OpenAllBranches 3 = .ok t1 ∧ t1.IsBranchOpen "A" = true ∧
      ∃ vs, t1.visits 3 = .ok vs ∧ "A1" ∈ vs.map Visit.id := by
  obtain ⟨t1, h1, h2, vs, h3, h4⟩ := openAllBranches_opens_reachable 3 closedTree
    (fun uid => (scenarioData.lookup uid).isSome) (fun uid => (scenarioData.lookup uid).getD [])
    rfl rfl scenarioRank scenarioTree_acyclic (by decide)
  have hA : ReachableThrough (fun uid => (scenarioData.lookup uid).isSome)
      (fun uid => (scenarioData.lookup uid).getD []) (fun _ => true) closedTree.Root "A" :=
    ReachableThrough.child "" "A" "A" rfl rfl (by decide) (ReachableThrough.self "A")
  have hA1 : ReachableThrough (fun uid => (scenarioData.lookup uid).isSome)
      (fun uid => (scenarioData.lookup uid).getD []) (fun _ => true) closedTree.Root "A1" :=
    ReachableThrough.child "" "A" "A1" rfl rfl (by decide)
      (ReachableThrough.child "A" "A1" "A1" rfl rfl (by decide) (ReachableThrough.self "A1"))
  exact ⟨t1, h1, h2 "A" hA rfl, vs, h3, h4 "A1" hA1⟩

/-- The recording walk refines the pre-order sequence of the spec: it appends that
sequence, and runs out of fuel exactly when the sequence does. -/
theorem walk_record_preorder (t : Tree) (isBranch : String → Bool)
    (childUIDs : String → List String) (hib : t.IsBranch = some isBranch)
    (hcu : t.ChildUIDs = some childUIDs) :
    ∀ (fuel : Nat) (uid parent : String) (depth : Int) (acc : List Visit),
      Tree.walk fuel uid parent depth Tree.recordNode (t, acc) =
        recordAfter t acc (preorderSpec isBranch childUIDs t.IsBranchOpen fuel uid parent depth) := by
  intro fuel
  induction fuel with
  | zero => intro uid parent depth acc; rfl
  | succ n ih =>
    intro uid parent depth acc
    by_cases hb : isBranch uid = true
    · by_cases ho : t.IsBranchOpen uid = true
      · rw [walk_succ_branch n uid parent depth Tree.recordNode (t, acc) isBranch childUIDs hib hb
          (show (Tree.recordNode uid parent true depth (t, acc)).1.IsBranchOpen uid = true from ho)
          (show (Tree.recordNode uid parent true depth (t, acc)).1.ChildUIDs = some childUIDs
            from hcu)]
        have hfold : ∀ (cs : List String) (acc1 : List Visit),
            cs.foldlM (fun a c => Tree.walk n c uid (depth + 1) Tree.recordNode a) (t, acc1) =
              recordAfter t acc1 (joinAll (cs.map
                (fun c => preorderSpec isBranch childUIDs t.IsBranchOpen n c uid (depth + 1)))) := by
          intro cs
          induction cs with
          | nil => intro acc1; simp [joinAll, recordAfter, pure, Except.pure]
          | cons c cs ihc =>
            intro acc1
            simp only [List.foldlM_cons, bind, Except.bind, List.map_cons]
            rw [ih c uid (depth + 1) acc1]
            cases hp : preorderSpec isBranch childUIDs t.IsBranchOpen n c uid (depth + 1) with
            | none => simp [joinAll, recordAfter]
            | some l =>
              simp only [recordAfter, joinAll]
              rw [ihc (acc1 ++ l)]
              cases joinAll (cs.map
                (fun c => preorderSpec isBranch childUIDs t.IsBranchOpen n c uid (depth + 1))) with
              | none => simp [recordAfter]
              | some ls => simp [recordAfter]
        have hnode : Tree.recordNode uid parent true depth (t, acc) =
            (t, acc ++ [⟨uid, parent, true, depth⟩]) := rfl
        rw [hnode, hfold]
        rw [preorderSpec]
        simp only [hb, ho, if_true]
        cases joinAll ((childUIDs uid).map
          (fun c => preorderSpec isBranch childUIDs t.IsBranchOpen n c uid (depth + 1))) with
        | none => simp [recordAfter]
        | some ls => simp [recordAfter]
      · rw [Tree.walk, preorderSpec]
        simp only [hib, hb, if_true]
        rw [if_neg (show ¬ (Tree.recordNode uid parent true depth (t, acc)).1.IsBranchOpen uid
          = true from ho), if_neg ho]
        rfl
    · rw [walk_succ_leaf n uid parent depth Tree.recordNode (t, acc) isBranch hib hb, preorderSpec]
      rw [if_neg hb]
      have hb1 : isBranch uid = false := by simpa using hb
      simp [recordAfter, Tree.recordNode]

/-- C20 as stated fails: the child relation of `sharedChildTree` is finite and
acyclic, and so is its open-branch child relation; the leaf `C` is reachable from
the root through open branches, and `walkAll` calls `onNode` for `C` twice, once
under `A` and once under `B`. -/
theorem walkAll_visits_shared_child_twice :
    sharedChildTree.visits 3 = .ok [⟨"", "", true, 0⟩, ⟨"A", "", true, 1⟩, ⟨"C", "A", false, 2⟩,
      ⟨"B", "", true, 1⟩, ⟨"C", "B", false, 2⟩] ∧
    (["", "A", "C", "B", "C"].count "C" = 2) ∧
    sharedChildTree.Acyclic sharedChildRank ∧ sharedChildTree.OpenAcyclic sharedChildRank := by
  suffices h : sharedChildTree.Acyclic sharedChildRank from
    ⟨rfl, by decide, h, acyclic_openAcyclic _ _ h⟩
  intro ib cu hib hcu u c hb hc
  simp only [sharedChildTree, NewTreeWithStrings, Option.some.injEq] at hib hcu
  subst hib hcu
  simp only [List.lookup] at hb hc
  unfold sharedChildRank
  by_cases h1 : u = ""
  · subst h1
    simp at hc
    rcases hc with rfl | rfl <;> decide
  · by_cases h2 : u = "A"
    · subst h2
      simp at hc
      subst hc
      decide
    · by_cases h3 : u = "B"
      · subst h3
        simp at hc
        subst hc
        decide
      · have e1 : (u == "") = false := by simpa using h1
        have e2 : (u == "A") = false := by simpa using h2
        have e3 : (u == "B") = false := by simpa using h3
        simp [e1, e2, e3] at hb

/-- C20, amended: for every tree with `IsBranch` and `ChildUIDs` set whose
open-branch child relation (the child relation below the open branches reachable
from `Root`) is finite and acyclic, `walkAll` returns, given a budget above the
rank of the root, and its sequence of `onNode` calls is the depth-first
pre-order sequence of the spec: a branch before its children, the children of an
open branch in `ChildUIDs` order, each call passing the parent id (the empty id
for `Root`), the value of `IsBranch` and the depth (0 for `Root`, the parent's
depth plus one otherwise); there is one call for each path from `Root` through
open branches, the ids called are exactly the ids reachable from `Root` through
open branches, and children of a closed branch and of a node that is not a branch
are not visited. -/
theorem walkAll_preorder (fuel : Nat) (t : Tree) (isBranch : String → Bool)
    (childUIDs : String → List String) (hib : t.IsBranch = some isBranch)
    (hcu : t.ChildUIDs = some childUIDs) (rank : String → Nat) (hac : t.OpenAcyclic rank)
    (hfuel : rank t.Root < fuel) :
    ∃ vs, t.visits fuel = .ok vs ∧
      preorderSpec isBranch childUIDs t.IsBranchOpen fuel t.Root "" 0 = some vs ∧
      ∀ u, u ∈ vs.map Visit.id ↔ ReachableThrough isBranch childUIDs t.IsBranchOpen t.Root u := by
  obtain ⟨vs, hvs⟩ := visits_ok_open t rank hac fuel hfuel
  refine ⟨vs, hvs, ?_, visits_reach fuel t isBranch childUIDs hib hcu vs hvs⟩
  have h := walk_record_preorder t isBranch childUIDs hib hcu fuel t.Root "" 0 []
  unfold Tree.visits Tree.walkAll at hvs
  simp only at hvs
  rw [h] at hvs
  cases hp : preorderSpec isBranch childUIDs t.IsBranchOpen fuel t.Root "" 0 with
  | none => rw [hp] at hvs; simp [recordAfter, Except.map] at hvs
  | some l =>
    rw [hp] at hvs
    simp only [recordAfter, List.nil_append, Except.map, Except.ok.injEq] at hvs
    rw [hvs]

theorem walkAll_preorder_witness :
    ∃ vs, scenarioTree.visits 3 = .ok vs ∧
      vs = [⟨"", "", true, 0⟩, ⟨"A", "", true, 1⟩, ⟨"A1", "A", false, 2⟩, ⟨"B", "", false, 1⟩] := by
  obtain ⟨vs, h1, h2, _⟩ := walkAll_preorder 3 scenarioTree
    (fun uid => (scenarioData.lookup uid).isSome) (fun uid => (scenarioData.lookup uid).getD [])
    rfl rfl scenarioRank (acyclic_openAcyclic _ _ scenarioTree_acyclic) (by decide)
  refine ⟨vs, h1, ?_⟩
  have h3 : preorderSpec (fun uid => (scenarioData.lookup uid).isSome)
      (fun uid => (scenarioData.lookup uid).getD []) scenarioTree.IsBranchOpen 3
      scenarioTree.Root "" 0 = some [⟨"", "", true, 0⟩, ⟨"A", "", true, 1⟩,
        ⟨"A1", "A", false, 2⟩, ⟨"B", "", false, 1⟩] := rfl
  rw [h3] at h2
  exact (Option.some.inj h2).symm

theorem joinAll_sublist (f f1 : String → Option (List Visit))
    (hf : ∀ c l l1, f c = some l → f1 c = some l1 → l.Sublist l1) :
    ∀ {cs cs1 : List String}, cs.Sublist cs1 → ∀ ls ls1, joinAll (cs.map f) = some ls →
      joinAll (cs1.map f1) = some ls1 → ls.Sublist ls1 := by
  intro cs cs1 h
  induction h with
  | slnil =>
    intro ls ls1 h1 h2
    simp only [List.map_nil, joinAll, Option.some.injEq] at h1 h2
    rw [← h1, ← h2]
  | @cons l₁ l₂ a _ ih =>
    intro ls ls1 h1 h2
    simp only [List.map_cons] at h2
    cases ha : f1 a with
    | none => rw [ha] at h2; simp [joinAll] at h2
    | some la =>
      rw [ha] at h2
      simp only [joinAll, Option.map_eq_some'] at h2
      obtain ⟨ls2, h3, h4⟩ := h2
      rw [← h4]
      exact (ih ls ls2 h1 h3).trans (List.sublist_append_right la ls2)
  | @cons₂ l₁ l₂ a _ ih =>
    intro ls ls1 h1 h2
    simp only [List.map_cons] at h1 h2
    cases ha : f a with
    | none => rw [ha] at h1; simp [joinAll] at h1
    | some la =>
      cases ha1 : f1 a with
      | none => rw [ha1] at h2; simp [joinAll] at h2
      | some la1 =>
        rw [ha] at h1
        rw [ha1] at h2
        simp only [joinAll, Option.map_eq_some'] at h1 h2
        obtain ⟨ls2, h3, h4⟩ := h1
        obtain ⟨ls3, h5, h6⟩ := h2
        rw [← h4, ← h6]
        exact List.Sublist.append (hf a la la1 ha ha1) (ih ls2 ls3 h3 h5)

/-- Opening branches and adding children only adds entries to the pre-order
sequence. -/
theorem preorderSpec_sublist (isBranch : String → Bool) (childUIDs childUIDs1 : String → List String)
    (isOpen isOpen1 : String → Bool) (hcu : ∀ u, (childUIDs u).Sublist (childUIDs1 u))
    (hopen : ∀ u, isOpen u = true → isOpen1 u = true) :
    ∀ (fuel : Nat) (uid parent : String) (depth : Int) (l l1 : List Visit),
      preorderSpec isBranch childUIDs isOpen fuel uid parent depth = some l →
      preorderSpec isBranch childUIDs1 isOpen1 fuel uid parent depth = some l1 →
      l.Sublist l1 := by
  intro fuel
  induction fuel with
  | zero => intro uid parent depth l l1 h; simp [preorderSpec] at h
  | succ n ih =>
    intro uid parent depth l l1 h h1
    rw [preorderSpec] at h h1
    by_cases hb : isBranch uid = true
    · simp only [hb, if_true] at h h1
      by_cases ho : isOpen uid = true
      · simp only [ho, hopen uid ho, if_true, Option.map_eq_some'] at h h1
        obtain ⟨ls, h2, h3⟩ := h
        obtain ⟨ls1, h4, h5⟩ := h1
        rw [← h3, ← h5]
        exact List.Sublist.cons₂ _ (joinAll_sublist _ _
          (fun c la la1 hc hc1 => ih c uid (depth + 1) la la1 hc hc1) (hcu uid) ls ls1 h2 h4)
      · rw [if_neg ho] at h
        simp only [Option.some.injEq] at h
        rw [← h]
        by_cases ho1 : isOpen1 uid = true
        · simp only [ho1, if_true, Option.map_eq_some'] at h1
          obtain ⟨ls1, _, h5⟩ := h1
          rw [← h5]
          exact List.Sublist.cons₂ _ (List.nil_sublist _)
        · rw [if_neg ho1] at h1
          simp only [Option.some.injEq] at h1
          rw [← h1]
    · rw [if_neg hb] at h h1
      simp only [Option.some.injEq] at h h1
      rw [← h, ← h1]

/-- The sequence `visits` is the pre-order sequence of the spec. -/
theorem visits_preorder (fuel : Nat) (t : Tree) (isBranch : String → Bool)
    (childUIDs : String → List String) (hib : t.IsBranch = some isBranch)
    (hcu : t.ChildUIDs = some childUIDs) (vs : List Visit) (hvs : t.visits fuel = .ok vs) :
    preorderSpec isBranch childUIDs t.IsBranchOpen fuel t.Root "" 0 = some vs := by
  have h := walk_record_preorder t isBranch childUIDs hib hcu fuel t.Root "" 0 []
  unfold Tree.visits Tree.walkAll at hvs
  simp only at hvs
  rw [h] at hvs
  cases hp : preorderSpec isBranch childUIDs t.IsBranchOpen fuel t.Root "" 0 with
  | none => rw [hp] at hvs; simp [recordAfter, Except.map] at hvs
  | some l =>
    rw [hp] at hvs
    simp only [recordAfter, List.nil_append, Except.map, Except.ok.injEq] at hvs
    rw [hvs]

theorem joinAll_some_each (f : String → Option (List Visit)) :
    ∀ (cs : List String) (l : List Visit), joinAll (cs.map f) = some l →
      ∀ c ∈ cs, ∃ l1, f c = some l1 := by
  intro cs
  induction cs with
  | nil => intro l _ c hc; simp at hc
  | cons c0 cs ih =>
    intro l h c hc
    rw [List.map_cons] at h
    cases h0 : f c0 with
    | none => rw [h0] at h; simp [joinAll] at h
    | some l0 =>
      rw [h0] at h
      simp only [joinAll, Option.map_eq_some'] at h
      obtain ⟨ls, hls, _⟩ := h
      rcases List.mem_cons.mp hc with hc | hc
      · exact ⟨l0, by rw [hc]; exact h0⟩
      · exact ih ls hls c hc

theorem joinAll_each_some (f : String → Option (List Visit)) :
    ∀ (cs : List String), (∀ c ∈ cs, ∃ l1, f c = some l1) → ∃ l, joinAll (cs.map f) = some l := by
  intro cs
  induction cs with
  | nil => intro _; exact ⟨[], rfl⟩
  | cons c0 cs ih =>
    intro h
    obtain ⟨l0, h0⟩ := h c0 (List.mem_cons_self _ _)
    obtain ⟨ls, hls⟩ := ih (fun c hc => h c (List.mem_cons_of_mem _ hc))
    exact ⟨l0 ++ ls, by rw [List.map_cons, h0]; simp [joinAll, hls]⟩

/-- When the pre-order sequence of a tree exists within a budget, so does that of
a tree with no more children and no more open branches. -/
theorem preorderSpec_some_mono (isBranch : String → Bool)
    (childUIDs childUIDs1 : String → List String) (isOpen isOpen1 : String → Bool)
    (hcu : ∀ u c, c ∈ childUIDs u → c ∈ childUIDs1 u)
    (hopen : ∀ u, isOpen u = true → isOpen1 u = true) :
    ∀ (fuel : Nat) (uid parent : String) (depth : Int) (l1 : List Visit),
      preorderSpec isBranch childUIDs1 isOpen1 fuel uid parent depth = some l1 →
      ∃ l, preorderSpec isBranch childUIDs isOpen fuel uid parent depth = some l := by
  intro fuel
  induction fuel with
  | zero => intro uid parent depth l1 h; simp [preorderSpec] at h
  | succ n ih =>
    intro uid parent depth l1 h
    rw [preorderSpec] at h ⊢
    by_cases hb : isBranch uid = true
    · simp only [hb, if_true] at h ⊢
      by_cases ho : isOpen uid = true
      · simp only [ho, hopen uid ho, if_true, Option.map_eq_some'] at h ⊢
        obtain ⟨ls1, hls1, _⟩ := h
        have heach := joinAll_some_each _ _ ls1 hls1
        obtain ⟨ls, hls⟩ := joinAll_each_some
          (fun c => preorderSpec isBranch childUIDs isOpen n c uid (depth + 1)) (childUIDs uid)
          (fun c hc => by
            obtain ⟨lc, hlc⟩ := heach c (hcu uid c hc)
            exact ih c uid (depth + 1) lc hlc)
        exact ⟨_, ls, hls, rfl⟩
      · simp only [ho]
        exact ⟨_, rfl⟩
    · simp only [hb]
      exact ⟨_, rfl⟩

/-- When the walk of a tree returns within a budget, so does the walk of a tree
with the same root and branch flags, no more children and no more open branches. -/
theorem visits_ok_mono (a b : Tree) (hroot : a.Root = b.Root) (hib : a.IsBranch = b.IsBranch)
    (hcu : ∀ cuA, a.ChildUIDs = some cuA →
      ∃ cuB, b.ChildUIDs = some cuB ∧ ∀ u c, c ∈ cuA u → c ∈ cuB u)
    (hopen : ∀ u, a.IsBranchOpen u = true → b.IsBranchOpen u = true)
    (fuel : Nat) (vs : List Visit) (hvs : b.visits fuel = .ok vs) :
    ∃ vs1, a.visits fuel = .ok vs1 := by
  obtain ⟨n, hn⟩ : ∃ n, fuel = n + 1 := by
    cases fuel with
    | zero => simp [Tree.visits, Tree.walkAll, Tree.walk, Except.map] at hvs
    | succ n => exact ⟨n, rfl⟩
  cases hibA : a.IsBranch with
  | none => rw [hn]; exact visits_ok_nil a n (Or.inl hibA)
  | some isBranch =>
    cases hcuA : a.ChildUIDs with
    | none => rw [hn]; exact visits_ok_nil a n (Or.inr hcuA)
    | some childUIDs =>
      obtain ⟨cuB, hcuB, hsub⟩ := hcu childUIDs hcuA
      have hp := visits_preorder fuel b isBranch cuB (hib ▸ hibA) hcuB vs hvs
      obtain ⟨l, hl⟩ := preorderSpec_some_mono isBranch childUIDs cuB a.IsBranchOpen
        b.IsBranchOpen hsub hopen fuel b.Root "" 0 vs hp
      refine ⟨l, ?_⟩
      unfold Tree.visits Tree.walkAll
      simp only
      rw [walk_record_preorder a isBranch childUIDs hibA hcuA fuel a.Root "" 0 [], hroot, hl]
      simp [recordAfter, Except.map]

/-- Closing a branch opens none. -/
theorem closeBranch_isBranchOpen (t : Tree) (uid u : String)
    (h : (t.CloseBranch uid).IsBranchOpen u = true) : t.IsBranchOpen u = true := by
  obtain ⟨h1, _, _, _, _, h6⟩ := closeBranch_fields t uid
  unfold Tree.IsBranchOpen at h ⊢
  rw [h1, h6] at h
  by_cases hr : u = t.Root
  · rw [if_pos hr]
  · rw [if_neg hr] at h ⊢
    simp only at h
    split_ifs at h
    exact h

/-- Opening a branch closes none. -/
theorem openBranch_isBranchOpen (t : Tree) (uid u : String) (h : t.IsBranchOpen u = true) :
    (t.OpenBranch uid).IsBranchOpen u = true := by
  obtain ⟨h1, _, _, _, _, h6⟩ := openBranch_fields t uid
  unfold Tree.IsBranchOpen at h ⊢
  rw [h1, h6]
  by_cases hr : u = t.Root
  · rw [if_pos hr]
  · rw [if_neg hr] at h ⊢
    simp only
    split_ifs
    · rfl
    · exact h

/-- C7, amended: for every tree with `IsBranch` set whose walk returns and visits
each id once, and a focused id `f` other than `Root`, `TypedKey(KeyLeft)` returns.
If `f` is a branch and is open, it closes it (`IsBranchOpen(f)` is false
afterwards, `OnBranchClosed(f)` is called if registered) and leaves `currentFocus`
unchanged.  Otherwise it leaves the open map unchanged, calls no observer, and sets
`currentFocus` to the parent id under which the walk visits `f`; it leaves
`currentFocus` unchanged when that parent id is the empty string (as it is for the
children of the default root) or `f` is not in the walk. -/
theorem typedKey_left (fuel : Nat) (t : Tree) (isBranch : String → Bool)
    (hib : t.IsBranch = some isBranch)
    (hroot : t.currentFocus ≠ t.Root) (vs : List Visit) (hvs : t.visits fuel = .ok vs)
    (hnd : (vs.map Visit.id).Nodup) :
    ∃ t1, t.TypedKey fuel KeyName.KeyLeft = .ok t1 ∧
      ((isBranch t.currentFocus = true ∧ t.IsBranchOpen t.currentFocus = true) →
        t1.IsBranchOpen t.currentFocus = false ∧ t1.currentFocus = t.currentFocus ∧
        t1.events = t.events ++
          (if t.OnBranchClosed then [Event.branchClosed t.currentFocus] else [])) ∧
      (¬ (isBranch t.currentFocus = true ∧ t.IsBranchOpen t.currentFocus = true) →
        t1.openMap = t.openMap ∧ t1.events = t.events ∧
        (∀ v ∈ vs, v.id = t.currentFocus →
          t1.currentFocus = if v.parent = "" then t.currentFocus else v.parent) ∧
        (t.currentFocus ∉ vs.map Visit.id → t1.currentFocus = t.currentFocus)) := by
  by_cases hc : isBranch t.currentFocus = true ∧ t.IsBranchOpen t.currentFocus = true
  · have hT : t.TypedKey fuel KeyName.KeyLeft =
        (t.CloseBranch t.currentFocus).ScrollTo fuel (t.CloseBranch t.currentFocus).currentFocus := by
      unfold Tree.TypedKey
      simp only
      rw [hib]
      simp only
      rw [if_pos (by simp [hc.1, hc.2])]
    obtain ⟨h1, h2, h3, h4, _, h6⟩ := closeBranch_fields t t.currentFocus
    obtain ⟨vs1, hvs1⟩ := visits_ok_mono (t.CloseBranch t.currentFocus) t h1 h2
      (fun cuA hcuA => ⟨cuA, h3 ▸ hcuA, fun _ _ hm => hm⟩)
      (closeBranch_isBranchOpen t t.currentFocus) fuel vs hvs
    obtain ⟨sc, off, hs⟩ := scrollTo_frame fuel (t.CloseBranch t.currentFocus)
      (t.CloseBranch t.currentFocus).currentFocus (t.CloseBranch t.currentFocus)
      (sameShape_refl _) vs1 hvs1
    refine ⟨_, hT.trans hs, fun _ => ⟨?_, h4, ?_⟩, fun hn => absurd hc hn⟩
    · unfold Tree.IsBranchOpen
      simp only
      rw [h1, if_neg hroot, h6]
      simp
    · simp only
      unfold Tree.CloseBranch
      simp only
      split_ifs <;> simp
  · have hT : t.TypedKey fuel KeyName.KeyLeft =
        (Tree.walk fuel t.Root "" 0 Tree.keyLeftNode (t, ())).bind
          (fun r => r.1.ScrollTo fuel r.1.currentFocus) := by
      unfold Tree.TypedKey
      simp only
      rw [hib]
      simp only
      rw [if_neg (by simpa using hc)]
    obtain ⟨t1, h1, h2, h3, _, h5⟩ := typedKey_walk Tree.keyLeftNode keyLeftNode_fst fuel t () vs hvs
    refine ⟨t1, hT.trans h1, fun h => absurd h hc, fun _ => ⟨h3, h5, ?_, ?_⟩⟩
    · intro v hv hid
      rw [h2]
      exact keyLeft_fold vs t [] (visits_parents fuel t vs hvs) (fun x hx => by simp at hx) hnd v hv hid
    · intro habs
      rw [h2, keyLeft_fold_absent vs t habs]

theorem typedKey_left_witness :
    ∃ t1, selectedTree.TypedKey 3 KeyName.KeyLeft = .ok t1 ∧ t1.IsBranchOpen "A" = false ∧
      t1.currentFocus = "A" ∧ t1.events = [Event.branchClosed "A"] := by
  obtain ⟨t1, h1, h2, _⟩ := typedKey_left 3 selectedTree
    (fun uid => (scenarioData.lookup uid).isSome) rfl (by decide)
    [⟨"", "", true, 0⟩, ⟨"A", "", true, 1⟩, ⟨"A1", "A", false, 2⟩, ⟨"B", "", false, 1⟩] rfl
    (by decide)
  exact ⟨t1, h1, h2 ⟨rfl, rfl⟩⟩

theorem minSizeNode_fst (pad iconSize : Int) (id p : String) (br : Bool) (d : Int)
    (s : Tree × Size) : (treeContentRenderer.minSizeNode pad iconSize id p br d s).1 = s.1 := by
  unfold treeContentRenderer.minSizeNode
  split_ifs <;> rfl

theorem minSize_fold_eq (pad iconSize : Int) (t : Tree) (vs : List Visit) (m : Size) :
    vs.foldl (applyVisit (treeContentRenderer.minSizeNode pad iconSize)) (t, m) =
      (t, vs.foldl (treeContentRenderer.minSizeStep t pad iconSize) m) := by
  induction vs generalizing m with
  | nil => rfl
  | cons v vs ih =>
    simp only [List.foldl_cons]
    have e : applyVisit (treeContentRenderer.minSizeNode pad iconSize) (t, m) v =
        (t, treeContentRenderer.minSizeStep t pad iconSize m v) := by
      unfold applyVisit treeContentRenderer.minSizeStep
      exact Prod.ext (minSizeNode_fst _ _ _ _ _ _ _) rfl
    rw [e, ih]

/-- One call of the closure of `MinSize` never shrinks `min`, and is monotone in
`min`, when the padding and the row heights are not negative. -/
theorem minSizeStep_mono (t t1 : Tree) (pad iconSize : Int) (hroot : t1.Root = t.Root)
    (hbs : t1.branchMinSize = t.branchMinSize) (hls : t1.leafMinSize = t.leafMinSize)
    (hpad : 0 ≤ pad) (hbh : 0 ≤ t.branchMinSize.Height) (hlh : 0 ≤ t.leafMinSize.Height)
    (m m1 : Size) (v : Visit) (hw : m.Width ≤ m1.Width) (hh : m.Height ≤ m1.Height)
    (h0 : 0 ≤ m.Height) :
    (treeContentRenderer.minSizeStep t pad iconSize m v).Width ≤
      (treeContentRenderer.minSizeStep t1 pad iconSize m1 v).Width ∧
    (treeContentRenderer.minSizeStep t pad iconSize m v).Height ≤
      (treeContentRenderer.minSizeStep t1 pad iconSize m1 v).Height ∧
    0 ≤ (treeContentRenderer.minSizeStep t pad iconSize m v).Height ∧
    m1.Width ≤ (treeContentRenderer.minSizeStep t1 pad iconSize m1 v).Width ∧
    m1.Height ≤ (treeContentRenderer.minSizeStep t1 pad iconSize m1 v).Height := by
  unfold treeContentRenderer.minSizeStep treeContentRenderer.minSizeNode
  simp only [hroot, hbs, hls]
  by_cases hskip : t.Root = "" ∧ v.id = ""
  · simp only [hskip, and_self, if_true]
    exact ⟨hw, hh, h0, le_refl _, le_refl _⟩
  · simp only [hskip, if_false]
    have hm : 0 ≤ (if v.branch = true then t.branchMinSize else t.leafMinSize).Height := by
      split_ifs <;> assumption
    refine ⟨max_le_max hw (le_refl _), ?_, ?_, le_max_left _ _, ?_⟩
    · split_ifs <;> omega
    · split_ifs <;> omega
    · split_ifs <;> omega

/-- The closure of `MinSize` folded over a sequence and over a longer sequence
that contains it: the longer one gives the larger size. -/
theorem minSize_fold_mono (t t1 : Tree) (pad iconSize : Int) (hroot : t1.Root = t.Root)
    (hbs : t1.branchMinSize = t.branchMinSize) (hls : t1.leafMinSize = t.leafMinSize)
    (hpad : 0 ≤ pad) (hbh : 0 ≤ t.branchMinSize.Height) (hlh : 0 ≤ t.leafMinSize.Height) :
    ∀ {vs vs1 : List Visit}, vs.Sublist vs1 → ∀ (m m1 : Size), m.Width ≤ m1.Width →
      m.Height ≤ m1.Height → 0 ≤ m.Height →
      (vs.foldl (treeContentRenderer.minSizeStep t pad iconSize) m).Width ≤
        (vs1.foldl (treeContentRenderer.minSizeStep t1 pad iconSize) m1).Width ∧
      (vs.foldl (treeContentRenderer.minSizeStep t pad iconSize) m).Height ≤
        (vs1.foldl (treeContentRenderer.minSizeStep t1 pad iconSize) m1).Height := by
  intro vs vs1 h
  induction h with
  | slnil => intro m m1 hw hh _; exact ⟨hw, hh⟩
  | @cons l₁ l₂ a _ ih =>
    intro m m1 hw hh h0
    simp only [List.foldl_cons]
    obtain ⟨_, _, _, h4, h5⟩ := minSizeStep_mono t t1 pad iconSize hroot hbs hls hpad hbh hlh
      m m1 a hw hh h0
    exact ih m _ (le_trans hw h4) (le_trans hh h5) h0
  | @cons₂ l₁ l₂ a _ ih =>
    intro m m1 hw hh h0
    simp only [List.foldl_cons]
    obtain ⟨h1, h2, h3, _, _⟩ := minSizeStep_mono t t1 pad iconSize hroot hbs hls hpad hbh hlh
      m m1 a hw hh h0
    exact ih _ _ h1 h2 h3

/-- Once the walk returns, `MinSize` returns the closure folded over `visits`. -/
theorem minSize_eq_fold (fuel : Nat) (r : treeContentRenderer) (vs : List Visit)
    (hvs : r.treeContent.tree.visits fuel = .ok vs) :
    r.MinSize fuel = .ok (vs.foldl (treeContentRenderer.minSizeStep r.treeContent.tree
      r.treeContent.tree.theme.SizeNamePadding r.treeContent.tree.theme.SizeNameInlineIcon)
      ⟨0, 0⟩) := by
  unfold treeContentRenderer.MinSize
  simp only
  rw [walkAll_fold _ (fun id p br d a => by rw [minSizeNode_fst]; exact sameShape_refl _)
    fuel _ r.treeContent.tree (sameShape_refl _) vs hvs, minSize_fold_eq]
  rfl

/-- Whenever `MinSize` returns, the walk of its tree returns. -/
theorem minSize_visits (fuel : Nat) (r : treeContentRenderer) (m : Size)
    (h : r.MinSize fuel = .ok m) : ∃ vs, r.treeContent.tree.visits fuel = .ok vs := by
  unfold treeContentRenderer.MinSize at h
  simp only at h
  cases hw : Tree.walkAll fuel (treeContentRenderer.minSizeNode
      r.treeContent.tree.theme.SizeNamePadding r.treeContent.tree.theme.SizeNameInlineIcon)
      (r.treeContent.tree, (⟨0, 0⟩ : Size)) with
  | error e => rw [hw] at h; simp [Except.map] at h
  | ok a =>
    exact visits_of_walkAll_ok _
      (fun id p br d a => by rw [minSizeNode_fst]; exact sameShape_refl _)
      fuel _ r.treeContent.tree (sameShape_refl _) a hw

/-- When a tree gains content (branches opened, children added) and keeps its
root, its callbacks' branch flags, its row sizes and its theme, and the walk of
the tree with the content gained returns, `MinSize` returns before and after and
does not shrink. -/
theorem minSize_grows (fuel : Nat) (r : treeContentRenderer) (t1 : Tree)
    (isBranch : String → Bool) (childUIDs childUIDs1 : String → List String)
    (hib : r.treeContent.tree.IsBranch = some isBranch) (hib1 : t1.IsBranch = some isBranch)
    (hcu : r.treeContent.tree.ChildUIDs = some childUIDs) (hcu1 : t1.ChildUIDs = some childUIDs1)
    (hsub : ∀ u, (childUIDs u).Sublist (childUIDs1 u))
    (hopen : ∀ u, r.treeContent.tree.IsBranchOpen u = true → t1.IsBranchOpen u = true)
    (hroot : t1.Root = r.treeContent.tree.Root)
    (hbs : t1.branchMinSize = r.treeContent.tree.branchMinSize)
    (hls : t1.leafMinSize = r.treeContent.tree.leafMinSize)
    (hth : t1.theme = r.treeContent.tree.theme)
    (hpad : 0 ≤ r.treeContent.tree.theme.SizeNamePadding)
    (hbh : 0 ≤ r.treeContent.tree.branchMinSize.Height)
    (hlh : 0 ≤ r.treeContent.tree.leafMinSize.Height)
    (vs1 : List Visit) (hvs1 : t1.visits fuel = .ok vs1) :
    ∃ m m1, r.MinSize fuel = .ok m ∧ (r.withTree t1).MinSize fuel = .ok m1 ∧
      m.Width ≤ m1.Width ∧ m.Height ≤ m1.Height := by
  obtain ⟨vs, hvs⟩ := visits_ok_mono r.treeContent.tree t1 hroot.symm (hib.trans hib1.symm)
    (fun cuA hcuA => ⟨childUIDs1, hcu1, fun u c hc => by
      rw [hcu] at hcuA
      simp only [Option.some.injEq] at hcuA
      subst hcuA
      exact (hsub u).subset hc⟩) hopen fuel vs1 hvs1
  have hp := visits_preorder fuel _ isBranch childUIDs hib hcu vs hvs
  have hp1 := visits_preorder fuel _ isBranch childUIDs1 hib1 hcu1 vs1 hvs1
  rw [hroot] at hp1
  have hsl := preorderSpec_sublist isBranch childUIDs childUIDs1 r.treeContent.tree.IsBranchOpen
    t1.IsBranchOpen hsub hopen fuel r.treeContent.tree.Root "" 0 vs vs1 hp hp1
  have hm := minSize_eq_fold fuel r vs hvs
  have hm1 := minSize_eq_fold fuel (r.withTree t1) vs1 hvs1
  refine ⟨_, _, hm, hm1, ?_⟩
  have := minSize_fold_mono r.treeContent.tree t1 r.treeContent.tree.theme.SizeNamePadding
    r.treeContent.tree.theme.SizeNameInlineIcon hroot hbs hls hpad hbh hlh hsl ⟨0, 0⟩ ⟨0, 0⟩
    (le_refl _) (le_refl _) (le_refl _)
  simp only [treeContentRenderer.withTree, hth]
  exact this

theorem openBranch_sizes (t : Tree) (uid : String) :
    (t.OpenBranch uid).branchMinSize = t.branchMinSize ∧
    (t.OpenBranch uid).leafMinSize = t.leafMinSize ∧ (t.OpenBranch uid).theme = t.theme := by
  unfold Tree.OpenBranch
  simp only
  split_ifs <;> exact ⟨rfl, rfl, rfl⟩

/-- C14: `MinSize` is monotonic in content.  For every tree with `IsBranch` and
`ChildUIDs` set and with padding and row heights that are not negative, and for
the tree after a branch is opened, or after child lists gain extra children:
when the open sub-forest of the tree after is finite and acyclic (given a budget
above the rank of the root), `MinSize` returns before and after, and the `MinSize`
after is at least the `MinSize` before, in both width and height; and on every
tree, whenever `MinSize` returns after, `MinSize` returns before and is at most
the `MinSize` after, in both width and height. -/
theorem minSize_monotone (fuel : Nat) (r : treeContentRenderer) (isBranch : String → Bool)
    (childUIDs : String → List String) (hib : r.treeContent.tree.IsBranch = some isBranch)
    (hcu : r.treeContent.tree.ChildUIDs = some childUIDs)
    (hpad : 0 ≤ r.treeContent.tree.theme.SizeNamePadding)
    (hbh : 0 ≤ r.treeContent.tree.branchMinSize.Height)
    (hlh : 0 ≤ r.treeContent.tree.leafMinSize.Height) :
    (∀ uid,
      (∀ rank : String → Nat, (r.treeContent.tree.OpenBranch uid).OpenAcyclic rank →
        rank r.treeContent.tree.Root < fuel →
        ∃ m m1, r.MinSize fuel = .ok m ∧
          (r.withTree (r.treeContent.tree.OpenBranch uid)).MinSize fuel = .ok m1 ∧
          m.Width ≤ m1.Width ∧ m.Height ≤ m1.Height) ∧
      (∀ m1, (r.withTree (r.treeContent.tree.OpenBranch uid)).MinSize fuel = .ok m1 →
        ∃ m, r.MinSize fuel = .ok m ∧ m.Width ≤ m1.Width ∧ m.Height ≤ m1.Height)) ∧
    (∀ childUIDs1 : String → List String, (∀ u, (childUIDs u).Sublist (childUIDs1 u)) →
      (∀ rank : String → Nat,
        ({ r.treeContent.tree with ChildUIDs := some childUIDs1 } : Tree).OpenAcyclic rank →
        rank r.treeContent.tree.Root < fuel →
        ∃ m m1, r.MinSize fuel = .ok m ∧
          (r.withTree { r.treeContent.tree with ChildUIDs := some childUIDs1 }).MinSize fuel
            = .ok m1 ∧
          m.Width ≤ m1.Width ∧ m.Height ≤ m1.Height) ∧
      (∀ m1, (r.withTree { r.treeContent.tree with ChildUIDs := some childUIDs1 }).MinSize fuel
          = .ok m1 →
        ∃ m, r.MinSize fuel = .ok m ∧ m.Width ≤ m1.Width ∧ m.Height ≤ m1.Height)) := by
  have hopened : ∀ uid (vs1 : List Visit),
      (r.treeContent.tree.OpenBranch uid).visits fuel = .ok vs1 →
      ∃ m m1, r.MinSize fuel = .ok m ∧
        (r.withTree (r.treeContent.tree.OpenBranch uid)).MinSize fuel = .ok m1 ∧
        m.Width ≤ m1.Width ∧ m.Height ≤ m1.Height := by
    intro uid vs1 hvs1
    obtain ⟨h1, h2, h3, _, _, _⟩ := openBranch_fields r.treeContent.tree uid
    obtain ⟨s1, s2, s3⟩ := openBranch_sizes r.treeContent.tree uid
    exact minSize_grows fuel r (r.treeContent.tree.OpenBranch uid) isBranch childUIDs childUIDs
      hib (h2.trans hib) hcu (h3.trans hcu) (fun u => List.Sublist.refl _)
      (openBranch_isBranchOpen r.treeContent.tree uid) h1 s1 s2 s3 hpad hbh hlh vs1 hvs1
  have hchildren : ∀ (childUIDs1 : String → List String),
      (∀ u, (childUIDs u).Sublist (childUIDs1 u)) → ∀ (vs1 : List Visit),
      ({ r.treeContent.tree with ChildUIDs := some childUIDs1 } : Tree).visits fuel = .ok vs1 →
      ∃ m m1, r.MinSize fuel = .ok m ∧
        (r.withTree { r.treeContent.tree with ChildUIDs := some childUIDs1 }).MinSize fuel
          = .ok m1 ∧
        m.Width ≤ m1.Width ∧ m.Height ≤ m1.Height := by
    intro childUIDs1 hsub vs1 hvs1
    exact minSize_grows fuel r { r.treeContent.tree with ChildUIDs := some childUIDs1 } isBranch
      childUIDs childUIDs1 hib hib hcu rfl hsub (fun u hu => hu) rfl rfl rfl rfl
      hpad hbh hlh vs1 hvs1
  constructor
  · intro uid
    constructor
    · intro rank hac hfuel
      obtain ⟨vs1, hvs1⟩ := visits_ok_open (r.treeContent.tree.OpenBranch uid) rank hac fuel
        (by rw [(openBranch_fields r.treeContent.tree uid).1]; exact hfuel)
      exact hopened uid vs1 hvs1
    · intro m1 hm1
      obtain ⟨vs1, hvs1⟩ := minSize_visits fuel _ m1 hm1
      obtain ⟨m, m2, h1, h2, h3, h4⟩ := hopened uid vs1 hvs1
      rw [hm1] at h2
      simp only [Except.ok.injEq] at h2
      subst h2
      exact ⟨m, h1, h3, h4⟩
  · intro childUIDs1 hsub
    constructor
    · intro rank hac hfuel
      obtain ⟨vs1, hvs1⟩ := visits_ok_open
        { r.treeContent.tree with ChildUIDs := some childUIDs1 } rank hac fuel hfuel
      exact hchildren childUIDs1 hsub vs1 hvs1
    · intro m1 hm1
      obtain ⟨vs1, hvs1⟩ := minSize_visits fuel _ m1 hm1
      obtain ⟨m, m2, h1, h2, h3, h4⟩ := hchildren childUIDs1 hsub vs1 hvs1
      rw [hm1] at h2
      simp only [Except.ok.injEq] at h2
      subst h2
      exact ⟨m, h1, h3, h4⟩

theorem minSize_monotone_witness :
    ∃ m m1, closedRenderer.MinSize 3 = .ok m ∧
      (closedRenderer.withTree (closedTree.OpenBranch "A")).MinSize 3 = .ok m1 ∧
      m.Width ≤ m1.Width ∧ m.Height ≤ m1.Height :=
  ((minSize_monotone 3 closedRenderer (fun uid => (scenarioData.lookup uid).isSome)
    (fun uid => (scenarioData.lookup uid).getD []) rfl rfl (by decide) (by decide)
    (by decide)).1 "A").1 scenarioRank
    (acyclic_openAcyclic _ _ (acyclic_of_fields scenarioTree_acyclic
      (openBranch_fields closedTree "A").2.1 (openBranch_fields closedTree "A").2.2.1))
    (by decide)

/-! ## Lemmas on the entry -/

theorem inserted_remove {before after : List Char} {p : Nat} {txt : List Char}
    (h : Inserted before after p txt) :
    after.take p ++ after.drop (p + txt.length) = before := by
  obtain ⟨hp, rfl⟩ := h
  have hl : (before.take p).length = p := by simp [List.length_take, hp]
  have h1 : (List.take p before ++ txt ++ List.drop p before).take p = before.take p := by
    rw [List.append_assoc]; exact List.take_left' hl
  have h2 : (List.take p before ++ txt ++ List.drop p before).drop (p + txt.length)
      = before.drop p := by
    apply List.drop_left'
    simp [hl]
  rw [h1, h2, List.take_append_drop]

theorem inserted_length {before after : List Char} {p : Nat} {txt : List Char}
    (h : Inserted before after p txt) : after.length = before.length + txt.length := by
  obtain ⟨hp, rfl⟩ := h
  simp only [List.length_append, List.length_take, List.length_drop]
  omega

theorem inserted_merge {t0 t1 t2 : List Char} {p : Nat} {x y : List Char}
    (h1 : Inserted t0 t1 p x) (h2 : Inserted t1 t2 (p + x.length) y) :
    Inserted t0 t2 p (x ++ y) := by
  obtain ⟨hp, rfl⟩ := h1
  obtain ⟨_, rfl⟩ := h2
  refine ⟨hp, ?_⟩
  have hl : (t0.take p).length = p := by simp [List.length_take, hp]
  have e1 : (List.take p t0 ++ x ++ List.drop p t0).take (p + x.length) = List.take p t0 ++ x := by
    apply List.take_left'
    simp [hl]
  have e2 : (List.take p t0 ++ x ++ List.drop p t0).drop (p + x.length) = List.drop p t0 := by
    apply List.drop_left'
    simp [hl]
  rw [e1, e2]
  simp [List.append_assoc]

theorem deleted_merge {t0 t1 t2 : List Char} {p q : Nat} {x y : List Char}
    (h1 : Inserted t1 t0 p x) (h2 : Inserted t2 t1 q y) (hq : q + y.length = p) :
    Inserted t2 t0 q (y ++ x) := by
  obtain ⟨_, rfl⟩ := h1
  obtain ⟨hq2, rfl⟩ := h2
  refine ⟨hq2, ?_⟩
  have hl : (t2.take q).length = q := by simp [List.length_take, hq2]
  have e1 : (List.take q t2 ++ y ++ List.drop q t2).take p = List.take q t2 ++ y := by
    apply List.take_left'
    simp [hl, hq]
  have e2 : (List.take q t2 ++ y ++ List.drop q t2).drop p = List.drop q t2 := by
    apply List.drop_left'
    simp [hl, hq]
  rw [e1, e2]
  simp [List.append_assoc]

theorem deleted_inserted (text : List Char) (q k : Nat) (h : q + k ≤ text.length) :
    Inserted (text.take q ++ text.drop (q + k)) text q ((text.drop q).take k) ∧
    ((text.drop q).take k).length = k := by
  have hl : (text.take q).length = q := by simp [List.length_take]; omega
  refine ⟨⟨by simp [List.length_append, hl], ?_⟩, by simp [List.length_take, List.length_drop]; omega⟩
  have e1 : (List.take q text ++ List.drop (q + k) text).take q = text.take q :=
    List.take_left' hl
  have e2 : (List.take q text ++ List.drop (q + k) text).drop q = text.drop (q + k) :=
    List.drop_left' hl
  rw [e1, e2]
  have e3 : List.drop (q + k) text = List.drop k (List.drop q text) := by
    rw [List.drop_drop]
  rw [e3, List.append_assoc, List.take_append_drop, List.take_append_drop]

/-- An applicable record takes the text to the text it applies to. -/
theorem applicable_takes (a : entryModifyAction) (text : List Char) (h : a.Applicable text) :
    a.Takes text (a.apply text) := by
  unfold entryModifyAction.Applicable at h
  unfold entryModifyAction.Takes entryModifyAction.apply
  by_cases hd : a.Delete = true
  · simp only [hd, if_true] at h ⊢
    obtain ⟨h1, h2⟩ := h
    have := (deleted_inserted text a.Position a.Text.length h1).1
    rw [← h2] at this
    exact this
  · simp only [hd, if_false] at h ⊢
    exact ⟨h, rfl⟩

/-- A record that takes `before` to `after` reverts `after` to `before` and applies
`before` to `after`. -/
theorem takes_revert_apply (a : entryModifyAction) (before after : List Char)
    (h : a.Takes before after) : a.revert after = before ∧ a.apply before = after := by
  unfold entryModifyAction.Takes at h
  unfold entryModifyAction.revert entryModifyAction.apply
  by_cases hd : a.Delete = true
  · simp only [hd, if_true] at h ⊢
    exact ⟨h.2.symm, inserted_remove h⟩
  · simp only [hd, if_false] at h ⊢
    exact ⟨inserted_remove h, h.2.symm⟩

/-- Merging keeps the meaning: when `b` takes `t0` to `t1`, `a` takes `t1` to `t2`
and the two merge into `m`, then `m` takes `t0` to `t2` and holds the first cursor
of `b` and the last cursor of `a`. -/
theorem tryMerge_takes (b a m : entryModifyAction) (t0 t1 t2 : List Char)
    (hb : b.Takes t0 t1) (ha : a.Takes t1 t2) (hm : entryModifyAction.TryMerge b a = some m) :
    m.Takes t0 t2 ∧ m.cursorFrom = b.cursorFrom ∧ m.cursorTo = a.cursorTo := by
  unfold entryModifyAction.TryMerge at hm
  unfold entryModifyAction.Takes at hb ha ⊢
  by_cases h1 : b.Delete = false ∧ a.Delete = false
  · rw [if_pos h1] at hm
    split_ifs at hm with h2
    simp only [Option.some.injEq] at hm
    subst hm
    refine ⟨?_, rfl, rfl⟩
    simp only [h1.1, h1.2, Bool.false_eq_true, if_false] at hb ha ⊢
    rw [← h2.1] at ha
    exact inserted_merge hb ha
  · rw [if_neg h1] at hm
    by_cases h3 : b.Delete = true ∧ a.Delete = true
    · rw [if_pos h3] at hm
      split_ifs at hm with h4
      simp only [Option.some.injEq] at hm
      subst hm
      refine ⟨?_, rfl, rfl⟩
      simp only [h3.1, h3.2, if_true] at hb ha ⊢
      exact deleted_merge hb ha h4
    · rw [if_neg h3] at hm
      simp at hm

theorem eraseSelection_none (e : Entry) (h : e.selectStart = none) : e.eraseSelection = e := by
  unfold Entry.eraseSelection
  rw [h]

/-- The length of the text after an applicable record. -/
theorem apply_length (a : entryModifyAction) (text : List Char) (h : a.Applicable text) :
    (a.Delete = false → (a.apply text).length = text.length + a.Text.length) ∧
    (a.Delete = true → (a.apply text).length + a.Text.length = text.length) := by
  have ht := applicable_takes a text h
  unfold entryModifyAction.Takes at ht
  constructor
  · intro hd
    rw [hd] at ht
    exact inserted_length ht
  · intro hd
    rw [hd] at ht
    exact (inserted_length ht).symm

/-- A key that changes an entry without selection records one applicable edit,
which starts at the cursor and leaves the cursor inside the text. -/
theorem key_spec (e : Entry) (k : EditKey) (a : entryModifyAction) (hsel : e.selectStart = none)
    (hc : e.cursor ≤ e.Text.length) (hk : e.keyAction k = some a) :
    e.key k = e.record a true ∧ a.Applicable e.Text ∧ a.cursorFrom = e.cursor ∧
      a.cursorTo ≤ (a.apply e.Text).length := by
  cases k with
  | rune r =>
    simp only [Entry.keyAction] at hk
    by_cases hn : r = '\n' ∧ e.MultiLine = false
    · rw [if_pos hn] at hk; simp at hk
    · rw [if_neg hn] at hk
      simp only [Option.some.injEq] at hk
      subst hk
      have happ : (e.typedAction r).Applicable e.Text := by
        simp [entryModifyAction.Applicable, Entry.typedAction, hc]
      refine ⟨?_, happ, rfl, ?_⟩
      · show e.TypedRune r = _
        unfold Entry.TypedRune
        rw [if_neg hn]
        simp only [eraseSelection_none e hsel]
      · rw [(apply_length _ _ happ).1 rfl]
        simp [Entry.typedAction]
        omega
  | backspace =>
    simp only [Entry.keyAction] at hk
    by_cases h0 : e.cursor = 0
    · rw [if_pos h0] at hk; simp at hk
    · rw [if_neg h0] at hk
      simp only [Option.some.injEq] at hk
      subst hk
      have hlen : ((e.Text.drop (e.cursor - 1)).take 1).length = 1 := by
        simp [List.length_take, List.length_drop]; omega
      have happ : e.backspaceAction.Applicable e.Text := by
        simp only [entryModifyAction.Applicable, Entry.backspaceAction, if_true, hlen]
        exact ⟨by omega, trivial⟩
      refine ⟨?_, happ, rfl, ?_⟩
      · show e.Backspace = _
        unfold Entry.Backspace
        rw [hsel]
        simp [h0]
      · have := (apply_length _ _ happ).2 rfl
        simp only [Entry.backspaceAction, hlen] at this ⊢
        omega
  | delete =>
    simp only [Entry.keyAction] at hk
    by_cases h0 : e.Text.length ≤ e.cursor
    · rw [if_pos h0] at hk; simp at hk
    · rw [if_neg h0] at hk
      simp only [Option.some.injEq] at hk
      subst hk
      have hlen : ((e.Text.drop e.cursor).take 1).length = 1 := by
        simp [List.length_take, List.length_drop]; omega
      have happ : e.deleteAction.Applicable e.Text := by
        simp only [entryModifyAction.Applicable, Entry.deleteAction, if_true, hlen]
        exact ⟨by omega, trivial⟩
      refine ⟨?_, happ, rfl, ?_⟩
      · show e.Delete = _
        unfold Entry.Delete
        rw [hsel]
        simp [h0]
      · have := (apply_length _ _ happ).2 rfl
        simp only [Entry.deleteAction, hlen] at this ⊢
        omega

/-- An edit that does not coalesce is pushed on the undo stack. -/
theorem record_push (e : Entry) (a : entryModifyAction) (c : Bool)
    (h : c = false ∨ e.coalesces a = false) :
    (e.record a c).undoStack = a :: e.undoStack := by
  unfold Entry.record
  simp only
  rcases h with h | h
  · simp [h]
  · unfold Entry.coalesces at h
    by_cases hcl : (c && !e.closed) = true
    · rw [if_pos hcl]
      have hcl2 : e.closed = false := by
        simp only [Bool.and_eq_true, Bool.not_eq_true'] at hcl
        exact hcl.2
      rw [hcl2] at h
      cases hs : e.undoStack with
      | nil => rfl
      | cons top rest =>
        rw [hs] at h
        simp only [Bool.not_false, Bool.true_and] at h
        cases hm : entryModifyAction.TryMerge top a with
        | none => simp only [hm]
        | some m => rw [hm] at h; simp at h
    · rw [if_neg hcl]

/-- An edit that coalesces replaces the record on top of the undo stack by the
merged record. -/
theorem record_merge (e : Entry) (a : entryModifyAction) (h : e.coalesces a = true) :
    ∃ top rest m, e.undoStack = top :: rest ∧ entryModifyAction.TryMerge top a = some m ∧
      (e.record a true).undoStack = m :: rest := by
  unfold Entry.coalesces at h
  simp only [Bool.and_eq_true, Bool.not_eq_true'] at h
  obtain ⟨hcl, h2⟩ := h
  cases hs : e.undoStack with
  | nil => rw [hs] at h2; simp at h2
  | cons top rest =>
    rw [hs] at h2
    simp only at h2
    cases hm : entryModifyAction.TryMerge top a with
    | none => rw [hm] at h2; simp at h2
    | some m =>
      refine ⟨top, rest, m, rfl, hm, ?_⟩
      unfold Entry.record
      simp only [hcl, hs, hm, Bool.not_false, Bool.and_self, if_true]

/-- The fields of the entry after a recorded edit. -/
theorem record_fields (e : Entry) (a : entryModifyAction) (c : Bool) :
    (e.record a c).Text = a.apply e.Text ∧ (e.record a c).cursor = a.cursorTo ∧
    (e.record a c).selectStart = none ∧ (e.record a c).redoStack = [] :=
  ⟨rfl, rfl, rfl, rfl⟩

/-- A word delete records one applicable edit, which starts at the cursor and
leaves the cursor inside the text. -/
theorem deleteWord_spec (e : Entry) (boundary : Nat) (hc : e.cursor ≤ e.Text.length)
    (hb : boundary ≤ e.Text.length) (hne : boundary ≠ e.cursor) :
    e.deleteWord boundary = e.record (e.deleteWordAction boundary) false ∧
    (e.deleteWordAction boundary).Applicable e.Text ∧
    (e.deleteWordAction boundary).cursorFrom = e.cursor ∧
    (e.deleteWordAction boundary).cursorTo ≤ ((e.deleteWordAction boundary).apply e.Text).length := by
  have hlen : ((e.Text.drop (min boundary e.cursor)).take
      (max boundary e.cursor - min boundary e.cursor)).length =
      max boundary e.cursor - min boundary e.cursor := by
    simp only [List.length_take, List.length_drop]
    omega
  have happ : (e.deleteWordAction boundary).Applicable e.Text := by
    simp only [entryModifyAction.Applicable, Entry.deleteWordAction, if_true, hlen]
    exact ⟨by omega, trivial⟩
  refine ⟨?_, happ, rfl, ?_⟩
  · unfold Entry.deleteWord
    rw [if_neg hne]
  · have := (apply_length _ _ happ).2 rfl
    simp only [Entry.deleteWordAction, hlen] at this ⊢
    omega

/-- One edit operation recorded as one record leaves the entry in the state
`Recorded`. -/
theorem oneRecordEdit_recorded (e0 e : Entry) (h : OneRecordEdit e0 e) : Entry.Recorded e0 e := by
  induction h with
  | first k a hsel hc hk hco =>
    obtain ⟨h1, h2, h3, h4⟩ := key_spec e0 k a hsel hc hk
    rw [h1]
    exact ⟨a, record_push e0 a true (Or.inr hco), h3, rfl, applicable_takes a e0.Text h2, rfl, h4⟩
  | more e k a _ hk hco ih =>
    obtain ⟨b, hb1, hb2, hb3, hb4, hb5, hb6⟩ := ih
    obtain ⟨h1, h2, h3, h4⟩ := key_spec e k a hb5 hb6 hk
    obtain ⟨top, rest, m, hs, hm, hr⟩ := record_merge e a hco
    rw [hb1] at hs
    injection hs with hs1 hs2
    subst hs1 hs2
    obtain ⟨m1, m2, m3⟩ := tryMerge_takes b a m e0.Text e.Text (a.apply e.Text) hb4
      (applicable_takes a e.Text h2) hm
    rw [h1]
    exact ⟨m, hr, m2.trans hb2, m3, m1, rfl, h4⟩
  | word boundary hsel hc hb hne =>
    obtain ⟨h1, h2, h3, h4⟩ := deleteWord_spec e0 boundary hc hb hne
    rw [h1]
    exact ⟨_, record_push e0 _ false (Or.inl rfl), h3, rfl, applicable_takes _ e0.Text h2, rfl, h4⟩

/-- The undo/redo law of a recorded edit: `Undo` restores text and cursor, and
`Redo` after it restores the text and cursor after the edit. -/
theorem recorded_undo_redo (e0 e : Entry) (h : Entry.Recorded e0 e) :
    (e.Undo.Text = e0.Text ∧ e.Undo.cursor = e0.cursor) ∧
    (e.Undo.Redo.Text = e.Text ∧ e.Undo.Redo.cursor = e.cursor) := by
  obtain ⟨b, hb1, hb2, hb3, hb4, _, _⟩ := h
  obtain ⟨r1, r2⟩ := takes_revert_apply b e0.Text e.Text hb4
  have hu : e.Undo = ⟨b.revert e.Text, e.MultiLine, e.Password, b.cursorFrom, none,
      e0.undoStack, b :: e.redoStack, true⟩ := by
    unfold Entry.Undo
    rw [hb1]
  rw [hu]
  refine ⟨⟨r1, hb2⟩, ?_⟩
  unfold Entry.Redo
  simp only
  rw [r1]
  exact ⟨r2, hb3⟩

theorem undo_mk (T : List Char) (m p : Bool) (c : Nat) (s : Option Nat) (b : entryModifyAction)
    (rest redo : List entryModifyAction) (cl : Bool) :
    (Entry.mk T m p c s (b :: rest) redo cl).Undo =
      ⟨b.revert T, m, p, b.cursorFrom, none, rest, b :: redo, true⟩ := rfl

theorem redo_mk (T : List Char) (m p : Bool) (c : Nat) (s : Option Nat) (b : entryModifyAction)
    (undo rest : List entryModifyAction) (cl : Bool) :
    (Entry.mk T m p c s undo (b :: rest) cl).Redo =
      ⟨b.apply T, m, p, b.cursorTo, none, b :: undo, rest, true⟩ := rfl

theorem undo_step (e : Entry) (b : entryModifyAction) (rest : List entryModifyAction)
    (h : e.undoStack = b :: rest) :
    e.Undo = ⟨b.revert e.Text, e.MultiLine, e.Password, b.cursorFrom, none, rest,
      b :: e.redoStack, true⟩ := by
  unfold Entry.Undo
  rw [h]

/-- A rune typed over a selection is recorded as two records, the deletion of the
selection and the insertion: one `Undo` gives the text without the selection, a
second `Undo` restores text and cursor, and two `Redo`s give the text and cursor
after the replacement again. -/
theorem typedRune_over_selection (x : Entry) (anchor : Nat) (r : Char)
    (hsel : x.selectStart = some anchor) (hne : anchor ≠ x.cursor)
    (ha : anchor ≤ x.Text.length) (hc : x.cursor ≤ x.Text.length)
    (hr : ¬ (r = '\n' ∧ x.MultiLine = false)) :
    (x.TypedRune r).Undo.Text = x.eraseSelection.Text ∧
    (x.TypedRune r).Undo.Undo.Text = x.Text ∧ (x.TypedRune r).Undo.Undo.cursor = x.cursor ∧
    (x.TypedRune r).Undo.Undo.Redo.Redo.Text = (x.TypedRune r).Text ∧
    (x.TypedRune r).Undo.Undo.Redo.Redo.cursor = (x.TypedRune r).cursor := by
  -- the deletion of the selection
  obtain ⟨d, hd⟩ : ∃ d : entryModifyAction, d = ⟨true, min anchor x.cursor,
      (x.Text.drop (min anchor x.cursor)).take (max anchor x.cursor - min anchor x.cursor),
      x.cursor, min anchor x.cursor⟩ := ⟨_, rfl⟩
  have hlen : d.Text.length = max anchor x.cursor - min anchor x.cursor := by
    rw [hd]
    simp only [List.length_take, List.length_drop]
    omega
  have hdapp : d.Applicable x.Text := by
    unfold entryModifyAction.Applicable
    rw [hlen]
    rw [hd]
    simp only [if_true]
    exact ⟨by omega, trivial⟩
  have he1 : x.eraseSelection = x.record d false := by
    unfold Entry.eraseSelection
    rw [hsel]
    simp only
    rw [if_neg (by omega), hd]
  have hdt := takes_revert_apply d x.Text (d.apply x.Text) (applicable_takes d x.Text hdapp)
  have hdlen := (apply_length d x.Text hdapp).2 (by rw [hd])
  -- the insertion of the rune
  obtain ⟨a, hadef⟩ : ∃ a : entryModifyAction, a = (x.record d false).typedAction r := ⟨_, rfl⟩
  have haapp : a.Applicable (d.apply x.Text) := by
    rw [hadef]
    simp only [entryModifyAction.Applicable, Entry.typedAction, Entry.record, Bool.false_eq_true,
      if_false]
    have hpos : d.cursorTo = min anchor x.cursor := by rw [hd]
    rw [hpos]
    omega
  have hat := takes_revert_apply a (d.apply x.Text) (a.apply (d.apply x.Text))
    (applicable_takes a _ haapp)
  have he2 : x.TypedRune r = (x.record d false).record a true := by
    unfold Entry.TypedRune
    rw [if_neg hr]
    simp only
    rw [he1, hadef]
  have hstack : ((x.record d false).record a true).undoStack = a :: d :: x.undoStack := by
    rw [record_push _ a true (Or.inr (by simp [Entry.coalesces, Entry.record])),
      record_push x d false (Or.inl rfl)]
  rw [he2, he1]
  rw [undo_step _ a (d :: x.undoStack) hstack]
  simp only [record_fields]
  rw [hat.1]
  refine ⟨rfl, ?_⟩
  simp only [undo_mk, redo_mk]
  rw [hdt.1]
  exact ⟨rfl, by rw [hd], rfl, trivial⟩

/-- The text after the deletion of a non-empty selection: the runes before the
selection followed by the runes after it. -/
theorem eraseSelection_text (x : Entry) (anchor : Nat)
    (hsel : x.selectStart = some anchor) (hne : anchor ≠ x.cursor)
    (ha : anchor ≤ x.Text.length) (hc : x.cursor ≤ x.Text.length) :
    x.eraseSelection.Text =
      x.Text.take (min anchor x.cursor) ++ x.Text.drop (max anchor x.cursor) := by
  unfold Entry.eraseSelection
  rw [hsel]
  simp only
  rw [if_neg (by omega)]
  simp only [Entry.record, entryModifyAction.apply, if_true, List.length_take, List.length_drop]
  congr 2
  omega

/-- C18 as stated fails for a selection replace: as in
`TestEntry_UndoRedo_Replace`, typing `z` over the selection `cd` of `àbcdéf` gives
`àbzéf`, and one `Undo` then gives `àbéf`, not the text before the edit. -/
theorem undo_after_replace_keeps_deletion :
    replaceEntry.Text = ['à', 'b', 'c', 'd', 'é', 'f'] ∧
    (replaceEntry.TypedRune 'z').Text = ['à', 'b', 'z', 'é', 'f'] ∧
    (replaceEntry.TypedRune 'z').Undo.Text = ['à', 'b', 'é', 'f'] ∧
    (replaceEntry.TypedRune 'z').Undo.Text ≠ replaceEntry.Text := by
  refine ⟨rfl, by decide, by decide, by decide⟩

/-- C18, amended: undo/redo inverse law for the entry.  For every edit operation
that is recorded as one undo record (a coalesced burst of typed runes, of
Backspaces or of Deletes, or a word delete), the operation followed by `Undo`
restores the text and the cursor (offset, row and column) of the state before it,
and the operation followed by `Undo` and `Redo` restores the text and the cursor
after it.  A rune typed over a selection is two records, the deletion of the
selection and the insertion: one `Undo` gives the text with the selection deleted
(the runes before the selection followed by the runes after it), two `Undo`s
restore the text and cursor before it, and two `Undo`s and two `Redo`s the text
and cursor after it.  `Undo` with nothing to undo and `Redo` with nothing to redo
leave the entry unchanged. -/
theorem undo_redo_inverse (e0 e : Entry) (h : OneRecordEdit e0 e) :
    (e.Undo.Text = e0.Text ∧ e.Undo.cursor = e0.cursor ∧
      e.Undo.CursorRow = e0.CursorRow ∧ e.Undo.CursorColumn = e0.CursorColumn) ∧
    (e.Undo.Redo.Text = e.Text ∧ e.Undo.Redo.cursor = e.cursor ∧
      e.Undo.Redo.CursorRow = e.CursorRow ∧ e.Undo.Redo.CursorColumn = e.CursorColumn) ∧
    (∀ (x : Entry) (anchor : Nat) (r : Char), x.selectStart = some anchor → anchor ≠ x.cursor →
      anchor ≤ x.Text.length → x.cursor ≤ x.Text.length → ¬ (r = '\n' ∧ x.MultiLine = false) →
      (x.TypedRune r).Undo.Text =
        x.Text.take (min anchor x.cursor) ++ x.Text.drop (max anchor x.cursor) ∧
      (x.TypedRune r).Undo.Undo.Text = x.Text ∧ (x.TypedRune r).Undo.Undo.cursor = x.cursor ∧
      (x.TypedRune r).Undo.Undo.Redo.Redo.Text = (x.TypedRune r).Text ∧
      (x.TypedRune r).Undo.Undo.Redo.Redo.cursor = (x.TypedRune r).cursor) ∧
    (∀ x : Entry, x.undoStack = [] → x.Undo = x) ∧
    (∀ x : Entry, x.redoStack = [] → x.Redo = x) := by
  obtain ⟨⟨u1, u2⟩, ⟨r1, r2⟩⟩ := recorded_undo_redo e0 e (oneRecordEdit_recorded e0 e h)
  refine ⟨⟨u1, u2, ?_, ?_⟩, ⟨r1, r2, ?_, ?_⟩, ?_, ?_, ?_⟩
  · unfold Entry.CursorRow; rw [u1, u2]
  · unfold Entry.CursorColumn; rw [u1, u2]
  · unfold Entry.CursorRow; rw [r1, r2]
  · unfold Entry.CursorColumn; rw [r1, r2]
  · intro x anchor r hsel hne ha hc hr
    obtain ⟨h1, h2⟩ := typedRune_over_selection x anchor r hsel hne ha hc hr
    exact ⟨h1.trans (eraseSelection_text x anchor hsel hne ha hc), h2⟩
  · intro x hx
    unfold Entry.Undo
    rw [hx]
  · intro x hx
    unfold Entry.Redo
    rw [hx]

theorem undo_redo_inverse_witness :
    ((NewEntry.TypedRune 'a').TypedRune 'b').Text = ['a', 'b'] ∧
    ((NewEntry.TypedRune 'a').TypedRune 'b').Undo.Text = [] ∧
    ((NewEntry.TypedRune 'a').TypedRune 'b').Undo.Redo.Text = ['a', 'b'] ∧
    ((NewEntry.TypedRune 'a').TypedRune 'b').Undo.Redo.cursor = 2 ∧
    (replaceEntry.TypedRune 'z').Undo.Text = ['à', 'b', 'é', 'f'] ∧
    (replaceEntry.TypedRune 'z').Undo.Undo.Text = ['à', 'b', 'c', 'd', 'é', 'f'] := by
  have h := undo_redo_inverse NewEntry ((NewEntry.key (EditKey.rune 'a')).key (EditKey.rune 'b'))
    (OneRecordEdit.more NewEntry (NewEntry.key (EditKey.rune 'a')) (EditKey.rune 'b')
      ⟨false, 1, ['b'], 1, 2⟩
      (OneRecordEdit.first NewEntry (EditKey.rune 'a') ⟨false, 0, ['a'], 0, 1⟩ rfl (by decide)
        (by decide) (by decide))
      (by decide) (by decide))
  have hz := h.2.2.1 replaceEntry 2 'z' rfl (by decide) (by decide) (by decide) (by decide)
  exact ⟨by decide, h.1.1, h.2.1.1, h.2.1.2.1, hz.1, hz.2.1⟩

theorem textLines_ne (t : List Char) : textLines t ≠ [] := by
  cases t with
  | nil => simp [textLines]
  | cons ch cs =>
    unfold textLines
    split
    · simp
    · split <;> simp

/-- The row and column count over a whole text, started at row `r` and column `c`:
the row advances by the number of lines less one, and the column is the length of
the last line, after `c` when the text is one line. -/
theorem rowCol_fold (t : List Char) : ∀ r c : Nat,
    t.foldl rowColStep (r, c) =
      (r + (textLines t).length - 1,
        if (textLines t).length = 1 then c + ((textLines t).getLast?.getD []).length
        else ((textLines t).getLast?.getD []).length) := by
  induction t with
  | nil => intro r c; simp [textLines]
  | cons ch cs ih =>
    intro r c
    have hne := textLines_ne cs
    rw [List.foldl_cons]
    by_cases hch : ch = '\n'
    · have hl : textLines (ch :: cs) = [] :: textLines cs := by
        rw [textLines, if_pos hch]
      have hs : rowColStep (r, c) ch = (r + 1, 0) := by
        unfold rowColStep
        rw [if_pos hch]
      rw [hs, ih, hl]
      cases hcs : textLines cs with
      | nil => exact absurd hcs hne
      | cons l ls =>
        simp only [List.length_cons, List.getLast?_cons_cons]
        refine Prod.ext (by simp only; omega) ?_
        simp only
        split <;> simp
    · have hs : rowColStep (r, c) ch = (r, c + 1) := by
        unfold rowColStep
        rw [if_neg hch]
      rw [hs, ih]
      cases hcs : textLines cs with
      | nil => exact absurd hcs hne
      | cons l ls =>
        have hl : textLines (ch :: cs) = (ch :: l) :: ls := by
          rw [textLines, if_neg hch, hcs]
        rw [hl]
        cases ls with
        | nil => simp; omega
        | cons l2 ls2 => simp [List.getLast?_cons_cons]

theorem rowCol_fold_line (t : List Char) (h : ∀ ch ∈ t, ch ≠ '\n') : ∀ r c : Nat,
    t.foldl rowColStep (r, c) = (r, c + t.length) := by
  induction t with
  | nil => intro r c; rfl
  | cons ch cs ih =>
    intro r c
    have hch : ch ≠ '\n' := h ch (List.mem_cons_self _ _)
    rw [List.foldl_cons]
    have hs : rowColStep (r, c) ch = (r, c + 1) := by
      unfold rowColStep
      rw [if_neg hch]
    rw [hs, ih (fun x hx => h x (List.mem_cons_of_mem _ hx)), List.length_cons]
    refine Prod.ext rfl ?_
    simp only
    omega

/-- Pasting into an entry with empty text and no selection leaves the pasted text,
with the newlines replaced in single-line mode, and the cursor at its end. -/
theorem paste_into_empty (e : Entry) (content : List Char) (ht : e.Text = [])
    (hc : e.cursor = 0) (hs : e.selectStart = none) :
    (e.Paste content).Text =
      (if e.MultiLine then content else content.map (fun c => if c = '\n' then ' ' else c)) ∧
    (e.Paste content).cursor =
      (if e.MultiLine then content else
        content.map (fun c => if c = '\n' then ' ' else c)).length := by
  have he : e.eraseSelection = e := by
    unfold Entry.eraseSelection
    rw [hs]
  unfold Entry.Paste
  simp only [he]
  generalize (if e.MultiLine then content
    else content.map (fun c => if c = '\n' then ' ' else c)) = text
  by_cases h : text = []
  · rw [if_pos h, h]
    exact ⟨ht, hc⟩
  · rw [if_neg h]
    simp only [record_fields, entryModifyAction.apply, ht, hc, Bool.false_eq_true, if_false,
      List.take_nil, List.drop_nil, List.nil_append, List.append_nil, Nat.zero_add]
    exact ⟨trivial, trivial⟩

/-- C19: paste into an empty entry.  For every clipboard content, pasted into an
empty single-line entry or an empty password entry the text is the content with
every newline replaced by one space and every other rune, so every tab, kept in
place, and the cursor ends at row 0 and at the column equal to the number of runes
pasted; pasted into an empty multi-line entry the text is the content unchanged and
the cursor ends on the last pasted row, at the column equal to the rune length of
that row. -/
theorem paste_into_empty_entry (content : List Char) :
    (∀ e : Entry, e = NewEntry ∨ e = NewPasswordEntry →
      (e.Paste content).Text = content.map (fun c => if c = '\n' then ' ' else c) ∧
      (e.Paste content).Text.length = content.length ∧
      (∀ i : Nat, content[i]? = some '\n' → (e.Paste content).Text[i]? = some ' ') ∧
      (∀ (i : Nat) (c : Char), c ≠ '\n' → content[i]? = some c →
        (e.Paste content).Text[i]? = some c) ∧
      (e.Paste content).CursorRow = 0 ∧
      (e.Paste content).CursorColumn = content.length) ∧
    ((NewMultiLineEntry.Paste content).Text = content ∧
      (NewMultiLineEntry.Paste content).CursorRow = (textLines content).length - 1 ∧
      (NewMultiLineEntry.Paste content).CursorColumn =
        ((textLines content).getLast?.getD []).length) := by
  constructor
  · intro e he
    have hp : (e.Paste content).Text = content.map (fun c => if c = '\n' then ' ' else c) ∧
        (e.Paste content).cursor = (content.map (fun c => if c = '\n' then ' ' else c)).length := by
      rcases he with he | he <;> rw [he]
      · exact paste_into_empty NewEntry content rfl rfl rfl
      · exact paste_into_empty NewPasswordEntry content rfl rfl rfl
    have hline : ∀ ch ∈ content.map (fun c => if c = '\n' then ' ' else c), ch ≠ '\n' := by
      intro ch hch
      rw [List.mem_map] at hch
      obtain ⟨c, _, hc⟩ := hch
      rw [← hc]
      split
      · decide
      · assumption
    have hrc : rowColFromTextPos (e.Paste content).Text (e.Paste content).cursor =
        (0, content.length) := by
      unfold rowColFromTextPos
      rw [hp.1, hp.2, List.take_length, rowCol_fold_line _ hline, List.length_map, Nat.zero_add]
    refine ⟨hp.1, by rw [hp.1, List.length_map], ?_, ?_, ?_, ?_⟩
    · intro i hi
      rw [hp.1, List.getElem?_map, hi]
      rfl
    · intro i c hc hi
      rw [hp.1, List.getElem?_map, hi]
      simp only [Option.map_some', if_neg hc]
    · unfold Entry.CursorRow
      rw [hrc]
    · unfold Entry.CursorColumn
      rw [hrc]
  · have hp := paste_into_empty NewMultiLineEntry content rfl rfl rfl
    have hm : NewMultiLineEntry.MultiLine = true := rfl
    rw [hm] at hp
    simp only [if_true] at hp
    have hrc : rowColFromTextPos (NewMultiLineEntry.Paste content).Text
        (NewMultiLineEntry.Paste content).cursor =
        (0 + (textLines content).length - 1,
          if (textLines content).length = 1 then
            0 + ((textLines content).getLast?.getD []).length
          else ((textLines content).getLast?.getD []).length) := by
      unfold rowColFromTextPos
      rw [hp.1, hp.2, List.take_length, rowCol_fold]
    refine ⟨hp.1, ?_, ?_⟩
    · unfold Entry.CursorRow
      rw [hrc, Nat.zero_add]
    · unfold Entry.CursorColumn
      rw [hrc]
      simp only [Nat.zero_add, ite_self]

theorem paste_into_empty_entry_witness :
    (NewEntry.Paste ['a', '\n', '\t']).Text = ['a', ' ', '\t'] ∧
    (NewPasswordEntry.Paste ['a', '\n', '\t']).Text[2]? = some '\t' ∧
    (NewEntry.Paste ['a', '\n', '\t']).CursorColumn = 3 ∧
    (NewMultiLineEntry.Paste ['a', '\n', '\t']).CursorRow = 1 ∧
    (NewMultiLineEntry.Paste ['a', '\n', '\t']).CursorColumn = 1 := by
  have h := paste_into_empty_entry ['a', '\n', '\t']
  exact ⟨(h.1 NewEntry (Or.inl rfl)).1,
    (h.1 NewPasswordEntry (Or.inr rfl)).2.2.2.1 2 '\t' (by decide) rfl,
    (h.1 NewEntry (Or.inl rfl)).2.2.2.2.2, h.2.2.1, h.2.2.2⟩

/-- The paste cases of `TestEntry_OnPaste` and `TestEntry_PasteUnicode`: the
single-line and password entries end at row 0, column 17, the multi-line entry at
row 1, column 7, and the pasted `thing {\nitem: 'val测试'\n}` ends at row 2,
column 1. -/
theorem paste_test_cases :
    (NewEntry.Paste "clipboard\ncontent".toList).Text = "clipboard content".toList ∧
    (NewEntry.Paste "clipboard\ncontent".toList).CursorRow = 0 ∧
    (NewEntry.Paste "clipboard\ncontent".toList).CursorColumn = 17 ∧
    (NewPasswordEntry.Paste "clipboard\ncontent".toList).Text = "clipboard content".toList ∧
    (NewEntry.Paste "clipboard\tcontent".toList).Text = "clipboard\tcontent".toList ∧
    (NewMultiLineEntry.Paste "clipboard\ncontent".toList).Text = "clipboard\ncontent".toList ∧
    (NewMultiLineEntry.Paste "clipboard\ncontent".toList).CursorRow = 1 ∧
    (NewMultiLineEntry.Paste "clipboard\ncontent".toList).CursorColumn = 7 ∧
    (NewMultiLineEntry.Paste "thing \x7b\n\titem: 'val测试'\n\x7d".toList).CursorRow = 2 ∧
    (NewMultiLineEntry.Paste "thing \x7b\n\titem: 'val测试'\n\x7d".toList).CursorColumn = 1 := by
  refine ⟨by decide, by decide, by decide, by decide, by decide, by decide, by decide, by decide,
    by decide, by decide⟩

theorem openBranch_tree_fields (t : Tree) (uid : String) :
    (t.OpenBranch uid).Root = t.Root ∧
    (t.OpenBranch uid).openMap = (fun k => if k = uid then true else t.openMap k) ∧
    (t.OpenBranch uid).selected = t.selected ∧
    (t.OpenBranch uid).currentFocus = t.currentFocus := by
  unfold Tree.OpenBranch
  simp only
  split <;> exact ⟨rfl, rfl, rfl, rfl⟩

theorem closeBranch_tree_fields (t : Tree) (uid : String) :
    (t.CloseBranch uid).Root = t.Root ∧
    (t.CloseBranch uid).openMap = (fun k => if k = uid then false else t.openMap k) ∧
    (t.CloseBranch uid).selected = t.selected ∧
    (t.CloseBranch uid).currentFocus = t.currentFocus := by
  unfold Tree.CloseBranch
  simp only
  split <;> exact ⟨rfl, rfl, rfl, rfl⟩

/-- C29: `OpenBranch(uid)` and `CloseBranch(uid)` change the open state of `uid`
only.  For every tree state and every id `v` different from `uid`,
`IsBranchOpen(v)` is the same before and after either call, and the selection,
`currentFocus` and `Root` are unchanged; after `OpenBranch(uid)`,
`IsBranchOpen(uid)` is true, and after `CloseBranch(uid)` with `uid` different
from `Root`, `IsBranchOpen(uid)` is false.  (The trailing `Refresh` of either
call writes none of the open map, the selection, `currentFocus` and `Root`.) -/
theorem openBranch_closeBranch_frame (t : Tree) (uid : String) :
    (∀ v, v ≠ uid →
      (t.OpenBranch uid).IsBranchOpen v = t.IsBranchOpen v ∧
      (t.CloseBranch uid).IsBranchOpen v = t.IsBranchOpen v) ∧
    ((t.OpenBranch uid).selected = t.selected ∧
      (t.OpenBranch uid).currentFocus = t.currentFocus ∧ (t.OpenBranch uid).Root = t.Root) ∧
    ((t.CloseBranch uid).selected = t.selected ∧
      (t.CloseBranch uid).currentFocus = t.currentFocus ∧ (t.CloseBranch uid).Root = t.Root) ∧
    (t.OpenBranch uid).IsBranchOpen uid = true ∧
    (uid ≠ t.Root → (t.CloseBranch uid).IsBranchOpen uid = false) := by
  obtain ⟨o1, o2, o3, o4⟩ := openBranch_tree_fields t uid
  obtain ⟨c1, c2, c3, c4⟩ := closeBranch_tree_fields t uid
  refine ⟨?_, ⟨o3, o4, o1⟩, ⟨c3, c4, c1⟩, ?_, ?_⟩
  · intro v hv
    unfold Tree.IsBranchOpen
    rw [o1, o2, c1, c2]
    simp only [if_neg hv, and_self]
  · unfold Tree.IsBranchOpen
    rw [o1, o2]
    simp only [if_true, ite_self]
  · intro hne
    unfold Tree.IsBranchOpen
    rw [c1, c2]
    simp only [if_neg hne, if_true]

theorem openBranch_closeBranch_frame_witness :
    (scenarioTree.OpenBranch "B").IsBranchOpen "A" = true ∧
    (scenarioTree.CloseBranch "A").IsBranchOpen "B" = false ∧
    (scenarioTree.OpenBranch "B").IsBranchOpen "B" = true ∧
    (scenarioTree.CloseBranch "A").IsBranchOpen "A" = false := by
  have hA := openBranch_closeBranch_frame scenarioTree "A"
  have hB := openBranch_closeBranch_frame scenarioTree "B"
  exact ⟨(hB.1 "A" (by decide)).1, (hA.1 "B" (by decide)).2, hB.2.2.2.1,
    hA.2.2.2.2 (by decide)⟩

/-! ## Lemmas on the key modifiers -/

theorem int_testBit_ext (x y : Int) (h : ∀ j, x.testBit j = y.testBit j) : x = y := by
  have hbig : ∀ a j : Nat, a ≤ j → a.testBit j = false := fun a j haj =>
    Nat.testBit_lt_two_pow (lt_of_lt_of_le a.lt_two_pow (Nat.pow_le_pow_right (by decide) haj))
  cases x with
  | ofNat a =>
    cases y with
    | ofNat b =>
      congr 1
      exact Nat.eq_of_testBit_eq h
    | negSucc b =>
      exfalso
      have := h (max a b)
      simp only [Int.testBit, hbig a _ (le_max_left a b), hbig b _ (le_max_right a b)] at this
      exact absurd this (by decide)
  | negSucc a =>
    cases y with
    | ofNat b =>
      exfalso
      have := h (max a b)
      simp only [Int.testBit, hbig a _ (le_max_left a b), hbig b _ (le_max_right a b)] at this
      exact absurd this (by decide)
    | negSucc b =>
      congr 1
      apply Nat.eq_of_testBit_eq
      intro j
      have := h j
      simp only [Int.testBit] at this
      cases ha : a.testBit j <;> cases hb : b.testBit j <;> simp_all

theorem bitMask_testBit (k j : Nat) : (bitMask k).testBit j = decide (k = j) := by
  unfold bitMask
  show Nat.testBit (2 ^ k) j = _
  exact Nat.testBit_two_pow

theorem int_zero_testBit (j : Nat) : (0 : Int).testBit j = false := by
  show Nat.testBit 0 j = false
  exact Nat.zero_testBit j

theorem bitMask_ne_zero (k : Nat) : bitMask k ≠ 0 := by
  intro h
  have := bitMask_testBit k k
  rw [h, int_zero_testBit] at this
  simp at this

/-- Testing a mask bit: `mods & bit` is the bit when it is set in `mods` and 0
otherwise. -/
theorem land_bitMask (m : Int) (k : Nat) :
    Int.land m (bitMask k) = if m.testBit k then bitMask k else 0 := by
  apply int_testBit_ext
  intro j
  rw [Int.testBit_land, bitMask_testBit]
  by_cases hk : k = j
  · subst hk
    cases hm : m.testBit k
    · simp [int_zero_testBit]
    · simp [bitMask_testBit]
  · cases hm : m.testBit k <;> simp [hk, int_zero_testBit, bitMask_testBit]

theorem land_bitMask_ne_zero (m : Int) (k : Nat) :
    Int.land m (bitMask k) ≠ 0 ↔ m.testBit k = true := by
  rw [land_bitMask]
  cases m.testBit k <;> simp [bitMask_ne_zero]
theorem desktopModifier_testBit (c : KeyConstants) (mods : Int) (j : Nat) :
    (desktopModifier c mods).testBit j =
      ((mods.testBit c.modShiftBit && decide (c.keyModifierShiftBit = j)) ||
        (mods.testBit c.modControlBit && decide (c.keyModifierControlBit = j)) ||
        (mods.testBit c.modAltBit && decide (c.keyModifierAltBit = j)) ||
        (mods.testBit c.modSuperBit && decide (c.keyModifierSuperBit = j))) := by
  unfold desktopModifier
  simp only [KeyConstants.ModShift, KeyConstants.ModControl, KeyConstants.ModAlt,
    KeyConstants.ModSuper, KeyConstants.KeyModifierShift, KeyConstants.KeyModifierControl,
    KeyConstants.KeyModifierAlt, KeyConstants.KeyModifierSuper, land_bitMask_ne_zero]
  cases mods.testBit c.modShiftBit <;> cases mods.testBit c.modControlBit <;>
    cases mods.testBit c.modAltBit <;> cases mods.testBit c.modSuperBit <;>
    simp [Int.testBit_lor, bitMask_testBit, int_zero_testBit]

/-- The result of `desktopModifier` depends on the four mask bits only. -/
theorem desktopModifier_congr (c : KeyConstants) (m1 m2 : Int)
    (h : ∀ k ∈ [c.modShiftBit, c.modControlBit, c.modAltBit, c.modSuperBit],
      m1.testBit k = m2.testBit k) :
    desktopModifier c m1 = desktopModifier c m2 := by
  apply int_testBit_ext
  intro j
  rw [desktopModifier_testBit, desktopModifier_testBit, h _ (by simp), h _ (by simp),
    h _ (by simp), h _ (by simp)]

/-- With distinct bits in the `fyne` mask, each modifier bit of the result of
`desktopModifier` is the corresponding bit of `mods`. -/
theorem desktopModifier_bit (c : KeyConstants) (hd : c.Distinct) (mods : Int)
    (m : Nat × Nat × Int × Int) (hm : m ∈ c.modifiers) :
    (desktopModifier c mods).testBit m.2.1 = mods.testBit m.1 := by
  obtain ⟨-, hf, -, -⟩ := hd
  rw [desktopModifier_testBit]
  simp only [List.nodup_cons, List.mem_cons, List.mem_singleton, not_or, List.not_mem_nil,
    not_false_eq_true, List.nodup_nil, and_true] at hf
  obtain ⟨⟨h1, h2, h3⟩, ⟨h4, h5⟩, h6⟩ := hf
  simp only [KeyConstants.modifiers, List.mem_cons, List.mem_singleton, List.not_mem_nil,
    or_false] at hm
  rcases hm with rfl | rfl | rfl | rfl <;>
    simp [h1, h2, h3, h4, h5, h6, Ne.symm h1, Ne.symm h2, Ne.symm h3, Ne.symm h4, Ne.symm h5,
      Ne.symm h6]

/-- With distinct keys, `glfwKeyToModifier` gives the mask bit of the modifier
whose left or right key is pressed, and 0 for every other key. -/
theorem glfwKeyToModifier_spec (c : KeyConstants) (hd : c.Distinct) (key : Int) :
    (∀ m ∈ c.modifiers, (key = m.2.2.1 ∨ key = m.2.2.2) →
      glfwKeyToModifier c key = bitMask m.1) ∧
    ((∀ m ∈ c.modifiers, ¬ (key = m.2.2.1 ∨ key = m.2.2.2)) → glfwKeyToModifier c key = 0) := by
  obtain ⟨-, -, hk, -⟩ := hd
  simp only [List.nodup_cons, List.mem_cons, List.mem_singleton, not_or, List.not_mem_nil,
    not_false_eq_true, List.nodup_nil, and_true] at hk
  rcases hk with ⟨⟨_, _, _, _, _, _, _⟩, ⟨_, _, _, _, _, _⟩, ⟨_, _, _, _, _⟩, ⟨_, _, _, _⟩,
    ⟨_, _, _⟩, ⟨_, _⟩, _⟩
  have hshift : (key = c.KeyLeftShift ∨ key = c.KeyRightShift) →
      glfwKeyToModifier c key = bitMask c.modShiftBit := by
    intro h
    have n1 : ¬ (key = c.KeyLeftControl ∨ key = c.KeyRightControl) := by
      rintro (e | e) <;> rcases h with h | h <;> subst h <;> have e1 := e.symm <;> contradiction
    have n2 : ¬ (key = c.KeyLeftAlt ∨ key = c.KeyRightAlt) := by
      rintro (e | e) <;> rcases h with h | h <;> subst h <;> have e1 := e.symm <;> contradiction
    unfold glfwKeyToModifier
    rw [if_neg n1, if_neg n2, if_pos h]
    rfl
  have hcontrol : (key = c.KeyLeftControl ∨ key = c.KeyRightControl) →
      glfwKeyToModifier c key = bitMask c.modControlBit := by
    intro h
    unfold glfwKeyToModifier
    rw [if_pos h]
    rfl
  have halt : (key = c.KeyLeftAlt ∨ key = c.KeyRightAlt) →
      glfwKeyToModifier c key = bitMask c.modAltBit := by
    intro h
    have n1 : ¬ (key = c.KeyLeftControl ∨ key = c.KeyRightControl) := by
      rintro (e | e) <;> rcases h with h | h <;> subst h <;> have e1 := e.symm <;> contradiction
    unfold glfwKeyToModifier
    rw [if_neg n1, if_pos h]
    rfl
  have hsuper : (key = c.KeyLeftSuper ∨ key = c.KeyRightSuper) →
      glfwKeyToModifier c key = bitMask c.modSuperBit := by
    intro h
    have n1 : ¬ (key = c.KeyLeftControl ∨ key = c.KeyRightControl) := by
      rintro (e | e) <;> rcases h with h | h <;> subst h <;> have e1 := e.symm <;> contradiction
    have n2 : ¬ (key = c.KeyLeftAlt ∨ key = c.KeyRightAlt) := by
      rintro (e | e) <;> rcases h with h | h <;> subst h <;> have e1 := e.symm <;> contradiction
    have n3 : ¬ (key = c.KeyLeftShift ∨ key = c.KeyRightShift) := by
      rintro (e | e) <;> rcases h with h | h <;> subst h <;> have e1 := e.symm <;> contradiction
    unfold glfwKeyToModifier
    rw [if_neg n1, if_neg n2, if_neg n3, if_pos h]
    rfl
  constructor
  · intro m hm
    simp only [KeyConstants.modifiers, List.mem_cons, List.mem_singleton, List.not_mem_nil,
      or_false] at hm
    rcases hm with rfl | rfl | rfl | rfl
    · exact hshift
    · exact hcontrol
    · exact halt
    · exact hsuper
  · intro h
    have n3 := h _ (List.mem_cons_self _ _)
    have n1 := h _ (List.mem_cons_of_mem _ (List.mem_cons_self _ _))
    have n2 := h _ (List.mem_cons_of_mem _ (List.mem_cons_of_mem _ (List.mem_cons_self _ _)))
    have n4 := h _ (List.mem_cons_of_mem _ (List.mem_cons_of_mem _
      (List.mem_cons_of_mem _ (List.mem_cons_self _ _))))
    unfold glfwKeyToModifier
    rw [if_neg n1, if_neg n2, if_neg n3, if_neg n4]
/-- With distinct bits in the `glfw` mask, two modifiers with the same mask bit
are the same modifier. -/
theorem modifiers_bit_inj (c : KeyConstants) (hd : c.Distinct)
    (m n : Nat × Nat × Int × Int) (hm : m ∈ c.modifiers) (hn : n ∈ c.modifiers)
    (h : m.1 = n.1) : m = n := by
  obtain ⟨hg, -, -, -⟩ := hd
  simp only [List.nodup_cons, List.mem_cons, List.mem_singleton, not_or, List.not_mem_nil,
    not_false_eq_true, List.nodup_nil, and_true] at hg
  rcases hg with ⟨⟨_, _, _⟩, ⟨_, _⟩, _⟩
  simp only [KeyConstants.modifiers, List.mem_cons, List.mem_singleton, List.not_mem_nil,
    or_false] at hm hn
  rcases hm with rfl | rfl | rfl | rfl <;> rcases hn with rfl | rfl | rfl | rfl <;>
    first
    | rfl
    | (exfalso; simp only at h; have h1 := h.symm; contradiction)

/-- The mask bit of a modifier in the corrected mask: set by a press of one of its
keys, cleared by any other action on one of its keys, and the bit of `mods` when
the key is not one of its keys. -/
theorem corrected_bit (c : KeyConstants) (hd : c.Distinct) (mods key action : Int)
    (m : Nat × Nat × Int × Int) (hm : m ∈ c.modifiers) :
    (desktopModifierCorrected c mods key action).testBit m.2.1 =
      if key = m.2.2.1 ∨ key = m.2.2.2 then decide (action = c.Press)
      else mods.testBit m.1 := by
  obtain ⟨hg1, hg0⟩ := glfwKeyToModifier_spec c hd key
  have hg : (glfwKeyToModifier c key).testBit m.1 = decide (key = m.2.2.1 ∨ key = m.2.2.2) := by
    by_cases hk : key = m.2.2.1 ∨ key = m.2.2.2
    · rw [hg1 m hm hk, bitMask_testBit]
      simp [hk]
    · by_cases hex : ∃ n ∈ c.modifiers, key = n.2.2.1 ∨ key = n.2.2.2
      · obtain ⟨n, hn, hkn⟩ := hex
        have hne : n.1 ≠ m.1 := by
          intro e
          have := modifiers_bit_inj c hd n m hn hm e
          rw [this] at hkn
          exact hk hkn
        rw [hg1 n hn hkn, bitMask_testBit]
        simp [hk, hne]
      · have h0 : ∀ n ∈ c.modifiers, ¬ (key = n.2.2.1 ∨ key = n.2.2.2) :=
          fun n hn hkn => hex ⟨n, hn, hkn⟩
        rw [hg0 h0, int_zero_testBit]
        simp [hk]
  unfold desktopModifierCorrected
  simp only
  rw [desktopModifier_bit c hd _ m hm]
  by_cases ha : action = c.Press
  · rw [if_pos ha, Int.testBit_lor, hg]
    by_cases hk : key = m.2.2.1 ∨ key = m.2.2.2 <;> simp [hk, ha]
  · rw [if_neg ha, Int.testBit_land, Int.testBit_lnot, hg]
    by_cases hk : key = m.2.2.1 ∨ key = m.2.2.2 <;> simp [hk, ha]

/-- C30: `desktopModifierCorrected` compensates for a modifier mask that omits the
key being pressed or released.  For every mask `mods`, key and action, and for
each of the four modifiers (shift, control, alt, super): if the key is the left or
the right key of the modifier, the result contains the modifier when the action is
`Press` and does not contain it when the action is `Release`; if the key is not one
of the two keys of the modifier, the result contains the modifier exactly when
`desktopModifier(mods)` does.  For a key that is not a modifier key the result
equals `desktopModifier(mods)`, for every action.  The constants of `glfw` and
`fyne` are parameters, assumed distinct. -/
theorem desktopModifierCorrected_spec (c : KeyConstants) (hd : c.Distinct)
    (mods key action : Int) :
    (∀ m ∈ c.modifiers,
      ((key = m.2.2.1 ∨ key = m.2.2.2) →
        (action = c.Press →
          Int.land (desktopModifierCorrected c mods key action) (bitMask m.2.1) ≠ 0) ∧
        (action = c.Release →
          Int.land (desktopModifierCorrected c mods key action) (bitMask m.2.1) = 0)) ∧
      (¬ (key = m.2.2.1 ∨ key = m.2.2.2) →
        Int.land (desktopModifierCorrected c mods key action) (bitMask m.2.1) =
          Int.land (desktopModifier c mods) (bitMask m.2.1))) ∧
    ((∀ m ∈ c.modifiers, ¬ (key = m.2.2.1 ∨ key = m.2.2.2)) →
      desktopModifierCorrected c mods key action = desktopModifier c mods) := by
  constructor
  · intro m hm
    have hb := corrected_bit c hd mods key action m hm
    constructor
    · intro hk
      rw [if_pos hk] at hb
      constructor
      · intro ha
        rw [land_bitMask_ne_zero, hb]
        simp [ha]
      · intro ha
        have hne : action ≠ c.Press := by
          rw [ha]
          exact Ne.symm hd.2.2.2
        rw [land_bitMask, hb]
        simp [hne]
    · intro hk
      rw [if_neg hk] at hb
      rw [land_bitMask, land_bitMask, hb, desktopModifier_bit c hd mods m hm]
  · intro h0
    obtain ⟨-, hg0⟩ := glfwKeyToModifier_spec c hd key
    unfold desktopModifierCorrected
    simp only
    rw [hg0 h0]
    apply desktopModifier_congr
    intro k _
    by_cases ha : action = c.Press
    · rw [if_pos ha, Int.testBit_lor, int_zero_testBit, Bool.or_false]
    · rw [if_neg ha, Int.testBit_land, Int.testBit_lnot, int_zero_testBit]
      simp

theorem desktopModifierCorrected_spec_witness :
    glfwConstants.Distinct ∧
    desktopModifier glfwConstants 2 = 2 ∧
    desktopModifierCorrected glfwConstants 2 340 1 = 3 ∧
    Int.land (desktopModifierCorrected glfwConstants 2 340 1) 1 ≠ 0 ∧
    Int.land (desktopModifierCorrected glfwConstants 3 340 0) 1 = 0 ∧
    desktopModifierCorrected glfwConstants 3 65 1 = desktopModifier glfwConstants 3 := by
  have hd : glfwConstants.Distinct := by
    unfold KeyConstants.Distinct
    decide
  have h1 := desktopModifierCorrected_spec glfwConstants hd 2 340 1
  have h2 := desktopModifierCorrected_spec glfwConstants hd 3 340 0
  have h3 := desktopModifierCorrected_spec glfwConstants hd 3 65 1
  refine ⟨hd, by decide, by decide, ?_, ?_, ?_⟩
  · exact ((h1.1 (0, 0, 340, 344) (by decide)).1 (Or.inl rfl)).1 rfl
  · exact ((h2.1 (0, 0, 340, 344) (by decide)).1 (Or.inl rfl)).2 rfl
  · exact h3.2 (by decide)

/-- C24 fails on the code: in the scenario tree (padding 4, rows of height 10) the
walk visits the rendered node `A1`, for which `offsetAndSize` returns `y = 10`,
while `Layout` positions the row `A1` at `y = 14`; for `B` they are 24 and 28. -/
theorem offsetAndSize_omits_row_padding :
    wideRenderer.treeContent.tree.offsetAndSize 3 "A1" = .ok ⟨10, ⟨30, 10⟩, true⟩ ∧
    wideRenderer.treeContent.tree.offsetAndSize 3 "B" = .ok ⟨24, ⟨30, 10⟩, true⟩ ∧
    (wideRenderer.Layout 3 ⟨100, 100⟩).map
        (fun r => (r.visible, r.objects.filterMap CanvasObject.rowFrame)) =
      .ok (["A", "A1", "B"],
        [(⟨0, 0⟩, ⟨100, 10⟩), (⟨0, 14⟩, ⟨100, 10⟩), (⟨0, 28⟩, ⟨100, 10⟩)]) :=
  ⟨rfl, rfl, rfl⟩

/-- C27 fails on the code: laying out the unchanged scenario tree a second time
creates a third separator although two are held, lists the separators 1 and 2 in
the objects, and leaves the separator 0 neither listed nor hidden. -/
theorem layout_twice_leaks_separator :
    (wideRenderer.Layout 3 ⟨100, 100⟩).map
        (fun r => (r.separators.map Separator.Hidden,
          r.objects.filterMap CanvasObject.separatorIndex)) =
      .ok ([false, false], [0, 1]) ∧
    ((wideRenderer.Layout 3 ⟨100, 100⟩).bind (fun r => r.Layout 3 ⟨100, 100⟩)).map
        (fun r => (r.separators.map Separator.Hidden,
          r.objects.filterMap CanvasObject.separatorIndex)) =
      .ok ([false, false, false], [1, 2]) :=
  ⟨rfl, rfl⟩

/-- C23 as stated fails: with `HideSeparators` set, padding 4 and rows of height
10, `Layout` lists no separator and still places the rows `A1` and `B` at 14 and
28, not at the sums 10 and 20 of the heights of the earlier rows. -/
theorem layout_hidden_separators_keeps_gap :
    hiddenSeparatorsRenderer.treeContent.tree.HideSeparators = true ∧
    (hiddenSeparatorsRenderer.Layout 3 ⟨100, 100⟩).map
        (fun r => (r.visible, r.objects.filterMap CanvasObject.separatorIndex,
          r.objects.filterMap CanvasObject.rowFrame)) =
      .ok (["A", "A1", "B"], [],
        [(⟨0, 0⟩, ⟨100, 10⟩), (⟨0, 14⟩, ⟨100, 10⟩), (⟨0, 28⟩, ⟨100, 10⟩)]) ∧
    (14 : Int) ≠ 10 :=
  ⟨rfl, rfl, by decide⟩

/-- C22 as stated fails under a theme with negative padding: with padding -20 and
rows of height 10 (positive) and separators enabled, `Layout` places the rows at
0, -10 and 0; the row `B` (k = 2) is not at 10 + 10 + 2 * (-20) = -20. -/
theorem layout_negative_padding_positions :
    negativePaddingRenderer.treeContent.tree.HideSeparators = false ∧
    negativePaddingRenderer.treeContent.tree.branchMinSize.Height = 10 ∧
    negativePaddingRenderer.treeContent.tree.leafMinSize.Height = 10 ∧
    negativePaddingRenderer.treeContent.tree.theme.SizeNamePadding = -20 ∧
    (negativePaddingRenderer.Layout 3 ⟨100, 100⟩).map
        (fun r => (r.visible, r.objects.filterMap CanvasObject.rowFrame)) =
      .ok (["A", "A1", "B"],
        [(⟨0, 0⟩, ⟨100, 10⟩), (⟨0, -10⟩, ⟨100, 10⟩), (⟨0, 0⟩, ⟨100, 10⟩)]) ∧
    (0 : Int) ≠ 10 + 10 + 2 * (-20) :=
  ⟨rfl, rfl, rfl, rfl, rfl, by decide⟩

/-- C25 as stated fails under a theme with negative padding: with padding -20 and
rows of height 10, `MinSize().Height` is 10, the bottom edge of the last row, and
`Layout` places the row `A1` at -10, outside the range from 0 to 10. -/
theorem layout_row_outside_minSize :
    negativePaddingRenderer.MinSize 3 = .ok ⟨30, 10⟩ ∧
    (negativePaddingRenderer.Layout 3 ⟨100, 100⟩).map
        (fun r => r.objects.filterMap CanvasObject.rowExtent) =
      .ok [(0, 10), (-10, 10), (0, 10)] ∧
    ¬ ((0 : Int) ≤ -10) :=
  ⟨rfl, rfl, by decide⟩

/-- The four ways one call of the closure of `Layout` changes its variables: the
unrendered default root is skipped; a row outside the viewport only advances `y`
and the separator count; a row in the viewport is recorded in `visible`, gets a
separator when one is due and separators are shown, and is bound by `layoutRow`. -/
theorem layoutNode_cases (c : LayoutConsts) (t : Tree) (id p : String) (br : Bool) (d : Int)
    (lv : LayoutVars) :
    (treeContentRenderer.layoutNode c id p br d (t, lv)).2 = lv ∨
    (∃ y sc, (treeContentRenderer.layoutNode c id p br d (t, lv)).2 =
      { lv with y := y, separatorCount := sc }) ∨
    (∃ y0 sc y1 d1, c.hideSeparators = false ∧
      (treeContentRenderer.layoutNode c id p br d (t, lv)).2 =
        { treeContentRenderer.layoutRow c t id br d1 y0
            (if br then t.branchMinSize else t.leafMinSize)
            (treeContentRenderer.layoutSeparator c y0
              { lv with y := y0, separatorCount := sc,
                        r := { lv.r with visible := lv.r.visible ++ [id] } }) with y := y1 }) ∨
    (∃ y0 sc y1 d1,
      (treeContentRenderer.layoutNode c id p br d (t, lv)).2 =
        { treeContentRenderer.layoutRow c t id br d1 y0
            (if br then t.branchMinSize else t.leafMinSize)
            { lv with y := y0, separatorCount := sc,
                      r := { lv.r with visible := lv.r.visible ++ [id] } } with y := y1 }) := by
  unfold treeContentRenderer.layoutNode
  by_cases hskip : t.Root = "" ∧ id = ""
  · rw [if_pos hskip]
    exact Or.inl rfl
  · rw [if_neg hskip]
    simp only
    generalize (if br = true then t.branchMinSize else t.leafMinSize) = m
    generalize (if t.Root = "" then d - 1 else d) = d1
    by_cases hy : lv.y > 0
    · simp only [hy, decide_True, if_true, Bool.true_and]
      by_cases h1 : lv.y + c.pad + m.Height < c.offsetY
      · rw [if_pos h1]
        exact Or.inr (Or.inl ⟨_, _, rfl⟩)
      · rw [if_neg h1]
        by_cases h2 : lv.y + c.pad > c.offsetY + c.viewport.Height
        · rw [if_pos h2]
          exact Or.inr (Or.inl ⟨_, _, rfl⟩)
        · rw [if_neg h2]
          cases hs : c.hideSeparators
          · simp only [Bool.not_false, if_true]
            have hsy := (layoutSeparator_fields c (lv.y + c.pad)
              { lv with y := lv.y + c.pad, separatorCount := lv.separatorCount + 1,
                        r := { lv.r with visible := lv.r.visible ++ [id] } }).1
            rw [hsy]
            exact Or.inr (Or.inr (Or.inl ⟨lv.y + c.pad, lv.separatorCount + 1, _, d1, trivial, rfl⟩))
          · simp only [Bool.not_true, Bool.false_eq_true, if_false]
            exact Or.inr (Or.inr (Or.inr ⟨lv.y + c.pad, lv.separatorCount + 1, _, d1, rfl⟩))
    · simp only [hy, decide_False, if_false, Bool.false_and, Bool.false_eq_true]
      by_cases h1 : lv.y + m.Height < c.offsetY
      · rw [if_pos h1]
        exact Or.inr (Or.inl ⟨_, _, rfl⟩)
      · rw [if_neg h1]
        by_cases h2 : lv.y > c.offsetY + c.viewport.Height
        · rw [if_pos h2]
          exact Or.inr (Or.inl ⟨_, _, rfl⟩)
        · rw [if_neg h2]
          exact Or.inr (Or.inr (Or.inr ⟨lv.y, lv.separatorCount, _, d1, rfl⟩))


theorem emittedRows_cons_skip (t : Tree) (pad y : Int) (v : Visit) (vs : List Visit)
    (h : t.Root = "" ∧ v.id = "") :
    emittedRows t pad y (v :: vs) = emittedRows t pad y vs := by
  rw [emittedRows, if_pos h]

theorem emittedRows_cons_row (t : Tree) (pad y : Int) (v : Visit) (vs : List Visit)
    (h : ¬ (t.Root = "" ∧ v.id = "")) :
    emittedRows t pad y (v :: vs) =
      ⟨v.id, v.branch, (if y > 0 then y + pad else y),
        (if v.branch then t.branchMinSize else t.leafMinSize).Height⟩ ::
      emittedRows t pad ((if y > 0 then y + pad else y) +
        (if v.branch then t.branchMinSize else t.leafMinSize).Height) vs := by
  rw [emittedRows, if_neg h]

/-- Every emitted row has the minimum height of its kind. -/
theorem emittedRows_height (t : Tree) (pad : Int) (vs : List Visit) :
    ∀ (y : Int) (row : Row), row ∈ emittedRows t pad y vs →
      row.height = (if row.isBranch then t.branchMinSize else t.leafMinSize).Height := by
  induction vs with
  | nil => intro y row h; simp [emittedRows] at h
  | cons v vs ih =>
    intro y row h
    by_cases hs : t.Root = "" ∧ v.id = ""
    · rw [emittedRows_cons_skip t pad y v vs hs] at h
      exact ih y row h
    · rw [emittedRows_cons_row t pad y v vs hs, List.mem_cons] at h
      rcases h with h | h
      · rw [h]
      · exact ih _ row h

/-- With positive row heights and a padding that is not negative, the k-th
emitted row lies at the start offset, plus the padding if the start offset is
positive, plus the heights of the earlier rows and k times the padding. -/
theorem emittedRows_offset (t : Tree) (pad : Int) (hpad : 0 ≤ pad)
    (hb : 0 < t.branchMinSize.Height) (hl : 0 < t.leafMinSize.Height) (vs : List Visit) :
    ∀ (y : Int), 0 ≤ y → ∀ (k : Nat) (row : Row), (emittedRows t pad y vs)[k]? = some row →
      row.y = y + (if y > 0 then pad else 0) +
        (((emittedRows t pad y vs).take k).map Row.height).sum + k * pad := by
  induction vs with
  | nil => intro y _ k row h; simp [emittedRows] at h
  | cons v vs ih =>
    intro y hy k row h
    by_cases hs : t.Root = "" ∧ v.id = ""
    · rw [emittedRows_cons_skip t pad y v vs hs] at h ⊢
      exact ih y hy k row h
    · rw [emittedRows_cons_row t pad y v vs hs] at h ⊢
      have hh : 0 < (if v.branch then t.branchMinSize else t.leafMinSize).Height := by
        split <;> assumption
      generalize (if v.branch then t.branchMinSize else t.leafMinSize).Height = h0 at h hh ⊢
      have hy1 : 0 ≤ (if y > 0 then y + pad else y) := by split <;> omega
      cases k with
      | zero =>
        simp only [List.getElem?_cons_zero, Option.some.injEq] at h
        rw [← h]
        simp only [List.take_zero, List.map_nil, List.sum_nil, Nat.cast_zero, zero_mul, add_zero]
        split <;> omega
      | succ k =>
        simp only [List.getElem?_cons_succ] at h
        have := ih _ (by omega : 0 ≤ (if y > 0 then y + pad else y) + h0) k row h
        rw [this]
        have hpos : (if y > 0 then y + pad else y) + h0 > 0 := by omega
        simp only [hpos, if_true, List.take_succ_cons, List.map_cons, List.sum_cons,
          Nat.cast_add, Nat.cast_one]
        split <;> ring

theorem runningOffset_cons_skip (t : Tree) (pad y : Int) (v : Visit) (vs : List Visit)
    (h : t.Root = "" ∧ v.id = "") :
    runningOffset t pad y (v :: vs) = runningOffset t pad y vs := by
  rw [runningOffset, if_pos h]

theorem runningOffset_cons_row (t : Tree) (pad y : Int) (v : Visit) (vs : List Visit)
    (h : ¬ (t.Root = "" ∧ v.id = "")) :
    runningOffset t pad y (v :: vs) =
      runningOffset t pad ((if y > 0 then y + pad else y) +
        (if v.branch then t.branchMinSize else t.leafMinSize).Height) vs := by
  rw [runningOffset, if_neg h]

/-- The running offset after all recorded calls is the bottom edge of the last
emitted row, or the start offset when no row is emitted. -/
theorem runningOffset_eq_bottom (t : Tree) (pad : Int) (vs : List Visit) :
    ∀ (y : Int), runningOffset t pad y vs =
      (match (emittedRows t pad y vs).getLast? with
        | some row => row.y + row.height
        | none => y) := by
  induction vs with
  | nil => intro y; simp [emittedRows, runningOffset]
  | cons v vs ih =>
    intro y
    by_cases hs : t.Root = "" ∧ v.id = ""
    · rw [emittedRows_cons_skip t pad y v vs hs, runningOffset_cons_skip t pad y v vs hs]
      exact ih y
    · rw [emittedRows_cons_row t pad y v vs hs, runningOffset_cons_row t pad y v vs hs, ih]
      cases hrest : emittedRows t pad ((if y > 0 then y + pad else y) +
          (if v.branch then t.branchMinSize else t.leafMinSize).Height) vs with
      | nil => simp
      | cons r rs =>
        rw [List.getLast?_cons_cons]
        obtain ⟨x, hx⟩ : ∃ x, (r :: rs).getLast? = some x :=
          ⟨_, List.getLast?_eq_getLast _ (List.cons_ne_nil r rs)⟩
        rw [hx]

/-- With padding and row heights that are not negative, the running offset never
decreases. -/
theorem runningOffset_le (t : Tree) (pad : Int) (hpad : 0 ≤ pad)
    (hb : 0 ≤ t.branchMinSize.Height) (hl : 0 ≤ t.leafMinSize.Height) (vs : List Visit) :
    ∀ (y : Int), 0 ≤ y → y ≤ runningOffset t pad y vs := by
  induction vs with
  | nil => intro y _; exact le_refl _
  | cons v vs ih =>
    intro y hy
    by_cases hs : t.Root = "" ∧ v.id = ""
    · rw [runningOffset_cons_skip t pad y v vs hs]
      exact ih y hy
    · rw [runningOffset_cons_row t pad y v vs hs]
      have hh : 0 ≤ (if v.branch then t.branchMinSize else t.leafMinSize).Height := by
        split <;> assumption
      generalize (if v.branch then t.branchMinSize else t.leafMinSize).Height = h0 at hh ⊢
      have hy1 : y ≤ (if y > 0 then y + pad else y) := by split <;> omega
      exact le_trans (by omega) (ih _ (by omega))

/-- With padding and row heights that are not negative, every emitted row lies
between the start offset and the final running offset. -/
theorem emittedRows_within (t : Tree) (pad : Int) (hpad : 0 ≤ pad)
    (hb : 0 ≤ t.branchMinSize.Height) (hl : 0 ≤ t.leafMinSize.Height) (vs : List Visit) :
    ∀ (y : Int), 0 ≤ y → ∀ row ∈ emittedRows t pad y vs,
      y ≤ row.y ∧ row.y + row.height ≤ runningOffset t pad y vs := by
  induction vs with
  | nil => intro y _ row h; simp [emittedRows] at h
  | cons v vs ih =>
    intro y hy row h
    by_cases hs : t.Root = "" ∧ v.id = ""
    · rw [emittedRows_cons_skip t pad y v vs hs] at h
      rw [runningOffset_cons_skip t pad y v vs hs]
      exact ih y hy row h
    · rw [emittedRows_cons_row t pad y v vs hs, List.mem_cons] at h
      rw [runningOffset_cons_row t pad y v vs hs]
      have hh : 0 ≤ (if v.branch then t.branchMinSize else t.leafMinSize).Height := by
        split <;> assumption
      generalize (if v.branch then t.branchMinSize else t.leafMinSize).Height = h0 at h hh ⊢
      have hy1 : y ≤ (if y > 0 then y + pad else y) := by split <;> omega
      rcases h with h | h
      · rw [h]
        simp only
        exact ⟨hy1, runningOffset_le t pad hpad hb hl vs _ (by omega)⟩
      · obtain ⟨i1, i2⟩ := ih _ (by omega : 0 ≤ (if y > 0 then y + pad else y) + h0) row h
        exact ⟨by omega, i2⟩

/-- The height that `MinSize` accumulates is the running offset of `Layout`. -/
theorem minSize_fold_height (t : Tree) (pad iconSize : Int) (vs : List Visit) :
    ∀ m : Size, (vs.foldl (treeContentRenderer.minSizeStep t pad iconSize) m).Height =
      runningOffset t pad m.Height vs := by
  induction vs with
  | nil => intro m; rfl
  | cons v vs ih =>
    intro m
    rw [List.foldl_cons, ih]
    by_cases hs : t.Root = "" ∧ v.id = ""
    · rw [runningOffset_cons_skip t pad _ v vs hs]
      unfold treeContentRenderer.minSizeStep treeContentRenderer.minSizeNode
      rw [if_pos hs]
    · rw [runningOffset_cons_row t pad _ v vs hs]
      unfold treeContentRenderer.minSizeStep treeContentRenderer.minSizeNode
      rw [if_neg hs]


/-- The closure of `Layout` folded over recorded calls keeps every property that
one call keeps. -/
theorem layout_fold_invariant (P : LayoutVars → Prop) (c : LayoutConsts) (t : Tree)
    (hstep : ∀ (v : Visit) (lv : LayoutVars), P lv →
      P (treeContentRenderer.layoutNode c v.id v.parent v.branch v.depth (t, lv)).2)
    (vs : List Visit) :
    ∀ lv, P lv → P (vs.foldl (applyVisit (treeContentRenderer.layoutNode c)) (t, lv)).2 := by
  induction vs with
  | nil => intro lv h; exact h
  | cons v vs ih =>
    intro lv h
    rw [List.foldl_cons]
    have e : applyVisit (treeContentRenderer.layoutNode c) (t, lv) v =
        (t, (treeContentRenderer.layoutNode c v.id v.parent v.branch v.depth (t, lv)).2) := by
      unfold applyVisit
      exact Prod.ext (layoutNode_fst c v.id v.parent v.branch v.depth (t, lv)) rfl
    rw [e]
    exact ih _ (hstep v lv h)

/-- What `layoutRow` does to the objects and the separators: it appends one row
object, moved to `(0, y)` and resized to the layout width and the row height. -/
theorem layoutRow_objects (c : LayoutConsts) (t : Tree) (uid : String) (isBranch : Bool)
    (depth : Int) (y : Int) (m : Size) (v : LayoutVars) :
    (∃ o, (treeContentRenderer.layoutRow c t uid isBranch depth y m v).r.objects =
        v.r.objects ++ [o] ∧
      o.rowFrame = some (⟨0, y⟩, ⟨c.width, m.Height⟩) ∧ o.separatorIndex = none) ∧
    (treeContentRenderer.layoutRow c t uid isBranch depth y m v).r.separators =
      v.r.separators := by
  unfold treeContentRenderer.layoutRow
  cases isBranch
  · simp only [Bool.false_eq_true, if_false]
    cases hl : v.r.leaves.lookup uid with
    | some l => exact ⟨⟨_, rfl, rfl, rfl⟩, rfl⟩
    | none =>
      simp only [treeContentRenderer.getLeaf]
      cases hp : v.r.leafPool with
      | nil => simp only; split_ifs <;> exact ⟨⟨_, rfl, rfl, rfl⟩, rfl⟩
      | cons o rest => simp only; split_ifs <;> exact ⟨⟨_, rfl, rfl, rfl⟩, rfl⟩
  · simp only [if_true]
    cases hl : v.r.branches.lookup uid with
    | some l => exact ⟨⟨_, rfl, rfl, rfl⟩, rfl⟩
    | none =>
      simp only [treeContentRenderer.getBranch]
      cases hp : v.r.branchPool with
      | nil => simp only; split_ifs <;> exact ⟨⟨_, rfl, rfl, rfl⟩, rfl⟩
      | cons o rest => simp only; split_ifs <;> exact ⟨⟨_, rfl, rfl, rfl⟩, rfl⟩

theorem layoutSeparator_objects (c : LayoutConsts) (y : Int) (v : LayoutVars) :
    ∃ i, (treeContentRenderer.layoutSeparator c y v).r.objects =
      v.r.objects ++ [CanvasObject.separator i] := by
  unfold treeContentRenderer.layoutSeparator
  simp only
  split_ifs <;> exact ⟨_, rfl⟩

/-- One call of the closure of `Layout` keeps every row object at `x = 0` with the
layout width. -/
theorem layoutNode_framed (c : LayoutConsts) (t : Tree) (v : Visit) (lv : LayoutVars)
    (h : ∀ o ∈ lv.r.objects, ∀ f, o.rowFrame = some f → f.1.X = 0 ∧ f.2.Width = c.width) :
    ∀ o ∈ (treeContentRenderer.layoutNode c v.id v.parent v.branch v.depth (t, lv)).2.r.objects,
      ∀ f, o.rowFrame = some f → f.1.X = 0 ∧ f.2.Width = c.width := by
  have hrow : ∀ (d1 y0 : Int) (lv1 : LayoutVars),
      (∀ o ∈ lv1.r.objects, ∀ f, o.rowFrame = some f → f.1.X = 0 ∧ f.2.Width = c.width) →
      ∀ o ∈ (treeContentRenderer.layoutRow c t v.id v.branch d1 y0
          (if v.branch then t.branchMinSize else t.leafMinSize) lv1).r.objects,
        ∀ f, o.rowFrame = some f → f.1.X = 0 ∧ f.2.Width = c.width := by
    intro d1 y0 lv1 h1 o ho f hf
    obtain ⟨⟨o1, e1, e2, _⟩, _⟩ := layoutRow_objects c t v.id v.branch d1 y0
      (if v.branch then t.branchMinSize else t.leafMinSize) lv1
    rw [e1, List.mem_append, List.mem_singleton] at ho
    rcases ho with ho | ho
    · exact h1 o ho f hf
    · rw [ho, e2, Option.some.injEq] at hf
      rw [← hf]
      exact ⟨rfl, rfl⟩
  rcases layoutNode_cases c t v.id v.parent v.branch v.depth lv with
    e | ⟨y, sc, e⟩ | ⟨y0, sc, y1, d1, _, e⟩ | ⟨y0, sc, y1, d1, e⟩
  · rw [e]; exact h
  · rw [e]; exact h
  · rw [e]
    refine hrow d1 y0 _ ?_
    intro o ho f hf
    obtain ⟨i, ei⟩ := layoutSeparator_objects c y0
      { lv with y := y0, separatorCount := sc,
                r := { lv.r with visible := lv.r.visible ++ [v.id] } }
    rw [ei, List.mem_append, List.mem_singleton] at ho
    rcases ho with ho | ho
    · exact h o ho f hf
    · rw [ho] at hf
      simp [CanvasObject.rowFrame] at hf
  · rw [e]
    exact hrow d1 y0 _ h

/-- With separators hidden, one call of the closure of `Layout` appends no
separator object and leaves the held separators as they are. -/
theorem layoutNode_hidden (c : LayoutConsts) (hs : c.hideSeparators = true) (t : Tree)
    (S : List Separator) (v : Visit) (lv : LayoutVars)
    (h : (∀ o ∈ lv.r.objects, o.separatorIndex = none) ∧ lv.r.separators = S) :
    (∀ o ∈ (treeContentRenderer.layoutNode c v.id v.parent v.branch v.depth (t, lv)).2.r.objects,
      o.separatorIndex = none) ∧
    (treeContentRenderer.layoutNode c v.id v.parent v.branch v.depth (t, lv)).2.r.separators = S := by
  rcases layoutNode_cases c t v.id v.parent v.branch v.depth lv with
    e | ⟨y, sc, e⟩ | ⟨y0, sc, y1, d1, hf, e⟩ | ⟨y0, sc, y1, d1, e⟩
  · rw [e]; exact h
  · rw [e]; exact h
  · rw [hs] at hf
    exact absurd hf (by decide)
  · rw [e]
    obtain ⟨⟨o1, e1, _, e3⟩, e4⟩ := layoutRow_objects c t v.id v.branch d1 y0
      (if v.branch then t.branchMinSize else t.leafMinSize)
      { lv with y := y0, separatorCount := sc,
                r := { lv.r with visible := lv.r.visible ++ [v.id] } }
    refine ⟨?_, ?_⟩
    · intro o ho
      simp only at ho
      rw [e1, List.mem_append, List.mem_singleton] at ho
      rcases ho with ho | ho
      · exact h.1 o ho
      · rw [ho]; exact e3
    · simp only
      rw [e4]
      exact h.2

/-- The frames of row objects that all lie at `x = 0` with width `w` are given by
their vertical extents. -/
theorem rowFrame_of_rowExtent (w : Int) (objs : List CanvasObject)
    (h : ∀ o ∈ objs, ∀ f, o.rowFrame = some f → f.1.X = 0 ∧ f.2.Width = w) :
    objs.filterMap CanvasObject.rowFrame =
      (objs.filterMap CanvasObject.rowExtent).map
        (fun e => ((⟨0, e.1⟩ : Position), (⟨w, e.2⟩ : Size))) := by
  induction objs with
  | nil => rfl
  | cons o os ih =>
    have ih1 := ih (fun o1 ho1 => h o1 (List.mem_cons_of_mem _ ho1))
    have ho := h o (List.mem_cons_self _ _)
    cases o with
    | separator i => simpa [CanvasObject.rowFrame, CanvasObject.rowExtent] using ih1
    | branch b =>
      obtain ⟨hx, hw⟩ := ho (b.position, b.size) rfl
      simp only [List.filterMap_cons, CanvasObject.rowFrame, CanvasObject.rowExtent, List.map_cons,
        ih1]
      simp only at hx hw
      rw [← hx, ← hw]
    | leaf b =>
      obtain ⟨hx, hw⟩ := ho (b.position, b.size) rfl
      simp only [List.filterMap_cons, CanvasObject.rowFrame, CanvasObject.rowExtent, List.map_cons,
        ih1]
      simp only at hx hw
      rw [← hx, ← hw]

theorem hideSeparatorsFrom_zero (S : List Separator) :
    ∀ s ∈ hideSeparatorsFrom 0 S, s.Hidden = true := by
  intro s hs
  unfold hideSeparatorsFrom at hs
  rw [List.mem_map] at hs
  obtain ⟨e, _, he⟩ := hs
  rw [if_pos (Nat.zero_le _)] at he
  rw [← he]

/-- The objects of a layout: `Layout` returns once the walk does; each row in the
viewport is listed at `(0, y)` with the width `max(size.Width, viewport.Width)` and
its row height, and with `HideSeparators` set no separator is listed and every
held separator is hidden. -/
theorem layout_objects (fuel : Nat) (r : treeContentRenderer) (size : Size)
    (vs : List Visit) (hvs : r.treeContent.tree.visits fuel = .ok vs) :
    ∃ r1, r.Layout fuel size = .ok r1 ∧
      r1.objects.filterMap CanvasObject.rowFrame =
        ((emittedRows r.treeContent.tree r.treeContent.tree.theme.SizeNamePadding 0 vs).filter
          (Row.inViewport r.treeContent.tree.offset.Y r.treeContent.viewport.Height)).map
          (fun row => ((⟨0, row.y⟩ : Position),
            (⟨max size.Width r.treeContent.viewport.Width, row.height⟩ : Size))) ∧
      (r.treeContent.tree.HideSeparators = true →
        r1.objects.filterMap CanvasObject.separatorIndex = [] ∧
        ∀ s ∈ r1.separators, s.Hidden = true) := by
  have hw := fun c lv => walkAll_fold (treeContentRenderer.layoutNode c)
    (fun id p br d a => by rw [layoutNode_fst]; exact sameShape_refl _)
    fuel (r.treeContent.tree, lv) r.treeContent.tree (sameShape_refl _) vs hvs
  unfold treeContentRenderer.Layout
  simp only
  rw [hw]
  simp only
  refine ⟨_, rfl, ?_, ?_⟩
  · simp only
    rw [rowFrame_of_rowExtent (max size.Width r.treeContent.viewport.Width),
      (layoutNode_fold _ _ vs _).2]
    · simp [List.map_map, Function.comp]
    · exact layout_fold_invariant
        (fun lv => ∀ o ∈ lv.r.objects, ∀ f, o.rowFrame = some f → f.1.X = 0 ∧
          f.2.Width = max size.Width r.treeContent.viewport.Width) _ _
        (fun v lv h => layoutNode_framed _ _ v lv h) vs _ (by simp)
  · intro hh
    have hinv := layout_fold_invariant
      (fun lv => (∀ o ∈ lv.r.objects, o.separatorIndex = none) ∧ lv.r.separators = r.separators)
      ⟨r.treeContent.tree.theme.SizeNamePadding, r.treeContent.tree.offset.Y,
        r.treeContent.viewport, max size.Width r.treeContent.viewport.Width,
        ⟨max size.Width r.treeContent.viewport.Width,
          r.treeContent.tree.theme.SizeNameSeparatorThickness⟩,
        (r.treeContent.tree.theme.SizeNamePadding +
          r.treeContent.tree.theme.SizeNameSeparatorThickness) / 2,
        r.treeContent.tree.HideSeparators⟩ r.treeContent.tree
      (fun v lv h => layoutNode_hidden _ hh _ r.separators v lv h) vs
      ⟨{ r with objects := [], wasVisible := r.visible, visible := [] }, [], [], 0, 0⟩
      ⟨by simp, rfl⟩
    simp only [hh, if_true] at hinv ⊢
    constructor
    · rw [List.filterMap_eq_nil_iff]
      exact hinv.1
    · rw [hinv.2]
      exact hideSeparatorsFrom_zero r.separators

/-- C22, amended: row positions do not depend on scrolling.  For every tree with
positive row heights and a padding that is not negative, whatever the scroll
offset and the viewport, `Layout` returns once the walk does, the k-th emitted row
(k counted from 0 over the walk, the unrendered default root excluded) has `y`
equal to the sum of the heights of all earlier emitted rows plus k times the
padding, whether or not earlier rows are visible, each emitted row has the minimum
height of its kind, and each bound row is moved to `(0, y)` and resized to
`(max(size.Width, viewport.Width), rowHeight)`. -/
theorem layout_row_positions (fuel : Nat) (r : treeContentRenderer) (size : Size)
    (vs : List Visit) (hvs : r.treeContent.tree.visits fuel = .ok vs)
    (hpad : 0 ≤ r.treeContent.tree.theme.SizeNamePadding)
    (hb : 0 < r.treeContent.tree.branchMinSize.Height)
    (hl : 0 < r.treeContent.tree.leafMinSize.Height) :
    ∃ r1, r.Layout fuel size = .ok r1 ∧
      r1.objects.filterMap CanvasObject.rowFrame =
        ((emittedRows r.treeContent.tree r.treeContent.tree.theme.SizeNamePadding 0 vs).filter
          (Row.inViewport r.treeContent.tree.offset.Y r.treeContent.viewport.Height)).map
          (fun row => ((⟨0, row.y⟩ : Position),
            (⟨max size.Width r.treeContent.viewport.Width, row.height⟩ : Size))) ∧
      ∀ (k : Nat) (row : Row),
        (emittedRows r.treeContent.tree r.treeContent.tree.theme.SizeNamePadding 0 vs)[k]? =
          some row →
        row.y = (((emittedRows r.treeContent.tree r.treeContent.tree.theme.SizeNamePadding 0
          vs).take k).map Row.height).sum + k * r.treeContent.tree.theme.SizeNamePadding ∧
        row.height = (if row.isBranch then r.treeContent.tree.branchMinSize
          else r.treeContent.tree.leafMinSize).Height := by
  obtain ⟨r1, h1, h2, _⟩ := layout_objects fuel r size vs hvs
  refine ⟨r1, h1, h2, ?_⟩
  intro k row hk
  have hy := emittedRows_offset r.treeContent.tree _ hpad hb hl vs 0 (le_refl 0) k row hk
  have hh := emittedRows_height r.treeContent.tree r.treeContent.tree.theme.SizeNamePadding vs 0
    row (List.mem_iff_getElem?.mpr ⟨k, hk⟩)
  refine ⟨?_, hh⟩
  rw [hy]
  simp

theorem layout_row_positions_witness :
    ∃ r1, scrolledRenderer.Layout 3 ⟨100, 15⟩ = .ok r1 ∧
      r1.objects.filterMap CanvasObject.rowFrame =
        [(⟨0, 0⟩, ⟨100, 10⟩), (⟨0, 14⟩, ⟨100, 10⟩)] ∧
      (14 : Int) = 10 + 1 * 4 := by
  obtain ⟨r1, h1, h2, h3⟩ := layout_row_positions 3 scrolledRenderer ⟨100, 15⟩
    [⟨"", "", true, 0⟩, ⟨"A", "", true, 1⟩, ⟨"A1", "A", false, 2⟩, ⟨"B", "", false, 1⟩] rfl
    (by decide) (by decide) (by decide)
  exact ⟨r1, h1, h2, (h3 1 ⟨"A1", false, 14, 10⟩ rfl).1⟩

/-- C23, amended: for every tree with `HideSeparators` set to true, `Layout`
returns once the walk does, lists no separator object and hides every held
separator, and reserves the padding gap between consecutive emitted rows all the
same: with positive row heights and a padding that is not negative, the k-th
emitted row is placed at `y` equal to the sum of the heights of the earlier rows
plus k times the padding. -/
theorem layout_hideSeparators_gap (fuel : Nat) (r : treeContentRenderer) (size : Size)
    (vs : List Visit) (hvs : r.treeContent.tree.visits fuel = .ok vs)
    (hh : r.treeContent.tree.HideSeparators = true)
    (hpad : 0 ≤ r.treeContent.tree.theme.SizeNamePadding)
    (hb : 0 < r.treeContent.tree.branchMinSize.Height)
    (hl : 0 < r.treeContent.tree.leafMinSize.Height) :
    ∃ r1, r.Layout fuel size = .ok r1 ∧
      r1.objects.filterMap CanvasObject.separatorIndex = [] ∧
      (∀ s ∈ r1.separators, s.Hidden = true) ∧
      r1.objects.filterMap CanvasObject.rowFrame =
        ((emittedRows r.treeContent.tree r.treeContent.tree.theme.SizeNamePadding 0 vs).filter
          (Row.inViewport r.treeContent.tree.offset.Y r.treeContent.viewport.Height)).map
          (fun row => ((⟨0, row.y⟩ : Position),
            (⟨max size.Width r.treeContent.viewport.Width, row.height⟩ : Size))) ∧
      ∀ (k : Nat) (row : Row),
        (emittedRows r.treeContent.tree r.treeContent.tree.theme.SizeNamePadding 0 vs)[k]? =
          some row →
        row.y = (((emittedRows r.treeContent.tree r.treeContent.tree.theme.SizeNamePadding 0
          vs).take k).map Row.height).sum + k * r.treeContent.tree.theme.SizeNamePadding := by
  obtain ⟨r1, h1, h2, h3⟩ := layout_objects fuel r size vs hvs
  refine ⟨r1, h1, (h3 hh).1, (h3 hh).2, h2, ?_⟩
  intro k row hk
  rw [emittedRows_offset r.treeContent.tree _ hpad hb hl vs 0 (le_refl 0) k row hk]
  simp

theorem layout_hideSeparators_gap_witness :
    ∃ r1, hiddenSeparatorsRenderer.Layout 3 ⟨100, 100⟩ = .ok r1 ∧
      r1.objects.filterMap CanvasObject.separatorIndex = [] ∧
      r1.objects.filterMap CanvasObject.rowFrame =
        [(⟨0, 0⟩, ⟨100, 10⟩), (⟨0, 14⟩, ⟨100, 10⟩), (⟨0, 28⟩, ⟨100, 10⟩)] ∧
      (28 : Int) = 10 + 10 + 2 * 4 := by
  obtain ⟨r1, h1, h2, _, h4, h5⟩ := layout_hideSeparators_gap 3 hiddenSeparatorsRenderer
    ⟨100, 100⟩
    [⟨"", "", true, 0⟩, ⟨"A", "", true, 1⟩, ⟨"A1", "A", false, 2⟩, ⟨"B", "", false, 1⟩] rfl rfl
    (by decide) (by decide) (by decide)
  exact ⟨r1, h1, h2, h4, h5 2 ⟨"B", false, 28, 10⟩ rfl⟩

/-- C25, amended: `MinSize` and `Layout` agree on the content height.  For every
tree, both return once the walk does, and `MinSize().Height` equals the bottom
edge (`y + rowHeight`) of the last emitted row at the position `Layout` gives it,
and 0 when no row is emitted; `Layout` lists the rows in the viewport at these
positions.  When the padding and the row heights are not negative, every row
positioned by `Layout` lies within `[0, MinSize().Height]`. -/
theorem minSize_height_is_layout_bottom (fuel : Nat) (r : treeContentRenderer) (size : Size)
    (vs : List Visit) (hvs : r.treeContent.tree.visits fuel = .ok vs) :
    ∃ m r1, r.MinSize fuel = .ok m ∧ r.Layout fuel size = .ok r1 ∧
      m.Height =
        (match (emittedRows r.treeContent.tree r.treeContent.tree.theme.SizeNamePadding 0
            vs).getLast? with
          | some row => row.y + row.height
          | none => 0) ∧
      r1.objects.filterMap CanvasObject.rowExtent =
        ((emittedRows r.treeContent.tree r.treeContent.tree.theme.SizeNamePadding 0 vs).filter
          (Row.inViewport r.treeContent.tree.offset.Y r.treeContent.viewport.Height)).map
          (fun row => (row.y, row.height)) ∧
      (0 ≤ r.treeContent.tree.theme.SizeNamePadding →
        0 ≤ r.treeContent.tree.branchMinSize.Height →
        0 ≤ r.treeContent.tree.leafMinSize.Height →
        (∀ row ∈ emittedRows r.treeContent.tree r.treeContent.tree.theme.SizeNamePadding 0 vs,
          0 ≤ row.y ∧ row.y + row.height ≤ m.Height) ∧
        ∀ e ∈ r1.objects.filterMap CanvasObject.rowExtent, 0 ≤ e.1 ∧ e.1 + e.2 ≤ m.Height) := by
  obtain ⟨r1, h1, h2, _⟩ := layout_objects fuel r size vs hvs
  have hm := minSize_eq_fold fuel r vs hvs
  have hE : r1.objects.filterMap CanvasObject.rowExtent =
      ((emittedRows r.treeContent.tree r.treeContent.tree.theme.SizeNamePadding 0 vs).filter
        (Row.inViewport r.treeContent.tree.offset.Y r.treeContent.viewport.Height)).map
        (fun row => (row.y, row.height)) := by
    have hw := fun c lv => walkAll_fold (treeContentRenderer.layoutNode c)
      (fun id p br d a => by rw [layoutNode_fst]; exact sameShape_refl _)
      fuel (r.treeContent.tree, lv) r.treeContent.tree (sameShape_refl _) vs hvs
    unfold treeContentRenderer.Layout at h1
    simp only at h1
    rw [hw] at h1
    simp only [Except.ok.injEq] at h1
    rw [← h1]
    simp only
    rw [(layoutNode_fold _ _ vs _).2]
    simp
  have hH := minSize_fold_height r.treeContent.tree r.treeContent.tree.theme.SizeNamePadding
    r.treeContent.tree.theme.SizeNameInlineIcon vs ⟨0, 0⟩
  refine ⟨_, r1, hm, h1, ?_, hE, ?_⟩
  · exact hH.trans (runningOffset_eq_bottom r.treeContent.tree
      r.treeContent.tree.theme.SizeNamePadding vs 0)
  · intro hpad hb hl
    have hin := emittedRows_within r.treeContent.tree _ hpad hb hl vs 0 (le_refl 0)
    rw [hH]
    refine ⟨hin, ?_⟩
    intro e he
    rw [hE, List.mem_map] at he
    obtain ⟨row, hrow, rfl⟩ := he
    exact hin row (List.mem_filter.mp hrow).1

theorem minSize_height_is_layout_bottom_witness :
    ∃ m r1, wideRenderer.MinSize 3 = .ok m ∧ wideRenderer.Layout 3 ⟨100, 100⟩ = .ok r1 ∧
      m.Height = 38 ∧
      r1.objects.filterMap CanvasObject.rowExtent = [(0, 10), (14, 10), (28, 10)] ∧
      ((28 : Int) + 10 ≤ m.Height) := by
  obtain ⟨m, r1, h1, h2, h3, h4, h5⟩ := minSize_height_is_layout_bottom 3 wideRenderer
    ⟨100, 100⟩
    [⟨"", "", true, 0⟩, ⟨"A", "", true, 1⟩, ⟨"A1", "A", false, 2⟩, ⟨"B", "", false, 1⟩] rfl
  exact ⟨m, r1, h1, h2, h3, h4,
    ((h5 (by decide) (by decide) (by decide)).1 ⟨"B", false, 28, 10⟩ (by decide)).2⟩

theorem lookup_mem (data : List (String × List String)) (u : String) (cs : List String)
    (h : data.lookup u = some cs) : (u, cs) ∈ data := by
  induction data with
  | nil => simp at h
  | cons e rest ih =>
    obtain ⟨k, v⟩ := e
    rw [List.lookup_cons] at h
    by_cases hk : u == k
    · simp only [hk] at h
      have hu : u = k := by simpa using hk
      rw [hu]
      simp only [Option.some.injEq] at h
      rw [h]
      exact List.mem_cons_self _ _
    · have hk1 : (u == k) = false := by simpa using hk
      simp only [hk1] at h
      exact List.mem_cons_of_mem _ (ih h)

/-- A tree with the callbacks of a string map is acyclic when the rank decreases
along every entry of the map. -/
theorem stringMap_acyclic (data : List (String × List String)) (th : Theme) (rank : String → Nat)
    (h : ∀ e ∈ data, ∀ c ∈ e.2, rank c < rank e.1) (t : Tree)
    (h1 : t.IsBranch = (NewTreeWithStrings data th).IsBranch)
    (h2 : t.ChildUIDs = (NewTreeWithStrings data th).ChildUIDs) : t.Acyclic rank := by
  intro ib cu hib hcu u c hb hc
  rw [h1] at hib
  rw [h2] at hcu
  simp only [NewTreeWithStrings, Option.some.injEq] at hib hcu
  subst hib hcu
  simp only at hc
  cases hl : data.lookup u with
  | none => rw [hl] at hc; simp at hc
  | some cs =>
    rw [hl] at hc
    exact h (u, cs) (lookup_mem data u cs hl) c hc

/-- C28 as stated fails: in `sharedChildTree` the open sub-forest is finite and
acyclic and has the four nodes root, `A`, `B`, `C`, and the walk makes five
`onNode` calls; in `repeatedChildTree` the root lists the leaf `A` twice, the open
sub-forest has the two nodes root and `A`, and the walk makes three calls. -/
theorem walk_calls_exceed_node_count :
    (sharedChildTree.OpenAcyclic sharedChildRank ∧
      (sharedChildTree.visits 3).map List.length = .ok 5 ∧
      (∃ ib cu, sharedChildTree.IsBranch = some ib ∧ sharedChildTree.ChildUIDs = some cu ∧
        ∀ u, ReachableThrough ib cu sharedChildTree.IsBranchOpen sharedChildTree.Root u ↔
          u ∈ ["", "A", "B", "C"]) ∧
      ["", "A", "B", "C"].Nodup ∧ ["", "A", "B", "C"].length = 4) ∧
    (repeatedChildTree.OpenAcyclic repeatedChildRank ∧
      (repeatedChildTree.visits 2).map List.length = .ok 3 ∧
      (∃ ib cu, repeatedChildTree.IsBranch = some ib ∧ repeatedChildTree.ChildUIDs = some cu ∧
        ∀ u, ReachableThrough ib cu repeatedChildTree.IsBranchOpen repeatedChildTree.Root u ↔
          u ∈ ["", "A"]) ∧
      ["", "A"].Nodup ∧ ["", "A"].length = 2) := by
  refine ⟨⟨?_, rfl, ⟨_, _, rfl, rfl, ?_⟩, by decide, rfl⟩, ⟨?_, rfl, ⟨_, _, rfl, rfl, ?_⟩, by decide, rfl⟩⟩
  · exact acyclic_openAcyclic _ _ (stringMap_acyclic
      [("", ["A", "B"]), ("A", ["C"]), ("B", ["C"])] ⟨4, 1, 20⟩ sharedChildRank (by decide)
      sharedChildTree rfl rfl)
  · intro u
    rw [← visits_reach 3 sharedChildTree _ _ rfl rfl
      [⟨"", "", true, 0⟩, ⟨"A", "", true, 1⟩, ⟨"C", "A", false, 2⟩, ⟨"B", "", true, 1⟩,
        ⟨"C", "B", false, 2⟩] rfl u]
    simp only [List.map_cons, List.map_nil, List.mem_cons, List.mem_singleton, List.not_mem_nil,
      or_false]
    tauto
  · exact acyclic_openAcyclic _ _ (stringMap_acyclic
      [("", ["A", "A"])] ⟨4, 1, 20⟩ repeatedChildRank (by decide) repeatedChildTree rfl rfl)
  · intro u
    rw [← visits_reach 2 repeatedChildTree _ _ rfl rfl
      [⟨"", "", true, 0⟩, ⟨"A", "", false, 1⟩, ⟨"A", "", false, 1⟩] rfl u]
    simp only [List.map_cons, List.map_nil, List.mem_cons, List.mem_singleton, List.not_mem_nil,
      or_false]
    tauto

/-- C28, amended: for every tree with `IsBranch` and `ChildUIDs` set in which the
child relation restricted to the open branches reachable from `Root` is finite and
acyclic, `Tree.walk` from `Root` terminates, calls `onNode` for exactly the nodes
of that open sub-forest, and makes at least as many calls as the sub-forest has
nodes: one call for each path from `Root` through open branches, which is the
number of nodes when no node is visited twice. -/
theorem walk_terminates_on_open_forest (t : Tree) (rank : String → Nat)
    (hac : t.OpenAcyclic rank) (isBranch : String → Bool) (childUIDs : String → List String)
    (hib : t.IsBranch = some isBranch) (hcu : t.ChildUIDs = some childUIDs)
    (fuel : Nat) (hfuel : rank t.Root < fuel) :
    ∃ vs, t.visits fuel = .ok vs ∧
      preorderSpec isBranch childUIDs t.IsBranchOpen fuel t.Root "" 0 = some vs ∧
      (∀ u, u ∈ vs.map Visit.id ↔
        ReachableThrough isBranch childUIDs t.IsBranchOpen t.Root u) ∧
      ∀ nodes : Finset String,
        (∀ u, u ∈ nodes ↔ ReachableThrough isBranch childUIDs t.IsBranchOpen t.Root u) →
        nodes.card ≤ vs.length ∧ ((vs.map Visit.id).Nodup → vs.length = nodes.card) := by
  obtain ⟨r, hr, _⟩ := walk_record_ok_open t rank hac isBranch childUIDs hib hcu fuel t.Root "" 0
    [] (ReachableThrough.self _) hfuel
  have hvs : t.visits fuel = .ok r.2 := by
    simp [Tree.visits, Tree.walkAll, hr, Except.map]
  have hreach := visits_reach fuel t isBranch childUIDs hib hcu r.2 hvs
  refine ⟨r.2, hvs, visits_preorder fuel t isBranch childUIDs hib hcu r.2 hvs, hreach, ?_⟩
  intro nodes hnodes
  have hset : nodes = (r.2.map Visit.id).toFinset := by
    ext u
    rw [List.mem_toFinset, hnodes, hreach]
  rw [hset]
  constructor
  · have := List.toFinset_card_le (r.2.map Visit.id)
    rwa [List.length_map] at this
  · intro hnd
    rw [List.toFinset_card_of_nodup hnd, List.length_map]

theorem walk_terminates_on_open_forest_witness :
    ∃ vs, scenarioTree.visits 3 = .ok vs ∧ vs.map Visit.id = ["", "A", "A1", "B"] ∧
      vs.length = 4 := by
  obtain ⟨vs, h1, _, _, _⟩ := walk_terminates_on_open_forest scenarioTree scenarioRank
    (acyclic_openAcyclic _ _ scenarioTree_acyclic) _ _ rfl rfl 3 (by decide)
  have h2 : scenarioTree.visits 3 = .ok [⟨"", "", true, 0⟩, ⟨"A", "", true, 1⟩,
    ⟨"A1", "A", false, 2⟩, ⟨"B", "", false, 1⟩] := rfl
  rw [h2] at h1
  simp only [Except.ok.injEq] at h1
  exact ⟨vs, by rw [h2, h1], by rw [← h1]; rfl, by rw [← h1]; rfl⟩

/-- C26 fails on the code: after a layout of the scenario tree at offset 0
(visible rows `A` and `A1`) the tree is scrolled to offset 19 and `refreshForID`
is called with `onlyNewTreeNodesID`; the layout makes the rows `A1` and `B`
visible, the leaf `B` is newly visible and bound, and `Refresh` is called on no
row.  With `allTreeNodesID` the same call refreshes the leaves too, and scrolling
back to offset 0 with `onlyNewTreeNodesID` refreshes the newly visible branch `A`. -/
theorem refreshForID_skips_new_leaf :
    ((scenarioRenderer.Layout 3 ⟨100, 38⟩).bind (fun r0 =>
        (r0.withTree { r0.treeContent.tree with offset := ⟨0, 19⟩ }).refreshForID 3
          ⟨100, 38⟩ ⟨100, 15⟩ onlyNewTreeNodesID)).map
      (fun x => (x.1.wasVisible, x.1.visible, x.1.branches.map Prod.fst,
        x.1.leaves.map Prod.fst, x.2)) =
      .ok (["A", "A1"], ["A1", "B"], [], ["A1", "B"], []) ∧
    ((scenarioRenderer.Layout 3 ⟨100, 38⟩).bind (fun r0 =>
        (r0.withTree { r0.treeContent.tree with offset := ⟨0, 19⟩ }).refreshForID 3
          ⟨100, 38⟩ ⟨100, 15⟩ allTreeNodesID)).map (fun x => x.2) =
      .ok [("A1", false), ("B", false)] ∧
    (((scenarioRenderer.Layout 3 ⟨100, 38⟩).bind (fun r0 =>
        (r0.withTree { r0.treeContent.tree with offset := ⟨0, 19⟩ }).refreshForID 3
          ⟨100, 38⟩ ⟨100, 15⟩ onlyNewTreeNodesID)).bind (fun x =>
        (x.1.withTree { x.1.treeContent.tree with offset := ⟨0, 0⟩ }).refreshForID 3
          ⟨100, 38⟩ ⟨100, 15⟩ onlyNewTreeNodesID)).map
      (fun x => (x.1.wasVisible, x.1.visible, x.2)) =
      .ok (["A1", "B"], ["A", "A1"], [("A", true)]) :=
  ⟨rfl, rfl, rfl⟩

/-! ## Lemmas on the row pools -/

theorem mapSet_fresh (m : List (String × treeNode)) (k : String) (v : treeNode)
    (h : k ∉ m.map Prod.fst) : mapSet m k v = m ++ [(k, v)] := by
  unfold mapSet
  congr 1
  rw [List.filter_eq_self]
  intro e he
  simp only [ne_eq, decide_not, Bool.not_eq_true', decide_eq_false_iff_not]
  intro hk
  exact h (hk ▸ List.mem_map_of_mem Prod.fst he)

theorem assoc_lookup_mem (l : List (String × treeNode)) (k : String) (b : treeNode)
    (h : l.lookup k = some b) : (k, b) ∈ l := by
  rw [List.lookup_eq_some_iff] at h
  obtain ⟨l1, l2, rfl, _⟩ := h
  simp

theorem assoc_lookup_none (l : List (String × treeNode)) (k : String) :
    l.lookup k = none ↔ k ∉ l.map Prod.fst := by
  rw [List.lookup_eq_none_iff]
  simp only [bne_iff_ne, ne_eq, List.mem_map, not_exists, not_and]
  constructor
  · intro h e he hk
    exact h e he hk.symm
  · intro h e he hk
    exact h e he hk.symm

/-- The instances released when the new map gains a key: those released before,
less the entries of the old map under that key. -/
theorem released_append (old new : List (String × treeNode)) (k : String) (v : treeNode) :
    released old (new ++ [(k, v)]) =
      ((old.filter (fun e => (new.lookup e.1).isNone)).filter
        (fun e => decide (e.1 ≠ k))).map Prod.snd := by
  unfold released
  rw [List.filter_filter]
  congr 1
  apply List.filter_congr
  intro e _
  rw [List.lookup_append]
  by_cases hk : e.1 = k
  · cases hl : new.lookup e.1 <;> simp [hk, List.lookup]
  · have hk1 : (e.1 == k) = false := by simpa using hk
    cases hl : new.lookup e.1 <;> simp [hk, hk1, List.lookup]

/-- In a map, the values are the value under a key together with the values under
the other keys. -/
theorem assoc_split (f : treeNode → Nat) (l : List (String × treeNode)) (k : String)
    (b : treeNode) (hnd : (l.map Prod.fst).Nodup) (hm : (k, b) ∈ l) :
    ((l.map Prod.snd).map f : Multiset Nat) =
      f b ::ₘ (((l.filter (fun e => decide (e.1 ≠ k))).map Prod.snd).map f : Multiset Nat) := by
  induction l with
  | nil => simp at hm
  | cons e rest ih =>
    rw [List.map_cons, List.nodup_cons] at hnd
    by_cases hk : e.1 = k
    · have he : e = (k, b) := by
        rcases List.mem_cons.mp hm with h | h
        · exact h.symm
        · exact absurd (hk ▸ List.mem_map_of_mem Prod.fst h) hnd.1
      have hrest : rest.filter (fun e => decide (e.1 ≠ k)) = rest := by
        rw [List.filter_eq_self]
        intro e1 he1
        simp only [ne_eq, decide_not, Bool.not_eq_true', decide_eq_false_iff_not]
        intro h1
        exact hnd.1 (by rw [hk, ← h1]; exact List.mem_map_of_mem Prod.fst he1)
      rw [List.filter_cons]
      simp only [hk, ne_eq, not_true_eq_false, decide_False, Bool.false_eq_true, if_false, hrest]
      rw [he]
      rfl
    · have hm1 : (k, b) ∈ rest := by
        rcases List.mem_cons.mp hm with h | h
        · exact absurd (by rw [← h]) hk
        · exact h
      rw [List.filter_cons]
      simp only [hk, ne_eq, not_false_eq_true, decide_True, if_true, List.map_cons]
      rw [← Multiset.cons_coe, ← Multiset.cons_coe, ih hnd.2 hm1, Multiset.cons_swap]

theorem filter_key_ne (l : List (String × treeNode)) (k : String) (h : k ∉ l.map Prod.fst) :
    l.filter (fun e => decide (e.1 ≠ k)) = l := by
  rw [List.filter_eq_self]
  intro e he
  simp only [ne_eq, decide_not, Bool.not_eq_true', decide_eq_false_iff_not]
  intro hk
  exact h (hk ▸ List.mem_map_of_mem Prod.fst he)
/-- Binding a visible row keeps the account of identities of its kind: a reused or
pooled instance moves within the account, and a new instance adds the next
identity. -/
theorem bind_step_sum (old new : List (String × treeNode)) (pool pool1 : List treeNode)
    (next next1 : Nat) (uid : String) (n : treeNode) (k : Bool)
    (hold : (old.map Prod.fst).Nodup) (hk : uid ∉ new.map Prod.fst)
    (hc : BindCase old pool next uid n k pool1 next1) (X : Multiset Nat)
    (h : (poolList old new pool : Multiset Nat) + X = Multiset.range next) :
    (poolList old (mapSet new uid n) pool1 : Multiset Nat) + X = Multiset.range next1 := by
  rw [mapSet_fresh new uid n hk]
  unfold poolList instanceIds at h ⊢
  rw [released_append]
  simp only [← Multiset.coe_add, List.map_append, List.map_cons, List.map_nil] at h ⊢
  have hnone : new.lookup uid = none := (assoc_lookup_none new uid).mpr hk
  rcases hc with ⟨b, hb, hi, _, hp, hn⟩ | ⟨hb, o, hp, hi, _, hn⟩ | ⟨hb, hp, hp1, hi, _, hn⟩
  · have hmem : (uid, b) ∈ old.filter (fun e => (new.lookup e.1).isNone) := by
      rw [List.mem_filter]
      exact ⟨assoc_lookup_mem old uid b hb, by simp [hnone]⟩
    have hnd : ((old.filter (fun e => (new.lookup e.1).isNone)).map Prod.fst).Nodup :=
      hold.sublist ((List.filter_sublist _).map Prod.fst)
    have hs := assoc_split treeNode.ident _ uid b hnd hmem
    unfold released at h
    rw [hs] at h
    rw [hp, hn, ← h, hi]
    simp only [← Multiset.cons_coe, ← Multiset.singleton_add, Multiset.coe_nil, add_zero]
    abel
  · have hk2 : uid ∉ (old.filter (fun e => (new.lookup e.1).isNone)).map Prod.fst := by
      intro hmem
      exact (assoc_lookup_none old uid).mp hb
        (((List.filter_sublist _).map Prod.fst).subset hmem)
    rw [filter_key_ne _ uid hk2]
    unfold released at h
    rw [hn, ← h, hp, hi]
    simp only [List.map_cons, ← Multiset.cons_coe, ← Multiset.singleton_add, Multiset.coe_nil,
      add_zero]
    abel
  · have hk2 : uid ∉ (old.filter (fun e => (new.lookup e.1).isNone)).map Prod.fst := by
      intro hmem
      exact (assoc_lookup_none old uid).mp hb
        (((List.filter_sublist _).map Prod.fst).subset hmem)
    rw [filter_key_ne _ uid hk2]
    unfold released at h
    rw [hp] at h
    rw [hn, hp1, Multiset.range_succ, ← h, hi]
    simp only [List.map_nil, ← Multiset.cons_coe, ← Multiset.singleton_add, Multiset.coe_nil,
      add_zero]
    abel

/-- Binding a visible row keeps the new map a map, adds its id to the keys, and
keeps the kinds of the map and of the pool. -/
theorem bind_step_kinds (old new : List (String × treeNode)) (pool pool1 : List treeNode)
    (next next1 : Nat) (uid : String) (n : treeNode) (k : Bool)
    (hk : uid ∉ new.map Prod.fst) (hnd : (new.map Prod.fst).Nodup)
    (hc : BindCase old pool next uid n k pool1 next1)
    (hold : ∀ e ∈ old, e.2.isBranch = k) (hnew : ∀ e ∈ new, e.2.isBranch = k)
    (hpool : ∀ o ∈ pool, o.isBranch = k) :
    (mapSet new uid n).map Prod.fst = new.map Prod.fst ++ [uid] ∧
    ((mapSet new uid n).map Prod.fst).Nodup ∧
    (∀ e ∈ mapSet new uid n, e.2.isBranch = k) ∧
    (∀ o ∈ pool1, o.isBranch = k) := by
  rw [mapSet_fresh new uid n hk]
  have hkind : n.isBranch = k ∧ ∀ o ∈ pool1, o.isBranch = k := by
    rcases hc with ⟨b, hb, _, hi, hp, _⟩ | ⟨_, o, hp, _, hi, _⟩ | ⟨_, _, hp1, _, hi, _⟩
    · rw [hp, hi]
      exact ⟨hold _ (assoc_lookup_mem old uid b hb), hpool⟩
    · rw [hi]
      rw [hp] at hpool
      exact ⟨hpool o (List.mem_cons_self _ _), fun o1 h1 => hpool o1 (List.mem_cons_of_mem _ h1)⟩
    · rw [hp1]
      exact ⟨hi, fun o1 h1 => by simp at h1⟩
  refine ⟨by simp, ?_, ?_, hkind.2⟩
  · rw [List.map_append, List.map_cons, List.map_nil]
    exact List.Nodup.append hnd (List.nodup_singleton _)
      (by simpa [List.disjoint_singleton] using hk)
  · intro e he
    rw [List.mem_append, List.mem_singleton] at he
    rcases he with he | he
    · exact hnew e he
    · rw [he]
      exact hkind.1

/-- What `layoutRow` does to the maps and the pools: it writes neither the old maps
nor `visible`, leaves the other kind alone, and binds an instance obtained in one
of the three ways of `BindCase` under `uid` in the new map of the row's kind. -/
theorem layoutRow_pool (c : LayoutConsts) (t : Tree) (uid : String) (isBranch : Bool)
    (depth : Int) (y : Int) (m : Size) (v : LayoutVars) :
    (treeContentRenderer.layoutRow c t uid isBranch depth y m v).r.branches = v.r.branches ∧
    (treeContentRenderer.layoutRow c t uid isBranch depth y m v).r.leaves = v.r.leaves ∧
    (treeContentRenderer.layoutRow c t uid isBranch depth y m v).r.visible = v.r.visible ∧
    ((isBranch = true ∧
        (treeContentRenderer.layoutRow c t uid isBranch depth y m v).leaves = v.leaves ∧
        (treeContentRenderer.layoutRow c t uid isBranch depth y m v).r.leafPool = v.r.leafPool ∧
        ∃ n, (treeContentRenderer.layoutRow c t uid isBranch depth y m v).branches =
            mapSet v.branches uid n ∧
          BindCase v.r.branches v.r.branchPool v.r.nextIdent uid n true
            (treeContentRenderer.layoutRow c t uid isBranch depth y m v).r.branchPool
            (treeContentRenderer.layoutRow c t uid isBranch depth y m v).r.nextIdent) ∨
      (isBranch = false ∧
        (treeContentRenderer.layoutRow c t uid isBranch depth y m v).branches = v.branches ∧
        (treeContentRenderer.layoutRow c t uid isBranch depth y m v).r.branchPool =
          v.r.branchPool ∧
        ∃ n, (treeContentRenderer.layoutRow c t uid isBranch depth y m v).leaves =
            mapSet v.leaves uid n ∧
          BindCase v.r.leaves v.r.leafPool v.r.nextIdent uid n false
            (treeContentRenderer.layoutRow c t uid isBranch depth y m v).r.leafPool
            (treeContentRenderer.layoutRow c t uid isBranch depth y m v).r.nextIdent)) := by
  unfold treeContentRenderer.layoutRow
  cases isBranch
  · refine ⟨?_, ?_, ?_, Or.inr ⟨rfl, ?_⟩⟩
    all_goals
      cases hl : v.r.leaves.lookup uid with
      | some l =>
        first
        | rfl
        | exact ⟨rfl, rfl, _, rfl, Or.inl ⟨l, hl, rfl, rfl, rfl, rfl⟩⟩
      | none =>
        unfold treeContentRenderer.getLeaf
        cases hp : v.r.leafPool with
        | nil =>
          cases hu : t.UpdateNode <;>
          first
          | rfl
          | exact ⟨rfl, rfl, _, rfl, Or.inr (Or.inr ⟨hl, rfl, rfl, rfl, rfl, rfl⟩)⟩
        | cons o rest =>
          cases hu : t.UpdateNode <;>
          first
          | rfl
          | exact ⟨rfl, rfl, _, rfl, Or.inr (Or.inl ⟨hl, o, rfl, rfl, rfl, rfl⟩)⟩
  · refine ⟨?_, ?_, ?_, Or.inl ⟨rfl, ?_⟩⟩
    all_goals
      cases hl : v.r.branches.lookup uid with
      | some l =>
        first
        | rfl
        | exact ⟨rfl, rfl, _, rfl, Or.inl ⟨l, hl, rfl, rfl, rfl, rfl⟩⟩
      | none =>
        unfold treeContentRenderer.getBranch
        cases hp : v.r.branchPool with
        | nil =>
          cases hu : t.UpdateNode <;>
          first
          | rfl
          | exact ⟨rfl, rfl, _, rfl, Or.inr (Or.inr ⟨hl, rfl, rfl, rfl, rfl, rfl⟩)⟩
        | cons o rest =>
          cases hu : t.UpdateNode <;>
          first
          | rfl
          | exact ⟨rfl, rfl, _, rfl, Or.inr (Or.inl ⟨hl, o, rfl, rfl, rfl, rfl⟩)⟩

theorem layoutSeparator_pool (c : LayoutConsts) (y : Int) (v : LayoutVars) :
    (treeContentRenderer.layoutSeparator c y v).r.branches = v.r.branches ∧
    (treeContentRenderer.layoutSeparator c y v).r.leaves = v.r.leaves ∧
    (treeContentRenderer.layoutSeparator c y v).r.visible = v.r.visible ∧
    (treeContentRenderer.layoutSeparator c y v).branches = v.branches ∧
    (treeContentRenderer.layoutSeparator c y v).leaves = v.leaves ∧
    (treeContentRenderer.layoutSeparator c y v).r.branchPool = v.r.branchPool ∧
    (treeContentRenderer.layoutSeparator c y v).r.leafPool = v.r.leafPool ∧
    (treeContentRenderer.layoutSeparator c y v).r.nextIdent = v.r.nextIdent := by
  unfold treeContentRenderer.layoutSeparator
  simp only
  split_ifs <;> exact ⟨rfl, rfl, rfl, rfl, rfl, rfl, rfl, rfl⟩


/-- Binding a visible row that is not yet in `visible` keeps the loop invariant of
the pools; `lv1` is the state in which the row was just recorded in `visible`. -/
theorem layoutRow_poolLoop (c : LayoutConsts) (t : Tree) (OB OL : List (String × treeNode))
    (hOB : (OB.map Prod.fst).Nodup) (hOL : (OL.map Prod.fst).Nodup)
    (hkB : ∀ e ∈ OB, e.2.isBranch = true) (hkL : ∀ e ∈ OL, e.2.isBranch = false)
    (uid : String) (isBranch : Bool) (depth : Int) (y : Int) (m : Size) (lv lv1 : LayoutVars)
    (hfresh : uid ∉ lv.r.visible) (h : PoolLoop OB OL lv)
    (e1 : lv1.r.branches = lv.r.branches) (e2 : lv1.r.leaves = lv.r.leaves)
    (e3 : lv1.r.visible = lv.r.visible ++ [uid]) (e4 : lv1.branches = lv.branches)
    (e5 : lv1.leaves = lv.leaves) (e6 : lv1.r.branchPool = lv.r.branchPool)
    (e7 : lv1.r.leafPool = lv.r.leafPool) (e8 : lv1.r.nextIdent = lv.r.nextIdent) :
    PoolLoop OB OL (treeContentRenderer.layoutRow c t uid isBranch depth y m lv1) := by
  obtain ⟨hb, hl, hperm, hndB, hndL, hvis, hnB, hnL, hpB, hpL⟩ := h
  obtain ⟨f1, f2, f3, hcase⟩ := layoutRow_pool c t uid isBranch depth y m lv1
  have hfB : uid ∉ lv.branches.map Prod.fst := fun hx =>
    hfresh ((hvis uid).mp (List.mem_append_left _ hx))
  have hfL : uid ∉ lv.leaves.map Prod.fst := fun hx =>
    hfresh ((hvis uid).mp (List.mem_append_right _ hx))
  have hsum : (poolList OB lv.branches lv.r.branchPool : Multiset Nat) +
      (poolList OL lv.leaves lv.r.leafPool : Multiset Nat) = Multiset.range lv.r.nextIdent := by
    rw [Multiset.coe_add, ← Multiset.coe_range, Multiset.coe_eq_coe]
    exact hperm
  rcases hcase with ⟨_, g1, g2, n, g3, g4⟩ | ⟨_, g1, g2, n, g3, g4⟩
  · rw [e1, hb, e6, e8] at g4
    rw [e4] at g3
    rw [e5] at g1
    rw [e7] at g2
    obtain ⟨k1, k2, k3, k4⟩ := bind_step_kinds OB lv.branches lv.r.branchPool _ _ _ uid n true
      hfB hndB g4 hkB hnB hpB
    have hs := bind_step_sum OB lv.branches lv.r.branchPool _ _ _ uid n true hOB hfB g4 _ hsum
    refine ⟨by rw [f1, e1, hb], by rw [f2, e2, hl], ?_, by rw [g3]; exact k2,
      by rw [g1]; exact hndL, ?_, by rw [g3]; exact k3, by rw [g1]; exact hnL, k4,
      by rw [g2]; exact hpL⟩
    · rw [g3, g1, g2, ← Multiset.coe_eq_coe, ← Multiset.coe_add, Multiset.coe_range]
      exact hs
    · intro u
      rw [g3, g1, f3, e3, k1]
      have := hvis u
      simp only [List.mem_append, List.mem_singleton] at this ⊢
      tauto
  · rw [e2, hl, e7, e8] at g4
    rw [e5] at g3
    rw [e4] at g1
    rw [e6] at g2
    obtain ⟨k1, k2, k3, k4⟩ := bind_step_kinds OL lv.leaves lv.r.leafPool _ _ _ uid n false
      hfL hndL g4 hkL hnL hpL
    have hs := bind_step_sum OL lv.leaves lv.r.leafPool _ _ _ uid n false hOL hfL g4 _
      (by rw [add_comm]; exact hsum)
    refine ⟨by rw [f1, e1, hb], by rw [f2, e2, hl], ?_, by rw [g1]; exact hndB,
      by rw [g3]; exact k2, ?_, by rw [g1]; exact hnB, by rw [g3]; exact k3,
      by rw [g2]; exact hpB, k4⟩
    · rw [g3, g1, g2, ← Multiset.coe_eq_coe, ← Multiset.coe_add, Multiset.coe_range, add_comm]
      exact hs
    · intro u
      rw [g3, g1, f3, e3, k1]
      have := hvis u
      simp only [List.mem_append, List.mem_singleton] at this ⊢
      tauto

/-- One call of the closure of `Layout` for an id that is not yet in `visible`
keeps the loop invariant of the pools, and leaves `visible` as it is or appends
the id. -/
theorem layoutNode_poolLoop (c : LayoutConsts) (t : Tree) (OB OL : List (String × treeNode))
    (hOB : (OB.map Prod.fst).Nodup) (hOL : (OL.map Prod.fst).Nodup)
    (hkB : ∀ e ∈ OB, e.2.isBranch = true) (hkL : ∀ e ∈ OL, e.2.isBranch = false)
    (v : Visit) (lv : LayoutVars) (hfresh : v.id ∉ lv.r.visible) (h : PoolLoop OB OL lv) :
    PoolLoop OB OL (treeContentRenderer.layoutNode c v.id v.parent v.branch v.depth (t, lv)).2 ∧
    ((treeContentRenderer.layoutNode c v.id v.parent v.branch v.depth (t, lv)).2.r.visible =
        lv.r.visible ∨
      (treeContentRenderer.layoutNode c v.id v.parent v.branch v.depth (t, lv)).2.r.visible =
        lv.r.visible ++ [v.id]) := by
  rcases layoutNode_cases c t v.id v.parent v.branch v.depth lv with
    e | ⟨y, sc, e⟩ | ⟨y0, sc, y1, d1, _, e⟩ | ⟨y0, sc, y1, d1, e⟩
  · rw [e]
    exact ⟨h, Or.inl rfl⟩
  · rw [e]
    exact ⟨h, Or.inl rfl⟩
  · rw [e]
    obtain ⟨s1, s2, s3, s4, s5, s6, s7, s8⟩ := layoutSeparator_pool c y0
      { lv with y := y0, separatorCount := sc,
                r := { lv.r with visible := lv.r.visible ++ [v.id] } }
    have hp := layoutRow_poolLoop c t OB OL hOB hOL hkB hkL v.id v.branch d1 y0
      (if v.branch then t.branchMinSize else t.leafMinSize) lv _ hfresh h s1 s2 s3 s4 s5 s6 s7 s8
    have hv := (layoutRow_pool c t v.id v.branch d1 y0
      (if v.branch then t.branchMinSize else t.leafMinSize)
      (treeContentRenderer.layoutSeparator c y0
        { lv with y := y0, separatorCount := sc,
                  r := { lv.r with visible := lv.r.visible ++ [v.id] } })).2.2.1
    exact ⟨hp, Or.inr (hv.trans s3)⟩
  · rw [e]
    have hp := layoutRow_poolLoop c t OB OL hOB hOL hkB hkL v.id v.branch d1 y0
      (if v.branch then t.branchMinSize else t.leafMinSize) lv
      { lv with y := y0, separatorCount := sc,
                r := { lv.r with visible := lv.r.visible ++ [v.id] } }
      hfresh h rfl rfl rfl rfl rfl rfl rfl rfl
    have hv := (layoutRow_pool c t v.id v.branch d1 y0
      (if v.branch then t.branchMinSize else t.leafMinSize)
      { lv with y := y0, separatorCount := sc,
                r := { lv.r with visible := lv.r.visible ++ [v.id] } }).2.2.1
    exact ⟨hp, Or.inr hv⟩

/-- The closure of `Layout` folded over recorded calls with distinct ids, none of
them yet in `visible`, keeps the loop invariant of the pools. -/
theorem layout_fold_poolLoop (c : LayoutConsts) (t : Tree) (OB OL : List (String × treeNode))
    (hOB : (OB.map Prod.fst).Nodup) (hOL : (OL.map Prod.fst).Nodup)
    (hkB : ∀ e ∈ OB, e.2.isBranch = true) (hkL : ∀ e ∈ OL, e.2.isBranch = false)
    (vs : List Visit) :
    ∀ lv, (vs.map Visit.id).Nodup → (∀ u ∈ lv.r.visible, u ∉ vs.map Visit.id) →
      PoolLoop OB OL lv →
      PoolLoop OB OL (vs.foldl (applyVisit (treeContentRenderer.layoutNode c)) (t, lv)).2 := by
  induction vs with
  | nil => intro lv _ _ h; exact h
  | cons v vs ih =>
    intro lv hnd hvis h
    rw [List.foldl_cons]
    have e : applyVisit (treeContentRenderer.layoutNode c) (t, lv) v =
        (t, (treeContentRenderer.layoutNode c v.id v.parent v.branch v.depth (t, lv)).2) := by
      unfold applyVisit
      exact Prod.ext (layoutNode_fst c v.id v.parent v.branch v.depth (t, lv)) rfl
    rw [e]
    rw [List.map_cons, List.nodup_cons] at hnd
    have hfresh : v.id ∉ lv.r.visible := fun hx =>
      hvis v.id hx (by rw [List.map_cons]; exact List.mem_cons_self _ _)
    obtain ⟨h1, h2⟩ := layoutNode_poolLoop c t OB OL hOB hOL hkB hkL v lv hfresh h
    refine ih _ hnd.2 ?_ h1
    intro u hu
    rcases h2 with h2 | h2
    · rw [h2] at hu
      have := hvis u hu
      rw [List.map_cons, List.mem_cons, not_or] at this
      exact this.2
    · rw [h2, List.mem_append, List.mem_singleton] at hu
      rcases hu with hu | hu
      · have := hvis u hu
        rw [List.map_cons, List.mem_cons, not_or] at this
        exact this.2
      · rw [hu]
        exact hnd.1


theorem released_nil (old : List (String × treeNode)) : released old [] = old.map Prod.snd := by
  unfold released
  congr 1
  rw [List.filter_eq_self]
  intro e _
  rfl

theorem released_subset (old new : List (String × treeNode)) (n : treeNode)
    (h : n ∈ released old new) : ∃ e ∈ old, e.2 = n := by
  unfold released at h
  rw [List.mem_map] at h
  obtain ⟨e, he, hn⟩ := h
  exact ⟨e, (List.mem_filter.mp he).1, hn⟩

/-- The loop invariant holds when the walk of `Layout` starts, given the pool
invariant of the renderer. -/
theorem poolLoop_init (r : treeContentRenderer) (hinv : r.PoolInvariant) :
    PoolLoop r.branches r.leaves
      ⟨{ r with objects := [], wasVisible := r.visible, visible := [] }, [], [], 0, 0⟩ := by
  obtain ⟨hperm, _, _, _, _, hpB, hpL⟩ := hinv
  refine ⟨rfl, rfl, ?_, List.nodup_nil, List.nodup_nil, by simp, by simp, by simp, hpB, hpL⟩
  rw [← Multiset.coe_eq_coe] at hperm ⊢
  rw [← hperm]
  simp only [poolList, instanceIds, released_nil, treeContentRenderer.bound,
    treeContentRenderer.pooled, List.map_nil, List.nil_append, List.map_append,
    ← Multiset.coe_add]
  abel

/-- The loop invariant at the end of the walk gives the pool invariant of the
renderer `Layout` returns. -/
theorem poolLoop_final (OB OL : List (String × treeNode)) (lv : LayoutVars)
    (hkB : ∀ e ∈ OB, e.2.isBranch = true) (hkL : ∀ e ∈ OL, e.2.isBranch = false)
    (h : PoolLoop OB OL lv) (r1 : treeContentRenderer)
    (e1 : r1.branches = lv.branches) (e2 : r1.leaves = lv.leaves)
    (e3 : r1.branchPool = (released lv.r.branches lv.branches).reverse ++ lv.r.branchPool)
    (e4 : r1.leafPool = (released lv.r.leaves lv.leaves).reverse ++ lv.r.leafPool)
    (e5 : r1.nextIdent = lv.r.nextIdent) : r1.PoolInvariant := by
  obtain ⟨hb, hl, hperm, hndB, hndL, _, hnB, hnL, hpB, hpL⟩ := h
  refine ⟨?_, by rw [e1]; exact hndB, by rw [e2]; exact hndL, by rw [e1]; exact hnB,
    by rw [e2]; exact hnL, ?_, ?_⟩
  · rw [← Multiset.coe_eq_coe] at hperm ⊢
    rw [e5, ← hperm]
    simp only [poolList, instanceIds, treeContentRenderer.bound, treeContentRenderer.pooled,
      e1, e2, e3, e4, hb, hl, List.map_append, List.map_reverse, ← Multiset.coe_add,
      Multiset.coe_reverse]
    abel
  · intro n hn
    rw [e3, List.mem_append, List.mem_reverse, hb] at hn
    rcases hn with hn | hn
    · obtain ⟨e, he, hen⟩ := released_subset OB lv.branches n hn
      rw [← hen]
      exact hkB e he
    · exact hpB n hn
  · intro n hn
    rw [e4, List.mem_append, List.mem_reverse, hl] at hn
    rcases hn with hn | hn
    · obtain ⟨e, he, hen⟩ := released_subset OL lv.leaves n hn
      rw [← hen]
      exact hkL e he
    · exact hpL n hn

/-- An entry of the old map whose id is not a key of the new map is released. -/
theorem released_mem (old new : List (String × treeNode)) (e : String × treeNode)
    (he : e ∈ old) (hk : e.1 ∉ new.map Prod.fst) : e.2 ∈ released old new := by
  unfold released
  rw [List.mem_map]
  refine ⟨e, List.mem_filter.mpr ⟨he, ?_⟩, rfl⟩
  rw [(assoc_lookup_none new e.1).mpr hk]
  rfl

/-- C21: the pool invariant of `treeContentRenderer`.  A fresh renderer satisfies
the invariant, and for every tree whose walk visits each id once, `Layout` returns
once the walk does and keeps it: after the `Layout` each row instance allocated so
far is held exactly once, either bound in the `branches` or `leaves` map or in a
pool, never both; the bound ids (the keys of the two maps) are exactly the ids in
`visible`; and every id that was bound before the `Layout` and is not in `visible`
after it has its instance in the pool of its own kind, a branch in `branchPool`
and a leaf in `leafPool`. -/
theorem layout_pool_invariant (fuel : Nat) (r : treeContentRenderer) (size : Size)
    (vs : List Visit) (hvs : r.treeContent.tree.visits fuel = .ok vs)
    (huniq : (vs.map Visit.id).Nodup) (hinv : r.PoolInvariant) :
    (treeContent.CreateRenderer r.treeContent).PoolInvariant ∧
    ∃ r1, r.Layout fuel size = .ok r1 ∧ r1.PoolInvariant ∧
      (∀ u, u ∈ r1.branches.map Prod.fst ++ r1.leaves.map Prod.fst ↔ u ∈ r1.visible) ∧
      (∀ e ∈ r.branches, e.1 ∉ r1.visible → e.2 ∈ r1.branchPool ∧ e.2.isBranch = true) ∧
      (∀ e ∈ r.leaves, e.1 ∉ r1.visible → e.2 ∈ r1.leafPool ∧ e.2.isBranch = false) := by
  constructor
  · refine ⟨?_, List.nodup_nil, List.nodup_nil, ?_, ?_, ?_, ?_⟩
    · exact List.Perm.refl _
    all_goals
      intro e he
      simp [treeContent.CreateRenderer] at he
  have hw := fun c lv => walkAll_fold (treeContentRenderer.layoutNode c)
    (fun id p br d a => by rw [layoutNode_fst]; exact sameShape_refl _)
    fuel (r.treeContent.tree, lv) r.treeContent.tree (sameShape_refl _) vs hvs
  have hinv0 := hinv
  obtain ⟨_, hOB, hOL, hkB, hkL, _, _⟩ := hinv
  unfold treeContentRenderer.Layout
  simp only
  rw [hw]
  simp only
  have hJ := layout_fold_poolLoop
    ⟨r.treeContent.tree.theme.SizeNamePadding, r.treeContent.tree.offset.Y,
      r.treeContent.viewport, max size.Width r.treeContent.viewport.Width,
      ⟨max size.Width r.treeContent.viewport.Width,
        r.treeContent.tree.theme.SizeNameSeparatorThickness⟩,
      (r.treeContent.tree.theme.SizeNamePadding +
        r.treeContent.tree.theme.SizeNameSeparatorThickness) / 2,
      r.treeContent.tree.HideSeparators⟩ r.treeContent.tree r.branches r.leaves hOB hOL hkB hkL
    vs ⟨{ r with objects := [], wasVisible := r.visible, visible := [] }, [], [], 0, 0⟩ huniq
    (by intro u hu; simp at hu) (poolLoop_init r hinv0)
  refine ⟨_, rfl, poolLoop_final r.branches r.leaves _ hkB hkL hJ _ rfl rfl rfl rfl rfl, ?_, ?_, ?_⟩
  · exact hJ.2.2.2.2.2.1
  · intro e he hv
    have hk : e.1 ∉ List.map Prod.fst _ := fun hx =>
      hv ((hJ.2.2.2.2.2.1 e.1).mp (List.mem_append_left _ hx))
    refine ⟨?_, hkB e he⟩
    simp only
    rw [List.mem_append, List.mem_reverse, hJ.1]
    exact Or.inl (released_mem r.branches _ e he hk)
  · intro e he hv
    have hk : e.1 ∉ List.map Prod.fst _ := fun hx =>
      hv ((hJ.2.2.2.2.2.1 e.1).mp (List.mem_append_right _ hx))
    refine ⟨?_, hkL e he⟩
    simp only
    rw [List.mem_append, List.mem_reverse, hJ.2.1]
    exact Or.inl (released_mem r.leaves _ e he hk)

theorem layout_pool_invariant_witness :
    ∃ r1, boundRenderer.Layout 3 ⟨100, 38⟩ = .ok r1 ∧ r1.PoolInvariant ∧
      r1.visible = ["A1", "B"] ∧
      (⟨0, "A", 0, true, true, ⟨0, 0⟩, ⟨100, 10⟩⟩ : treeNode) ∈ r1.branchPool := by
  have hinv : boundRenderer.PoolInvariant := by
    refine ⟨List.Perm.refl _, by decide, by decide, ?_, ?_, ?_, ?_⟩ <;> decide
  obtain ⟨_, r1, h1, h2, _, h4, _⟩ := layout_pool_invariant 3 boundRenderer ⟨100, 38⟩
    [⟨"", "", true, 0⟩, ⟨"A", "", true, 1⟩, ⟨"A1", "A", false, 2⟩, ⟨"B", "", false, 1⟩] rfl
    (by decide) hinv
  have hv : (boundRenderer.Layout 3 ⟨100, 38⟩).map (fun r => r.visible) = .ok ["A1", "B"] := rfl
  rw [h1] at hv
  simp only [Except.map, Except.ok.injEq] at hv
  refine ⟨r1, h1, h2, hv, (h4 ("A", ⟨0, "A", 0, true, true, ⟨0, 0⟩, ⟨100, 10⟩⟩)
    (List.mem_cons_self _ _) ?_).1⟩
  rw [hv]
  decide

end widget
